import Mathlib

/-!
# Permify: attribute codec, schema reader, database options

A shallow embedding of

* the typed attribute codec of `pkg/attribute/attribute.go`: `Attribute`
  (decode), `ToString` (encode), `AnyToString`, `TypeUrlToString` and
  `ValidateValue`;
* the in-memory schema reader of `internal/storage/memory/schemaReader.go`:
  `ReadSchema`, `ReadEntityDefinition`, `ReadRuleDefinition`, `HeadVersion` and
  `ListSchemas`;
* the engine names of `pkg/database/consts.go` and the constructor `New` with its
  options of `pkg/database/mysql`.

Conventions of the embedding

* A Go `string` is a `List Char` (`Str`).  All separators used by the codec are
  single ASCII characters, so splitting on code points and splitting on bytes
  agree on every valid UTF-8 string.
* Functions of the Go standard library (`strings`, `strconv`) are written out
  from their documented behaviour, under their Go names.
* Floating point and the protobuf wire format are not written out: they are the
  fields of a record `Lib` that every codec function takes as its first argument.
* A Go pointer that may be `nil` is an `Option`; a `nil` dereference is the
  result `none` of the function in which it happens.
* The table of the schema reader is the list of its rows; the two indexes of
  `go-memdb` are the functions `memdb.Get`, `memdb.First` and `memdb.LowerBound`
  on that list.  Every reader function returns its Go results together with the
  store after the call.
* The schema compiler, the identifier library `xid` and the token encoding are
  the fields of a record `Ext`; the defaults and the library calls of the
  database constructor are the fields of a record `mysql.Env`.
-/

set_option linter.dupNamespace false

namespace Permify

/-- A Go string, as the list of its characters. -/
abbrev Str := List Char

/-! ## Package `strings` -/

namespace strings

/-- Go `unicode.IsSpace`: the Latin-1 spaces and the Unicode `White_Space` table. -/
def isSpace (c : Char) : Bool :=
  let n := c.toNat
  n = 0x09 || n = 0x0A || n = 0x0B || n = 0x0C || n = 0x0D || n = 0x20 ||
  n = 0x85 || n = 0xA0 || n = 0x1680 || (0x2000 ≤ n && n ≤ 0x200A) ||
  n = 0x2028 || n = 0x2029 || n = 0x202F || n = 0x205F || n = 0x3000

/-- Go `strings.TrimSpace`: all leading and trailing white space removed. -/
def TrimSpace (s : Str) : Str :=
  ((s.dropWhile isSpace).reverse.dropWhile isSpace).reverse

/-- Go `strings.Split(s, sep)` for a separator of one character: the substrings
between the separators, `Count(s, sep) + 1` of them. -/
def Split : Str → Char → List Str
  | [], _ => [[]]
  | c :: cs, sep =>
    if c = sep then [] :: Split cs sep
    else
      match Split cs sep with
      | [] => [[c]]
      | h :: t => (c :: h) :: t

/-- Go `strings.Join(elems, sep)`. -/
def Join : List Str → Str → Str
  | [], _ => []
  | [a], _ => a
  | a :: b :: rest, sep => a ++ sep ++ Join (b :: rest) sep

end strings

/-! ## Package `strconv` -/

namespace strconv

/-- The two error values `strconv.ErrSyntax` and `strconv.ErrRange`. -/
inductive ErrKind
  | ErrSyntax
  | ErrRange
deriving DecidableEq, Repr

/-- Go `strconv.NumError`: the failing function, the input and the reason. -/
structure NumError where
  Func : Str
  Num : Str
  Err : ErrKind
deriving DecidableEq, Repr

/-- Text of `ErrSyntax` and `ErrRange`. -/
def ErrKind.Error : ErrKind → Str
  | .ErrSyntax => "invalid syntax".toList
  | .ErrRange => "value out of range".toList

/-- Go `(*NumError).Error`, with `strconv.Quote` passed in. -/
def NumError.Error (Quote : Str → Str) (e : NumError) : Str :=
  "strconv.".toList ++ e.Func ++ ": parsing ".toList ++ Quote e.Num ++ ": ".toList ++ e.Err.Error

def syntaxError (fn str : Str) : NumError := ⟨fn, str, .ErrSyntax⟩

def rangeError (fn str : Str) : NumError := ⟨fn, str, .ErrRange⟩

/-- Go `strconv.FormatBool`. -/
def FormatBool (b : Bool) : Str :=
  if b then "true".toList else "false".toList

/-- Go `strconv.ParseBool`: accepts 1, t, T, TRUE, true, True, 0, f, F, FALSE,
false, False. -/
def ParseBool (str : Str) : Except NumError Bool :=
  if str = "1".toList ∨ str = "t".toList ∨ str = "T".toList ∨ str = "TRUE".toList ∨
      str = "true".toList ∨ str = "True".toList then .ok true
  else if str = "0".toList ∨ str = "f".toList ∨ str = "F".toList ∨ str = "FALSE".toList ∨
      str = "false".toList ∨ str = "False".toList then .ok false
  else .error (syntaxError "ParseBool".toList str)

/-- Largest `uint64`. -/
def maxUint64 : Nat := 2 ^ 64 - 1

/-- The digit loop of `strconv.ParseUint(s, 10, bitSize)`: `s0` is the whole
input (for the error value), `n` the `uint64` accumulator.  The result is the
pair `(value, error)` that Go returns.  In base 10 a letter is a digit `>= base`
and every other byte takes the `default` case: both return the same syntax
error. -/
def ParseUintLoop (s0 : Str) (bitSize : Nat) : List Char → Nat → Nat × Option NumError
  | [], n => (n, none)
  | c :: cs, n =>
    if 48 ≤ c.toNat ∧ c.toNat ≤ 57 then
      let d := c.toNat - 48
      let cutoff := maxUint64 / 10 + 1
      let maxVal := 2 ^ bitSize - 1
      if n ≥ cutoff then (maxVal, some (rangeError "ParseUint".toList s0))
      else
        let n10 := n * 10 % 2 ^ 64
        let n1 := (n10 + d) % 2 ^ 64
        if n1 < n10 ∨ n1 > maxVal then (maxVal, some (rangeError "ParseUint".toList s0))
        else ParseUintLoop s0 bitSize cs n1
    else (0, some (syntaxError "ParseUint".toList s0))

/-- Go `strconv.ParseUint(s, 10, bitSize)` for `0 < bitSize <= 64`. -/
def ParseUint (s : Str) (bitSize : Nat) : Nat × Option NumError :=
  if s = [] then (0, some (syntaxError "ParseUint".toList s))
  else ParseUintLoop s bitSize s 0

/-- Go `strconv.ParseInt(s, 10, bitSize)` for `0 < bitSize <= 64`; the value Go
returns next to an error is dropped, no caller in this package reads it. -/
def ParseInt (s : Str) (bitSize : Nat) : Except NumError Int :=
  match s with
  | [] => .error (syntaxError "ParseInt".toList s)
  | c :: rest =>
    let neg := c = '-'
    let digits := if c = '+' ∨ c = '-' then rest else s
    match ParseUint digits bitSize with
    | (_, some ⟨_, _, .ErrSyntax⟩) => .error ⟨"ParseInt".toList, s, .ErrSyntax⟩
    | (un, _) =>
      let cutoff := 2 ^ (bitSize - 1)
      if ¬ neg ∧ un ≥ cutoff then .error (rangeError "ParseInt".toList s)
      else if neg ∧ un > cutoff then .error (rangeError "ParseInt".toList s)
      else if neg then .ok (-(un : Int)) else .ok (un : Int)

/-- Go `strconv.Itoa`, that is `FormatInt(int64(i), 10)`: the decimal digits,
after a minus sign for a negative number. -/
def Itoa (i : Int) : Str :=
  if i < 0 then '-' :: Nat.toDigits 10 i.natAbs else Nat.toDigits 10 i.natAbs

end strconv

/-! ## Package `base` (generated protobuf types) and `anypb` -/

namespace base

/-- The eight wrapper messages of package `base.v1` that carry an attribute
value: `Boolean`, `BooleanArray`, `String`, `StringArray`, `Double`,
`DoubleArray`, `Integer`, `IntegerArray`. -/
inductive Kind
  | Boolean
  | BooleanArray
  | String
  | StringArray
  | Double
  | DoubleArray
  | Integer
  | IntegerArray
deriving DecidableEq, Repr

/-- The Go type of the field `Value` (or `Values`) of each wrapper message, over
a type `F` of `float64` values.  An `int32` is an `Int`. -/
@[reducible] def Kind.Val (F : Type) : Kind → Type
  | .Boolean => Bool
  | .BooleanArray => List Bool
  | .String => Str
  | .StringArray => List Str
  | .Double => F
  | .DoubleArray => List F
  | .Integer => Int
  | .IntegerArray => List Int

/-- The protobuf full name of each wrapper message. -/
def Kind.FullName : Kind → Str
  | .Boolean => "base.v1.Boolean".toList
  | .BooleanArray => "base.v1.BooleanArray".toList
  | .String => "base.v1.String".toList
  | .StringArray => "base.v1.StringArray".toList
  | .Double => "base.v1.Double".toList
  | .DoubleArray => "base.v1.DoubleArray".toList
  | .Integer => "base.v1.Integer".toList
  | .IntegerArray => "base.v1.IntegerArray".toList

/-- A `proto.Message` of one of the eight wrapper types: `⟨.Boolean, b⟩` is
`&base.Boolean{Value: b}`, `⟨.IntegerArray, l⟩` is `&base.IntegerArray{Values: l}`. -/
abbrev Message (F : Type) := (k : Kind) × k.Val F

/-- Go `anypb.Any`: a type URL and the wire bytes of a message. -/
structure Any (B : Type) where
  TypeUrl : Str
  Value : B
deriving DecidableEq, Repr

/-- Go `base.Entity`. -/
structure Entity where
  Typ : Str
  Id : Str
deriving DecidableEq, Repr

/-- Go `base.Attribute`; `Entity` and `Value` are pointers. -/
structure Attribute (B : Type) where
  Entity : Option Entity
  Attribute : Str
  Value : Option (Any B)
deriving DecidableEq, Repr

/-- Go `(*base.Entity).GetType`, safe on `nil`. -/
def Entity.GetType : Option Entity → Str
  | none => []
  | some e => e.Typ

/-- Go `(*base.Entity).GetId`, safe on `nil`. -/
def Entity.GetId : Option Entity → Str
  | none => []
  | some e => e.Id

/-- Go `(*anypb.Any).GetTypeUrl`, safe on `nil`. -/
def Any.GetTypeUrl {B : Type} : Option (Any B) → Str
  | none => []
  | some x => x.TypeUrl

/-- Go `base.AttributeType`: the eight declared types, the zero value, and any
other number of the underlying `int32`. -/
inductive AttributeType
  | ATTRIBUTE_TYPE_UNSPECIFIED
  | ATTRIBUTE_TYPE_BOOLEAN
  | ATTRIBUTE_TYPE_BOOLEAN_ARRAY
  | ATTRIBUTE_TYPE_STRING
  | ATTRIBUTE_TYPE_STRING_ARRAY
  | ATTRIBUTE_TYPE_INTEGER
  | ATTRIBUTE_TYPE_INTEGER_ARRAY
  | ATTRIBUTE_TYPE_DOUBLE
  | ATTRIBUTE_TYPE_DOUBLE_ARRAY
  | other (n : Int)
deriving DecidableEq, Repr

end base

/-- What the codec takes from outside the repository and this file does not
write out: `float64` with its two `strconv` conversions, `strconv.Quote`, and
the protobuf wire format of the eight wrapper messages. -/
structure Lib where
  /-- The values of Go `float64`. -/
  Float64 : Type
  /-- Go `strconv.ParseFloat(s, 64)`: the value, or the reason of the `NumError`. -/
  ParseFloat : Str → Except strconv.ErrKind Float64
  /-- Go `strconv.FormatFloat(v, 'f', -1, 64)`. -/
  FormatFloat : Float64 → Str
  /-- Go `strconv.Quote`. -/
  Quote : Str → Str
  /-- The values of `[]byte` holding a marshalled message. -/
  Bytes : Type
  /-- Go `proto.Marshal` on a wrapper message; `none` is an error. -/
  Marshal : (k : base.Kind) → k.Val Float64 → Option Bytes
  /-- Go `proto.Unmarshal` into a fresh message of kind `k`; `none` is an error. -/
  Unmarshal : (k : base.Kind) → Bytes → Option (k.Val Float64)

/-- The law of the wire format that the round trip needs: unmarshalling the
marshalled bytes of a message, as the same message type, gives the message back. -/
def Lib.WireRoundTrip (L : Lib) : Prop :=
  ∀ (k : base.Kind) (v : k.Val L.Float64) (b : L.Bytes),
    L.Marshal k v = some b → L.Unmarshal k b = some v

/-- Errors of `anypb.New` and `anypb.UnmarshalTo`. -/
inductive ProtoError
  /-- Error of `proto.Marshal`. -/
  | marshal
  /-- The text "invalid nil source message". -/
  | nilSource
  /-- The text "mismatched message type: got ..., want ...". -/
  | mismatched
  /-- Error of `proto.Unmarshal`. -/
  | unmarshal
deriving DecidableEq, Repr

/-- The values of Go `error` that the package returns. -/
inductive Error
  /-- Package variable `ErrInvalidAttribute`. -/
  | ErrInvalidAttribute
  /-- Package variable `ErrInvalidEntity`. -/
  | ErrInvalidEntity
  /-- Package variable `ErrInvalidValue`. -/
  | ErrInvalidValue
  /-- The error built by `fmt.Errorf(format, err)` with the one verb `%v`: `pre`
  is the text of the format before the verb. -/
  | Errorf (pre : Str) (err : strconv.NumError)
  /-- The error built by `errors.New(text)`. -/
  | New (text : Str)
  /-- An error of the protobuf library, passed on unchanged. -/
  | Proto (e : ProtoError)
deriving DecidableEq, Repr

/-- Go `Error()` of the values above that have a text fixed by this package. -/
def Error.Error (Quote : Str → Str) : Error → Option Str
  | .Errorf pre err => some (pre ++ err.Error Quote)
  | .New text => some text
  | _ => none

namespace anypb

open base

/-- The prefix `anypb.New` puts before the full name of the message. -/
def urlBase : Str := "type.googleapis.com/".toList

/-- Go `anypb.New`: the type URL of the message and its marshalled bytes. -/
def New (L : Lib) (m : Message L.Float64) : Except Error (Any L.Bytes) :=
  match L.Marshal m.1 m.2 with
  | none => .error (.Proto .marshal)
  | some b => .ok ⟨urlBase ++ m.1.FullName, b⟩

/-- Go `(*anypb.Any).MessageIs`: the URL ends with the full name of the message,
and is the name itself or has a slash just before it. -/
def MessageIs {B : Type} (x : Any B) (m : Kind) : Bool :=
  let url := x.TypeUrl
  let name := m.FullName
  if ¬ name.isSuffixOf url then false
  else url.length = name.length ∨ url.get? (url.length - name.length - 1) = some '/'

/-- Go `(*anypb.Any).UnmarshalTo` into a fresh message of kind `dst`: the content
of the message afterwards, or the error. -/
def UnmarshalTo (L : Lib) (src : Option (Any L.Bytes)) (dst : Kind) :
    Except Error (dst.Val L.Float64) :=
  match src with
  | none => .error (.Proto .nilSource)
  | some x =>
    if ¬ MessageIs x dst then .error (.Proto .mismatched)
    else
      match L.Unmarshal dst x.Value with
      | none => .error (.Proto .unmarshal)
      | some v => .ok v

end anypb

/-! ## Package `attribute` (namespace `Attr`: the package name is a Lean keyword) -/

namespace Attr

open base strings strconv

/-- The loop `for _, value := range val` of the array cases of `Attribute`:
every element is parsed in order and appended; the first element that fails
ends the loop with its error. -/
def parseEach {α : Type} (parse : Str → Except Error α) : List Str → Except Error (List α)
  | [] => .ok []
  | value :: rest =>
    match parse value with
    | .error err => .error err
    | .ok x =>
      match parseEach parse rest with
      | .error err => .error err
      | .ok xs => .ok (x :: xs)

/-- Go `strconv.ParseFloat(s, 64)` with its `NumError` value. -/
def ParseFloat (L : Lib) (s : Str) : Except NumError L.Float64 :=
  match L.ParseFloat s with
  | .error k => .error ⟨"ParseFloat".toList, s, k⟩
  | .ok f => .ok f

/-- The conversion `int32(intVal)` of an `int64`. -/
def int32 (n : Int) : Int :=
  (n + 2 ^ 31) % 2 ^ 32 - 2 ^ 31

/-- The call `strconv.ParseBool(value)`; on error `fmt.Errorf("failed to parse boolean: %v", err)`. -/
def parseBoolean (value : Str) : Except Error Bool :=
  match ParseBool value with
  | .error err => .error (.Errorf "failed to parse boolean: ".toList err)
  | .ok boolVal => .ok boolVal

/-- The call `strconv.ParseFloat(value, 64)`; on error `fmt.Errorf("failed to parse float: %v", err)`. -/
def parseDouble (L : Lib) (value : Str) : Except Error L.Float64 :=
  match ParseFloat L value with
  | .error err => .error (.Errorf "failed to parse float: ".toList err)
  | .ok doubleVal => .ok doubleVal

/-- The call `strconv.ParseInt(value, 10, 32)`; on error
`fmt.Errorf("failed to parse integer: %v", err)`, else `int32(intVal)`. -/
def parseInteger (value : Str) : Except Error Int :=
  match ParseInt value 32 with
  | .error err => .error (.Errorf "failed to parse integer: ".toList err)
  | .ok intVal => .ok (int32 intVal)

/-- The `switch v[0]` of `Attribute`: the wrapped message for a type tag `v0` and
a payload `v1`. -/
def wrap (L : Lib) (v0 v1 : Str) : Except Error (Message L.Float64) :=
  if v0 = "boolean".toList then
    match parseBoolean v1 with
    | .error err => .error err
    | .ok boolVal => .ok ⟨.Boolean, boolVal⟩
  else if v0 = "boolean[]".toList then
    match parseEach parseBoolean (Split v1 ',') with
    | .error err => .error err
    | .ok ba => .ok ⟨.BooleanArray, ba⟩
  else if v0 = "string".toList then
    .ok ⟨.String, v1⟩
  else if v0 = "string[]".toList then
    match parseEach (fun value => .ok value) (Split v1 ',') with
    | .error err => .error err
    | .ok sa => .ok ⟨.StringArray, sa⟩
  else if v0 = "double".toList then
    match parseDouble L v1 with
    | .error err => .error err
    | .ok doubleVal => .ok ⟨.Double, doubleVal⟩
  else if v0 = "double[]".toList then
    match parseEach (parseDouble L) (Split v1 ',') with
    | .error err => .error err
    | .ok da => .ok ⟨.DoubleArray, da⟩
  else if v0 = "integer".toList then
    match parseInteger v1 with
    | .error err => .error err
    | .ok intVal => .ok ⟨.Integer, intVal⟩
  else if v0 = "integer[]".toList then
    match parseEach parseInteger (Split v1 ',') with
    | .error err => .error err
    | .ok ia => .ok ⟨.IntegerArray, ia⟩
  else .error .ErrInvalidValue

/-- Go `attribute.Attribute`: a string is converted back into an attribute. -/
def Attribute (L : Lib) (input : Str) : Except Error (base.Attribute L.Bytes) :=
  match Split (TrimSpace input) '|' with
  | [s0, s1] =>
    match Split s0 '$' with
    | [e0, e1] =>
      match Split e0 ':' with
      | [et0, et1] =>
        match Split s1 ':' with
        | [v0, v1] =>
          match wrap L v0 v1 with
          | .error err => .error err
          | .ok wrapped =>
            match anypb.New L wrapped with
            | .error err => .error err
            | .ok value =>
              .ok { Entity := some { Typ := et0, Id := et1 }, Attribute := e1, Value := some value }
        | _ => .error .ErrInvalidAttribute
      | _ => .error .ErrInvalidAttribute
    | _ => .error .ErrInvalidEntity
  | _ => .error .ErrInvalidAttribute

/-- Go `attribute.EntityToString`: `fmt.Sprintf("%s:%s", type, id)`. -/
def EntityToString (entity : Option Entity) : Str :=
  Entity.GetType entity ++ ":".toList ++ Entity.GetId entity

/-- Go `attribute.TypeUrlToString`. -/
def TypeUrlToString (url : Str) : Str :=
  if url = "type.googleapis.com/base.v1.String".toList then "string".toList
  else if url = "type.googleapis.com/base.v1.Boolean".toList then "boolean".toList
  else if url = "type.googleapis.com/base.v1.Integer".toList then "integer".toList
  else if url = "type.googleapis.com/base.v1.Double".toList then "double".toList
  else if url = "type.googleapis.com/base.v1.StringArray".toList then "string[]".toList
  else if url = "type.googleapis.com/base.v1.BooleanArray".toList then "boolean[]".toList
  else if url = "type.googleapis.com/base.v1.IntegerArray".toList then "integer[]".toList
  else if url = "type.googleapis.com/base.v1.DoubleArray".toList then "double[]".toList
  else []

/-- The sentinel that `AnyToString` returns instead of failing. -/
def undefined : Str := "undefined".toList

/-- Go `attribute.AnyToString`.  The result `none` is the run-time panic of
reading `any.TypeUrl` through a `nil` pointer. -/
def AnyToString (L : Lib) (any : Option (Any L.Bytes)) : Option Str :=
  match any with
  | none => none
  | some x =>
    if x.TypeUrl = "type.googleapis.com/base.v1.Boolean".toList then
      match anypb.UnmarshalTo L any .Boolean with
      | .error _ => some undefined
      | .ok boolVal => some (FormatBool boolVal)
    else if x.TypeUrl = "type.googleapis.com/base.v1.BooleanArray".toList then
      match anypb.UnmarshalTo L any .BooleanArray with
      | .error _ => some undefined
      | .ok boolVal => some (Join (boolVal.map FormatBool) ",".toList)
    else if x.TypeUrl = "type.googleapis.com/base.v1.String".toList then
      match anypb.UnmarshalTo L any .String with
      | .error _ => some undefined
      | .ok stringVal => some stringVal
    else if x.TypeUrl = "type.googleapis.com/base.v1.StringArray".toList then
      match anypb.UnmarshalTo L any .StringArray with
      | .error _ => some undefined
      | .ok stringVal => some (Join (stringVal.map (fun v => v)) ",".toList)
    else if x.TypeUrl = "type.googleapis.com/base.v1.Double".toList then
      match anypb.UnmarshalTo L any .Double with
      | .error _ => some undefined
      | .ok doubleVal => some (L.FormatFloat doubleVal)
    else if x.TypeUrl = "type.googleapis.com/base.v1.DoubleArray".toList then
      match anypb.UnmarshalTo L any .DoubleArray with
      | .error _ => some undefined
      | .ok doubleVal => some (Join (doubleVal.map L.FormatFloat) ",".toList)
    else if x.TypeUrl = "type.googleapis.com/base.v1.Integer".toList then
      match anypb.UnmarshalTo L any .Integer with
      | .error _ => some undefined
      | .ok intVal => some (Itoa intVal)
    else if x.TypeUrl = "type.googleapis.com/base.v1.IntegerArray".toList then
      match anypb.UnmarshalTo L any .IntegerArray with
      | .error _ => some undefined
      | .ok intVal => some (Join (intVal.map Itoa) ",".toList)
    else some undefined

/-- Go `attribute.ToString`: `fmt.Sprintf("%s$%s|%s:%s", ...)` of the entity, the
attribute name, the type tag and the rendered value.  The receiver is not `nil`;
`none` is the panic of `AnyToString`. -/
def ToString (L : Lib) (attr : base.Attribute L.Bytes) : Option Str :=
  let entity := attr.Entity
  let strEntity := EntityToString entity
  match AnyToString L attr.Value with
  | none => none
  | some str =>
    some (strEntity ++ "$".toList ++ attr.Attribute ++ "|".toList ++
      TypeUrlToString (Any.GetTypeUrl attr.Value) ++ ":".toList ++ str)

/-- Go `attribute.TypeToString`. -/
def TypeToString : AttributeType → Str
  | .ATTRIBUTE_TYPE_INTEGER => "integer".toList
  | .ATTRIBUTE_TYPE_INTEGER_ARRAY => "integer[]".toList
  | .ATTRIBUTE_TYPE_DOUBLE => "double".toList
  | .ATTRIBUTE_TYPE_DOUBLE_ARRAY => "double[]".toList
  | .ATTRIBUTE_TYPE_STRING => "string".toList
  | .ATTRIBUTE_TYPE_STRING_ARRAY => "string[]".toList
  | .ATTRIBUTE_TYPE_BOOLEAN => "boolean".toList
  | .ATTRIBUTE_TYPE_BOOLEAN_ARRAY => "boolean[]".toList
  | _ => "undefined".toList

/-- The `switch attributeType` of `ValidateValue`: the kind of the fresh target
message, `none` in the `default` case. -/
def target : AttributeType → Option Kind
  | .ATTRIBUTE_TYPE_INTEGER => some .Integer
  | .ATTRIBUTE_TYPE_INTEGER_ARRAY => some .IntegerArray
  | .ATTRIBUTE_TYPE_DOUBLE => some .Double
  | .ATTRIBUTE_TYPE_DOUBLE_ARRAY => some .DoubleArray
  | .ATTRIBUTE_TYPE_STRING => some .String
  | .ATTRIBUTE_TYPE_STRING_ARRAY => some .StringArray
  | .ATTRIBUTE_TYPE_BOOLEAN => some .Boolean
  | .ATTRIBUTE_TYPE_BOOLEAN_ARRAY => some .BooleanArray
  | _ => none

/-- The text of `base.ErrorCode_ERROR_CODE_INVALID_ARGUMENT.String()`. -/
def ERROR_CODE_INVALID_ARGUMENT : Str := "ERROR_CODE_INVALID_ARGUMENT".toList

/-- Go `attribute.ValidateValue`; `none` is the `nil` error. -/
def ValidateValue (L : Lib) (any : Option (Any L.Bytes)) (attributeType : AttributeType) :
    Option Error :=
  match target attributeType with
  | none => some (.New ERROR_CODE_INVALID_ARGUMENT)
  | some t =>
    match anypb.UnmarshalTo L any t with
    | .error err => some err
    | .ok _ => none

end Attr

/-! ## A small instance of `Lib`, for evaluating the codec on concrete inputs -/

/-- An instance of `Lib` on which every definition of this file can be
evaluated.  Its floats are the natural numbers, which `FormatFloat` with format
`f` and precision -1 prints as plain decimal digits; its wire form of a message
is the message itself. -/
def testLib : Lib where
  Float64 := Nat
  ParseFloat := fun s =>
    match strconv.ParseUint s 64 with
    | (n, none) => .ok n
    | (_, some e) => .error e.Err
  FormatFloat := fun n => Nat.toDigits 10 n
  Quote := fun s => Char.ofNat 34 :: s ++ [Char.ofNat 34]
  Bytes := base.Message Nat
  Marshal := fun k v => some ⟨k, v⟩
  Unmarshal := fun k b => if h : b.1 = k then some (h ▸ b.2) else none

/-! ## Package `database` (`pkg/database/consts.go`) -/

namespace database

/-- Go `type Engine string`. -/
structure Engine where
  val : Str
deriving DecidableEq, Repr

def POSTGRES : Engine := ⟨"postgres".toList⟩

def MYSQL : Engine := ⟨"mysql".toList⟩

def MEMORY : Engine := ⟨"memory".toList⟩

/-- Go `(Engine).String`: the conversion `string(c)`. -/
def Engine.String (c : Engine) : Str := c.val

/-- Modelled from the spec: the pagination request of `ListSchemas`, a page size
(a Go `uint32`) and the text of a continuation token, empty for the first page.
The type `database.Pagination` is not among the source files. -/
structure Pagination where
  pageSize : Nat
  token : Str
deriving DecidableEq, Repr

/-- Go `(Pagination).PageSize`. -/
def Pagination.PageSize (p : Pagination) : Nat := p.pageSize

/-- Go `(Pagination).Token`. -/
def Pagination.Token (p : Pagination) : Str := p.token

/-- Modelled from the spec: the continuation token a listing returns, either the
"no more pages" sentinel (`NewNoopContinuousToken().Encode()`) or the encoding
of a resume position (`NewContinuousToken(value).Encode()`).  The token types
are not among the source files. -/
inductive EncodedContinuousToken
  | noop
  | token (value : Str)
deriving DecidableEq, Repr

/-- The text of a token, which the caller passes to the next call: empty for the
sentinel. -/
def EncodedContinuousToken.String : EncodedContinuousToken → Str
  | .noop => []
  | .token value => value

end database

/-! ## Package `storage` and the in-memory table -/

namespace storage

/-- Modelled from the spec: the row `SchemaConstructRow` of the schema table,
with the fields the reader uses (`Name`, `Version`, `Serialized()`) and the
tenant of the two index keys.  The type `storage.SchemaDefinition` is not among
the source files. -/
structure SchemaDefinition where
  TenantID : Str
  Name : Str
  SerializedDefinition : Str
  Version : Str
deriving DecidableEq, Repr

/-- Go `(SchemaDefinition).Serialized`. -/
def SchemaDefinition.Serialized (e : SchemaDefinition) : Str := e.SerializedDefinition

end storage

namespace memdb

open storage

/-- Byte order of two strings, strictly less: the order of the keys in the radix
tree of `go-memdb` (code points and UTF-8 bytes are ordered alike). -/
def strLT : Str → Str → Bool
  | _, [] => false
  | [], _ :: _ => true
  | a :: as, b :: bs => a.toNat < b.toNat || (a.toNat = b.toNat && strLT as bs)

/-- Byte order of two strings, less or equal. -/
def strLE (a b : Str) : Bool := !strLT b a

/-- The rows of the table `schema_definitions` at one moment (a snapshot): what
a read transaction `DB.Txn(false)` sees. -/
abbrev Table := List SchemaDefinition

/-- Modelled from the spec: the order of the rows in the index `version`, whose
key is (tenantID, version); rows with the same key follow in the order of their
identity key (tenantID, name, version).  The key strings hold no NUL character,
which `go-memdb` uses to end each part of a key.  The table schema is not among
the source files. -/
def versionKeyLE (a b : SchemaDefinition) : Bool :=
  strLT a.TenantID b.TenantID ||
    (a.TenantID = b.TenantID &&
      (strLT a.Version b.Version || (a.Version = b.Version && strLE a.Name b.Name)))

/-- The rows in the order of the index `version`. -/
def versionIndex (t : Table) : List SchemaDefinition :=
  t.insertionSort (fun a b => versionKeyLE a b = true)

/-- Go `txn.Get(table, "version", tenantID, version)`: the iterator over the rows
with this index key, in index order. -/
def Get (t : Table) (tenantID version : Str) : List SchemaDefinition :=
  (versionIndex t).filter (fun r => r.TenantID = tenantID && r.Version = version)

/-- Modelled from the spec: the identity key (tenantID, name, version) of the
index `id`.  Go `txn.First(table, "id", tenantID, name, version)`: the row with
this key, or `nil`. -/
def First (t : Table) (tenantID name version : Str) : Option SchemaDefinition :=
  t.find? (fun r => r.TenantID = tenantID && r.Name = name && r.Version = version)

/-- Go `txn.LowerBound(table, "version", tenantID, lowerBound)`: the iterator over
all rows whose index key is greater than or equal to (tenantID, lowerBound), in
index order, up to the end of the index. -/
def LowerBound (t : Table) (tenantID lowerBound : Str) : List SchemaDefinition :=
  (versionIndex t).filter (fun r =>
    strLT tenantID r.TenantID || (r.TenantID = tenantID && strLE lowerBound r.Version))

end memdb

/-! ## Package `memory` (`internal/storage/memory/schemaReader.go`) -/

/-- What the schema reader takes from packages that are not among the source
files: the schema compiler of package `schema`, the identifier library `xid`,
and the encoding of continuation tokens of package `utils`. -/
structure Ext where
  /-- The values of `base.SchemaDefinition`, a compiled schema. -/
  Schema : Type
  /-- The values of `base.EntityDefinition`. -/
  Entity : Type
  /-- The values of `base.RuleDefinition`. -/
  Rule : Type
  /-- Go `schema.NewSchemaFromStringDefinitions(validation, definitions...)`. -/
  NewSchemaFromStringDefinitions : Bool → List Str → Except Error Schema
  /-- Go `schema.GetEntityByName`. -/
  GetEntityByName : Schema → Str → Except Error Entity
  /-- Go `schema.GetRuleByName`. -/
  GetRuleByName : Schema → Str → Except Error Rule
  /-- Go `xid.FromString(version)` followed by `id.Time().String()`: the creation
  time held in a version identifier, `none` when the identifier is not valid. -/
  xidTime : Str → Option Str
  /-- The text of `utils.NewContinuousToken(value).Encode()`. -/
  EncodeToken : Str → Str
  /-- Go `utils.EncodedContinuousToken{Value: text}.Decode()`, then the field
  `Value` of the decoded token. -/
  DecodeToken : Str → Except Error Str

namespace base

/-- Go `base.SchemaList`: one entry of a listing. -/
structure SchemaList where
  Version : Str
  CreatedAt : Str
deriving DecidableEq, Repr

end base

namespace memory

open base storage database

/-- The state the reader works on: the table behind `r.database.DB` and the
package variable `headVersion`, a map from tenant to version (an association
list, read with `List.lookup`). -/
structure Store where
  DB : memdb.Table
  headVersion : List (Str × Str)
deriving DecidableEq, Repr

def ERROR_CODE_EXECUTION : Str := "ERROR_CODE_EXECUTION".toList

def ERROR_CODE_SCHEMA_NOT_FOUND : Str := "ERROR_CODE_SCHEMA_NOT_FOUND".toList

def ERROR_CODE_TYPE_CONVERSATION : Str := "ERROR_CODE_TYPE_CONVERSATION".toList

def ERROR_CODE_INTERNAL : Str := "ERROR_CODE_INTERNAL".toList

/-- Go `(*SchemaReader).ReadSchema`.  The table and its indexes exist, so
`txn.Get` returns no error.  The result is the pair Go returns, and the store
after the call. -/
def ReadSchema (X : Ext) (r : Store) (tenantID version : Str) :
    (Option X.Schema × Option Error) × Store :=
  let it := memdb.Get r.DB tenantID version
  let definitions := it.map (fun obj => obj.Serialized)
  match X.NewSchemaFromStringDefinitions false definitions with
  | .error err => ((none, some err), r)
  | .ok sch => ((some sch, none), r)

/-- Go `(*SchemaReader).ReadEntityDefinition`: the definition, the version and
the error, and the store after the call. -/
def ReadEntityDefinition (X : Ext) (r : Store) (tenantID entityName version : Str) :
    (Option X.Entity × Str × Option Error) × Store :=
  match memdb.First r.DB tenantID entityName version with
  | some d =>
    match X.NewSchemaFromStringDefinitions false [d.Serialized] with
    | .error err => ((none, [], some err), r)
    | .ok sch =>
      match X.GetEntityByName sch entityName with
      | .error err => ((none, [], some err), r)
      | .ok definition => ((some definition, d.Version, none), r)
  | none => ((none, [], some (.New ERROR_CODE_SCHEMA_NOT_FOUND)), r)

/-- Go `(*SchemaReader).ReadRuleDefinition`. -/
def ReadRuleDefinition (X : Ext) (r : Store) (tenantID ruleName version : Str) :
    (Option X.Rule × Str × Option Error) × Store :=
  match memdb.First r.DB tenantID ruleName version with
  | some d =>
    match X.NewSchemaFromStringDefinitions false [d.Serialized] with
    | .error err => ((none, [], some err), r)
    | .ok sch =>
      match X.GetRuleByName sch ruleName with
      | .error err => ((none, [], some err), r)
      | .ok definition => ((some definition, d.Version, none), r)
  | none => ((none, [], some (.New ERROR_CODE_SCHEMA_NOT_FOUND)), r)

/-- Go `(*SchemaReader).HeadVersion`: the version and the error, and the store
after the call. -/
def HeadVersion (r : Store) (tenantID : Str) : (Str × Option Error) × Store :=
  match r.headVersion.lookup tenantID with
  | none => (([], some (.New ERROR_CODE_SCHEMA_NOT_FOUND)), r)
  | some version => ((version, none), r)

/-- The `for` loop of `ListSchemas` over the rows the iterator still holds, with
the slice `schemas` and the keys of the map `uniqueVersions` built so far. -/
def ListSchemasLoop (X : Ext) (pageSize : Nat) :
    List SchemaDefinition → List SchemaList → List Str →
      List SchemaList × Option EncodedContinuousToken × Option Error
  | [], schemas, _ => (schemas, some .noop, none)
  | s :: rest, schemas, uniqueVersions =>
    match X.xidTime s.Version with
    | none => ([], none, some (.New ERROR_CODE_INTERNAL))
    | some createdAt =>
      let ok := decide (s.Version ∈ uniqueVersions)
      let schemas1 := if ok then schemas else schemas ++ [⟨s.Version, createdAt⟩]
      let uniqueVersions1 := if ok then uniqueVersions else s.Version :: uniqueVersions
      if schemas1.length > pageSize then
        (schemas1.take pageSize,
          some (.token (X.EncodeToken (s.Name ++ "|".toList ++ s.Version))), none)
      else ListSchemasLoop X pageSize rest schemas1 uniqueVersions1

/-- Go `(*SchemaReader).ListSchemas`: the page, the continuation token and the
error, and the store after the call. -/
def ListSchemas (X : Ext) (r : Store) (tenantID : Str) (pagination : Pagination) :
    (List SchemaList × Option EncodedContinuousToken × Option Error) × Store :=
  let decoded : Except Error Str :=
    if pagination.Token ≠ [] then X.DecodeToken pagination.Token else .ok []
  match decoded with
  | .error err => (([], none, some err), r)
  | .ok lowerBound =>
    let result := memdb.LowerBound r.DB tenantID lowerBound
    (ListSchemasLoop X pagination.PageSize result [] [], r)

end memory

/-! ## Package `mysql` (`pkg/database/mysql`) -/

namespace mysql

/-- The pool `*sql.DB`, as the data source and the arguments of the calls
`SetMaxOpenConns`, `SetMaxIdleConns`, `SetConnMaxIdleTime` and
`SetConnMaxLifetime` made on it. -/
structure DB where
  dsn : Str
  maxOpenConns : Int
  maxIdleConns : Int
  connMaxIdleTime : Int
  connMaxLifetime : Int
deriving DecidableEq, Repr

/-- Go `mysql.Mysql`, without the statement builder; a `time.Duration` is its
number of nanoseconds. -/
structure Mysql where
  ReadPool : Option DB
  WritePool : Option DB
  maxDataPerWrite : Int
  maxRetries : Int
  watchBufferSize : Int
  maxConnectionLifeTime : Int
  maxConnectionIdleTime : Int
  maxOpenConnections : Int
  maxIdleConnections : Int
deriving DecidableEq, Repr

/-- Go `mysql.poolConfig`. -/
structure poolConfig where
  dsn : Str
  maxDataPerWrite : Int
  maxRetries : Int
  watchBufferSize : Int
  maxConnectionLifeTime : Int
  maxConnectionIdleTime : Int
  maxOpenConnections : Int
  maxIdleConnections : Int
deriving DecidableEq, Repr

/-- The zero value of `poolConfig`, of `var readConfig, writeConfig poolConfig`. -/
def poolConfig.zero : poolConfig := ⟨[], 0, 0, 0, 0, 0, 0, 0⟩

/-- The constants `_defaultMaxOpenConnections` and the like, which are not among
the source files, and the two library calls of `createPools` that can fail. -/
structure Env where
  defaultMaxOpenConnections : Int
  defaultMaxIdleConnections : Int
  defaultMaxDataPerWrite : Int
  defaultMaxRetries : Int
  defaultWatchBufferSize : Int
  /-- Whether `sql.Open("mysql", dsn)` returns without error. -/
  opens : Str → Bool
  /-- Whether the pings of both pools succeed within the retry policy. -/
  pings : Str → Str → Bool

/-- Go `mysql.Option`, a function that changes the instance; named `Setting`
here, `Option` being the Lean type of optional values. -/
abbrev Setting := Mysql → Mysql

/-- Go `mysql.MaxOpenConnections`. -/
def MaxOpenConnections (size : Int) : Setting :=
  fun c => { c with maxOpenConnections := size }

/-- Go `mysql.MaxIdleConnections`. -/
def MaxIdleConnections (c : Int) : Setting :=
  fun p => { p with maxIdleConnections := c }

/-- Go `mysql.MaxConnectionIdleTime`. -/
def MaxConnectionIdleTime (d : Int) : Setting :=
  fun p => { p with maxConnectionIdleTime := d }

/-- Go `mysql.MaxConnectionLifeTime`. -/
def MaxConnectionLifeTime (d : Int) : Setting :=
  fun p => { p with maxConnectionLifeTime := d }

/-- Go `mysql.MaxDataPerWrite`. -/
def MaxDataPerWrite (v : Int) : Setting :=
  fun c => { c with maxDataPerWrite := v }

/-- Go `mysql.WatchBufferSize`. -/
def WatchBufferSize (v : Int) : Setting :=
  fun c => { c with watchBufferSize := v }

/-- Go `mysql.MaxRetries`. -/
def MaxRetries (v : Int) : Setting :=
  fun c => { c with maxRetries := v }

/-- Go `mysql.createPools`: both pools are opened and configured from their
`poolConfig`, then pinged. -/
def createPools (E : Env) (wConfig rConfig : poolConfig) : Except Error (DB × DB) :=
  if ¬ E.opens wConfig.dsn then .error (.New "failed to create write pool".toList)
  else
    let writePool : DB := ⟨wConfig.dsn, wConfig.maxOpenConnections, wConfig.maxIdleConnections,
      wConfig.maxConnectionIdleTime, wConfig.maxConnectionLifeTime⟩
    if ¬ E.opens rConfig.dsn then .error (.New "failed to create read pool".toList)
    else
      let readPool : DB := ⟨rConfig.dsn, rConfig.maxOpenConnections, rConfig.maxIdleConnections,
        rConfig.maxConnectionIdleTime, rConfig.maxConnectionLifeTime⟩
      if ¬ E.pings wConfig.dsn rConfig.dsn then .error (.New "pinging pools failed".toList)
      else .ok (writePool, readPool)

/-- The pool configurations `newDB` hands to `createPools`: the write one and the
read one. -/
def newDBConfigs (writerUri readerUri : Str) : poolConfig × poolConfig :=
  let readConfig := { poolConfig.zero with dsn := readerUri }
  let writeConfig := { poolConfig.zero with dsn := writerUri }
  (writeConfig, readConfig)

/-- Go `mysql.newDB`. -/
def newDB (E : Env) (writerUri readerUri : Str) (opts : List Setting) : Except Error Mysql :=
  let mysql0 : Mysql :=
    { ReadPool := none, WritePool := none,
      maxOpenConnections := E.defaultMaxOpenConnections,
      maxIdleConnections := E.defaultMaxIdleConnections,
      maxDataPerWrite := E.defaultMaxDataPerWrite,
      maxRetries := E.defaultMaxRetries,
      watchBufferSize := E.defaultWatchBufferSize,
      maxConnectionLifeTime := 0, maxConnectionIdleTime := 0 }
  let mysql1 := opts.foldl (fun m opt => opt m) mysql0
  let configs := newDBConfigs writerUri readerUri
  match createPools E configs.1 configs.2 with
  | .error err => .error err
  | .ok (writePool, readPool) =>
    .ok { mysql1 with WritePool := some writePool, ReadPool := some readPool }

/-- Go `mysql.New`. -/
def New (E : Env) (uri : Str) (opts : List Setting) : Except Error Mysql :=
  newDB E uri uri opts

end mysql

/-! ## Small instances of `Ext` and `mysql.Env`, for evaluation -/

/-- Whether a text has the form of an `xid` identifier: twenty characters of the
alphabet 0-9, a-v, the last one `0` or `g`. -/
def xidValid (v : Str) : Bool :=
  v.length = 20 && v.all (fun c => c ∈ "0123456789abcdefghijklmnopqrstuv".toList) &&
    (v.getLast? = some '0' || v.getLast? = some 'g')

/-- An instance of `Ext` on which the reader can be evaluated: a compiled schema
is the list of its definitions, an entity or rule is found by the name its
definition starts with, the creation time of a valid identifier is shown as its
first seven characters, and a token is its own encoding. -/
def testExt : Ext where
  Schema := List Str
  Entity := Str
  Rule := Str
  NewSchemaFromStringDefinitions := fun _ definitions => .ok definitions
  GetEntityByName := fun sch name =>
    match sch.find? (fun d => ("entity ".toList ++ name ++ " ".toList).isPrefixOf d) with
    | some d => .ok d
    | none => .error (.New "ERROR_CODE_ENTITY_DEFINITION_NOT_FOUND".toList)
  GetRuleByName := fun sch name =>
    match sch.find? (fun d => ("rule ".toList ++ name ++ "(".toList).isPrefixOf d) with
    | some d => .ok d
    | none => .error (.New "ERROR_CODE_RULE_DEFINITION_NOT_FOUND".toList)
  xidTime := fun v => if xidValid v then some (v.take 7) else none
  EncodeToken := fun value => value
  DecodeToken := fun text => .ok text

/-- An instance of `mysql.Env`: every data source opens and answers the ping. -/
def testEnv : mysql.Env where
  defaultMaxOpenConnections := 20
  defaultMaxIdleConnections := 1
  defaultMaxDataPerWrite := 1000
  defaultMaxRetries := 10
  defaultWatchBufferSize := 100
  opens := fun _ => true
  pings := fun _ _ => true

/-! ## Definitions that follow the words of the specification -/

namespace Spec

open base

/-- The eight type tags of the specification. -/
def typeTags : List Str :=
  ["boolean".toList, "boolean[]".toList, "string".toList, "string[]".toList,
   "double".toList, "double[]".toList, "integer".toList, "integer[]".toList]

/-- The type tag of each variant of the value. -/
def typeTag : Kind → Str
  | .Boolean => "boolean".toList
  | .BooleanArray => "boolean[]".toList
  | .String => "string".toList
  | .StringArray => "string[]".toList
  | .Double => "double".toList
  | .DoubleArray => "double[]".toList
  | .Integer => "integer".toList
  | .IntegerArray => "integer[]".toList

/-- The payload of the encoding, in the words of the specification: a boolean
is `true` or `false`, an integer its base-10 rendering, a string the string
itself, a double the text of `FormatFloat`, and an array the renderings of its
elements with a comma between them. -/
def payload (L : Lib) : (k : Kind) → k.Val L.Float64 → Str
  | .Boolean, b => if b then "true".toList else "false".toList
  | .BooleanArray, l =>
    ",".toList.intercalate (l.map (fun b => if b then "true".toList else "false".toList))
  | .String, s => s
  | .StringArray, l => ",".toList.intercalate l
  | .Double, d => L.FormatFloat d
  | .DoubleArray, l => ",".toList.intercalate (l.map L.FormatFloat)
  | .Integer, n => (toString n).toList
  | .IntegerArray, l => ",".toList.intercalate (l.map (fun n => (toString n).toList))

/-- The eight recognised declared attribute types. -/
def declaredTypes : List AttributeType :=
  [.ATTRIBUTE_TYPE_BOOLEAN, .ATTRIBUTE_TYPE_BOOLEAN_ARRAY, .ATTRIBUTE_TYPE_STRING,
   .ATTRIBUTE_TYPE_STRING_ARRAY, .ATTRIBUTE_TYPE_INTEGER, .ATTRIBUTE_TYPE_INTEGER_ARRAY,
   .ATTRIBUTE_TYPE_DOUBLE, .ATTRIBUTE_TYPE_DOUBLE_ARRAY]

/-- The eight recognised type URLs. -/
def typeUrls : List Str :=
  ["type.googleapis.com/base.v1.Boolean".toList,
   "type.googleapis.com/base.v1.BooleanArray".toList,
   "type.googleapis.com/base.v1.String".toList,
   "type.googleapis.com/base.v1.StringArray".toList,
   "type.googleapis.com/base.v1.Double".toList,
   "type.googleapis.com/base.v1.DoubleArray".toList,
   "type.googleapis.com/base.v1.Integer".toList,
   "type.googleapis.com/base.v1.IntegerArray".toList]

/-- No character of `s` is one of the characters `bad`. -/
def noneOf (bad : List Char) (s : Str) : Prop :=
  ∀ c ∈ s, c ∉ bad

/-- The condition on a value under which its payload can be read back: a string
holds neither the bar nor the colon (nor the comma, as an element of an array),
an array is not empty, an integer is an `int32`, and the text `FormatFloat`
gives for a double holds none of these separators and is parsed back to the
double by `ParseFloat`. -/
def readable (L : Lib) : (k : Kind) → k.Val L.Float64 → Prop
  | .Boolean, _ => True
  | .BooleanArray, l => l ≠ []
  | .String, s => noneOf ['|', ':'] s
  | .StringArray, l => l ≠ [] ∧ ∀ s ∈ l, noneOf ['|', ':', ','] s
  | .Double, d => noneOf ['|', ':'] (L.FormatFloat d) ∧ L.ParseFloat (L.FormatFloat d) = .ok d
  | .DoubleArray, l => l ≠ [] ∧ ∀ d ∈ l,
      noneOf ['|', ':', ','] (L.FormatFloat d) ∧ L.ParseFloat (L.FormatFloat d) = .ok d
  | .Integer, n => -2147483648 ≤ n ∧ n ≤ 2147483647
  | .IntegerArray, l => l ≠ [] ∧ ∀ n ∈ l, -2147483648 ≤ n ∧ n ≤ 2147483647

/-- The three element types whose text has to be parsed. -/
inductive Target
  | boolean
  | integer
  | double
deriving DecidableEq, Repr

/-- The tag of the scalar of each parsed type. -/
def Target.tag : Target → Str
  | .boolean => "boolean".toList
  | .integer => "integer".toList
  | .double => "double".toList

/-- The tag of the array of each parsed type. -/
def Target.arrayTag (t : Target) : Str := t.tag ++ "[]".toList

/-- The name under which the error message mentions the target type. -/
def Target.typeName : Target → Str
  | .boolean => "boolean".toList
  | .integer => "integer".toList
  | .double => "float".toList

/-- The `strconv` function that parses an element of the target type. -/
def Target.func : Target → Str
  | .boolean => "ParseBool".toList
  | .integer => "ParseInt".toList
  | .double => "ParseFloat".toList

/-- Whether a text parses as the target type. -/
def Target.parses (L : Lib) : Target → Str → Bool
  | .boolean, x => match strconv.ParseBool x with | .ok _ => true | .error _ => false
  | .integer, x => match strconv.ParseInt x 32 with | .ok _ => true | .error _ => false
  | .double, x => match L.ParseFloat x with | .ok _ => true | .error _ => false

end Spec

namespace Spec

/-- Whether a character is one of the decimal digits `0` to `9`. -/
def isDigit (c : Char) : Bool := decide (48 ≤ c.toNat ∧ c.toNat ≤ 57)

/-- The value of a string of decimal digits, read after the value `acc` of the
digits before it. -/
def digitsValue (acc : Nat) (ds : Str) : Nat :=
  ds.foldl (fun a c => a * 10 + (c.toNat - 48)) acc

/-- The value of an unsigned base-10 literal: one decimal digit or more. -/
def natLiteral (ds : Str) : Option Nat :=
  if ds ≠ [] ∧ ds.all isDigit = true then some (digitsValue 0 ds) else none

/-- The value of a signed base-10 integer literal: an optional sign `+` or `-`
and one decimal digit or more. -/
def intLiteral : Str → Option Int
  | [] => none
  | c :: ds =>
    if c = '+' then
      match natLiteral ds with
      | none => none
      | some n => some (Int.ofNat n)
    else if c = '-' then
      match natLiteral ds with
      | none => none
      | some n => some (-Int.ofNat n)
    else
      match natLiteral (c :: ds) with
      | none => none
      | some n => some (Int.ofNat n)

/-- The value of a signed base-10 integer literal that lies in the range of a
32-bit integer. -/
def int32Literal (p : Str) : Option Int :=
  match intLiteral p with
  | none => none
  | some n => if -2147483648 ≤ n ∧ n ≤ 2147483647 then some n else none

/-- The values of the comma-separated elements of a payload, when each of them is
a signed base-10 integer literal in the range of a 32-bit integer. -/
def int32Literals (p : Str) : Option (List Int) :=
  if (strings.Split p ',').all (fun x => (int32Literal x).isSome) = true then
    some ((strings.Split p ',').filterMap int32Literal)
  else none

end Spec

namespace Spec

open base

/-- The values of the round trip under delimiter-freedom: a boolean, a 32-bit
integer, a string that holds neither the bar nor the colon, or an array of one
of these that is not empty, where an element of an array of strings holds no
comma either.  A double is not one of them. -/
def plainValue (L : Lib) : (k : Kind) → k.Val L.Float64 → Prop
  | .Boolean, _ => True
  | .BooleanArray, l => l ≠ []
  | .String, s => noneOf ['|', ':'] s
  | .StringArray, l => l ≠ [] ∧ ∀ s ∈ l, noneOf ['|', ':'] s ∧ noneOf [','] s
  | .Double, _ => False
  | .DoubleArray, _ => False
  | .Integer, n => -2 ^ 31 ≤ n ∧ n ≤ 2 ^ 31 - 1
  | .IntegerArray, l => l ≠ [] ∧ ∀ n ∈ l, -2 ^ 31 ≤ n ∧ n ≤ 2 ^ 31 - 1

/-- Whether a string neither begins nor ends with white space. -/
def cleanEdges (s : Str) : Bool :=
  s.head?.all (fun c => !strings.isSpace c) && s.getLast?.all (fun c => !strings.isSpace c)

/-- The type tag written in an input: the text of the trimmed input after the
first bar, up to the colon that follows. -/
def inputTag (s : Str) : Str :=
  (((strings.TrimSpace s).dropWhile (fun c => c != '|')).drop 1).takeWhile (fun c => c != ':')

end Spec

/-- The property of the protobuf library that `proto.Marshal` returns no error on
the wrapper messages. -/
def Lib.MarshalTotal (L : Lib) : Prop :=
  ∀ (k : base.Kind) (v : k.Val L.Float64), ∃ b, L.Marshal k v = some b

/-! ## Values used in the examples -/

namespace Example

open storage

/-- A valid version identifier. -/
def v1 : Str := "c0000000000000000000".toList

/-- A valid version identifier, later than `v1`. -/
def v2 : Str := "d0000000000000000000".toList

/-- A row that holds the definition of an empty entity. -/
def row (tenantID name version : Str) : SchemaDefinition :=
  ⟨tenantID, name, "entity ".toList ++ name ++ " \x7b\x7d".toList, version⟩

end Example

namespace Spec

open base storage database

/-- The distinct elements of a list in the order in which they are first met,
leaving out those already in `seen`. -/
def distinctFrom (seen : List Str) : List Str → List Str
  | [] => []
  | v :: l => if v ∈ seen then distinctFrom seen l else v :: distinctFrom (v :: seen) l

/-- The distinct versions met by a scan, in scan order. -/
def distinctVersions (scan : List SchemaDefinition) : List Str :=
  distinctFrom [] (scan.map (fun row => row.Version))

/-- The entry of a listing for a version: the version and the creation time held
in it. -/
def entry (X : Ext) (v : Str) : SchemaList :=
  ⟨v, (X.xidTime v).getD []⟩

/-- The distinct versions of a tenant in ascending version order: those of the
rows of the tenant, taken in the order of the index `version`. -/
def tenantVersions (t : memdb.Table) (tenantID : Str) : List Str :=
  distinctVersions ((memdb.versionIndex t).filter (fun row => row.TenantID = tenantID))

/-- The listing of the specification: `ListSchemas` is called with the empty
token and then with the token returned by the previous call, until the sentinel
is returned; the result is the concatenation of the pages.  The number `fuel`
bounds the number of calls, and `none` is returned when it is used up or a call
fails. -/
def listAll (X : Ext) (r : memory.Store) (tenantID : Str) (pageSize : Nat) :
    Nat → Str → Option (List SchemaList)
  | 0, _ => none
  | fuel + 1, token =>
    match (memory.ListSchemas X r tenantID ⟨pageSize, token⟩).1 with
    | (page, some .noop, none) => some page
    | (page, some (.token next), none) =>
      match listAll X r tenantID pageSize fuel next with
      | some pages => some (page ++ pages)
      | none => none
    | _ => none

end Spec

namespace Attr

open base strings strconv

/-- The string each case of `AnyToString` builds from the unmarshalled message. -/
def render (L : Lib) : (k : Kind) → k.Val L.Float64 → Str
  | .Boolean, boolVal => FormatBool boolVal
  | .BooleanArray, boolVal => Join (boolVal.map FormatBool) ",".toList
  | .String, stringVal => stringVal
  | .StringArray, stringVal => Join (stringVal.map (fun v => v)) ",".toList
  | .Double, doubleVal => L.FormatFloat doubleVal
  | .DoubleArray, doubleVal => Join (doubleVal.map L.FormatFloat) ",".toList
  | .Integer, intVal => Itoa intVal
  | .IntegerArray, intVal => Join (intVal.map Itoa) ",".toList

end Attr

/-! ## Lemmas on the string functions -/

namespace strings

theorem Split_ne_nil (s : Str) (sep : Char) : Split s sep ≠ [] := by
  induction s with
  | nil => simp [Split]
  | cons c cs ih =>
    unfold Split
    split
    · simp
    · split
      · simp
      · simp

/-- The function `Split` returns one part more than there are separators. -/
theorem Split_length (s : Str) (sep : Char) : (Split s sep).length = s.count sep + 1 := by
  induction s with
  | nil => simp [Split]
  | cons c cs ih =>
    unfold Split
    by_cases h : c = sep
    · subst h
      simp [ih]
    · have h2 : ¬ (c == sep) = true := by simpa using h
      rw [if_neg h, List.count_cons, if_neg h2]
      cases hs : Split cs sep with
      | nil => exact absurd hs (Split_ne_nil cs sep)
      | cons a t =>
        rw [hs] at ih
        simpa using ih

/-- A list whose length is not two is not a two-element list. -/
theorem not_pair_of_length_ne {α : Type} {l : List α} (h : l.length ≠ 2) (a b : α) :
    l ≠ [a, b] := by
  intro e
  rw [e] at h
  exact h rfl

theorem Split_cons_of_ne (c : Char) (cs : Str) (sep : Char) (h : Str) (t : List Str)
    (hc : ¬ c = sep) (hs : Split cs sep = h :: t) : Split (c :: cs) sep = (c :: h) :: t := by
  rw [Split, if_neg hc, hs]

/-- A string without the separator is one part. -/
theorem Split_of_not_mem (s : Str) (sep : Char) (h : sep ∉ s) : Split s sep = [s] := by
  induction s with
  | nil => rfl
  | cons c cs ih =>
    have hc : ¬ c = sep := fun e => h (by simp [e])
    have hcs : sep ∉ cs := fun e => h (by simp [e])
    exact Split_cons_of_ne c cs sep cs [] hc (ih hcs)

/-- The first part ends at the first separator. -/
theorem Split_append (a b : Str) (sep : Char) (h : sep ∉ a) :
    Split (a ++ sep :: b) sep = a :: Split b sep := by
  induction a with
  | nil => simp [Split]
  | cons c cs ih =>
    have hc : ¬ c = sep := fun e => h (by simp [e])
    have hcs : sep ∉ cs := fun e => h (by simp [e])
    rw [List.cons_append]
    exact Split_cons_of_ne c _ sep cs _ hc (ih hcs)

/-- Splitting the joined elements gives the elements back, when there is at least
one element and no element holds the separator. -/
theorem Split_Join (l : List Str) (sep : Char) (hne : l ≠ []) (h : ∀ s ∈ l, sep ∉ s) :
    Split (Join l [sep]) sep = l := by
  induction l with
  | nil => exact absurd rfl hne
  | cons a t ih =>
    cases t with
    | nil => simpa [Join] using Split_of_not_mem a sep (h a (by simp))
    | cons b r =>
      have h2 : Split (Join (b :: r) [sep]) sep = b :: r :=
        ih (by simp) (fun s hs => h s (by simp [hs]))
      simp only [Join, List.append_assoc, List.singleton_append]
      rw [Split_append a _ sep (h a (by simp)), h2]

/-- A character of the joined elements is in the separator or in an element. -/
theorem mem_Join (l : List Str) (sep : Str) (c : Char) (h : c ∈ Join l sep) :
    c ∈ sep ∨ ∃ s ∈ l, c ∈ s := by
  induction l with
  | nil => simp [Join] at h
  | cons a t ih =>
    cases t with
    | nil => exact Or.inr ⟨a, by simp, by simpa [Join] using h⟩
    | cons b r =>
      simp only [Join, List.append_assoc, List.mem_append] at h
      rcases h with h | h | h
      · exact Or.inr ⟨a, by simp, h⟩
      · exact Or.inl h
      · rcases ih h with h2 | ⟨s, hs, hc⟩
        · exact Or.inl h2
        · exact Or.inr ⟨s, by simp [hs], hc⟩
theorem Join_cons_cons (c : Char) (h : Str) (t : List Str) (sep : Str) :
    Join ((c :: h) :: t) sep = c :: Join (h :: t) sep := by
  cases t <;> simp [Join]

/-- Joining the parts of a split with the separator gives the string back. -/
theorem Join_Split (s : Str) (sep : Char) : Join (Split s sep) [sep] = s := by
  induction s with
  | nil => rfl
  | cons c cs ih =>
    by_cases hc : c = sep
    · subst hc
      rw [Split, if_pos rfl]
      cases hs : Split cs c with
      | nil => exact absurd hs (Split_ne_nil cs c)
      | cons a t =>
        rw [hs] at ih
        simp [Join, ih]
    · cases hs : Split cs sep with
      | nil => exact absurd hs (Split_ne_nil cs sep)
      | cons a t =>
        rw [Split_cons_of_ne c cs sep a t hc hs, Join_cons_cons, ← hs, ih]

/-- No part of a split holds the separator, and every character of a part is a
character of the string. -/
theorem mem_Split (s : Str) (sep : Char) :
    ∀ part ∈ Split s sep, sep ∉ part ∧ ∀ ch ∈ part, ch ∈ s := by
  induction s with
  | nil =>
    intro part hp
    simp only [Split, List.mem_singleton] at hp
    subst hp
    simp
  | cons c cs ih =>
    intro part hp
    by_cases hc : c = sep
    · subst hc
      rw [Split, if_pos rfl, List.mem_cons] at hp
      rcases hp with rfl | hp
      · simp
      · exact ⟨(ih part hp).1, fun ch hch => List.mem_cons_of_mem _ ((ih part hp).2 ch hch)⟩
    · cases hs : Split cs sep with
      | nil => exact absurd hs (Split_ne_nil cs sep)
      | cons a t =>
        rw [Split_cons_of_ne c cs sep a t hc hs, List.mem_cons] at hp
        rw [hs] at ih
        rcases hp with rfl | hp
        · have ha := ih a (by simp)
          refine ⟨?_, ?_⟩
          · intro hm
            rw [List.mem_cons] at hm
            rcases hm with hm | hm
            · exact hc hm.symm
            · exact ha.1 hm
          · intro ch hch
            rw [List.mem_cons] at hch
            rcases hch with rfl | hch
            · simp
            · exact List.mem_cons_of_mem _ (ha.2 ch hch)
        · have hp2 := ih part (by simp [hp])
          exact ⟨hp2.1, fun ch hch => List.mem_cons_of_mem _ (hp2.2 ch hch)⟩

/-- A string that splits in two is the first part, the separator and the second
part, and neither part holds the separator. -/
theorem Split_pair (s : Str) (sep : Char) (a b : Str) (h : Split s sep = [a, b]) :
    s = a ++ sep :: b ∧ sep ∉ a ∧ sep ∉ b := by
  have hj := Join_Split s sep
  have hm := mem_Split s sep
  rw [h] at hj hm
  refine ⟨?_, (hm a (by simp)).1, (hm b (by simp)).1⟩
  rw [← hj]
  simp [Join]

/-- A string that splits in two has one way only to be written as a text, the
separator and a text. -/
theorem Split_pair_unique (s : Str) (sep : Char) (a b x y : Str)
    (h : Split s sep = [a, b]) (hs : s = x ++ sep :: y) : x = a ∧ y = b := by
  have hl := Split_length s sep
  rw [h] at hl
  have hcount : s.count sep = 1 := by simpa using hl.symm
  rw [hs, List.count_append, List.count_cons_self] at hcount
  have hx : sep ∉ x := by
    intro hm
    have := List.count_pos_iff.2 hm
    omega
  have hy : sep ∉ y := by
    intro hm
    have := List.count_pos_iff.2 hm
    omega
  rw [hs, Split_append x y sep hx, Split_of_not_mem y sep hy] at h
  simp only [List.cons.injEq, and_true] at h
  exact h

/-- The first character left by `dropWhile` does not satisfy the test. -/
theorem head_dropWhile {α : Type} (p : α → Bool) (l : List α) :
    ∀ c, (l.dropWhile p).head? = some c → p c = false := by
  induction l with
  | nil => intro c h; simp at h
  | cons a t ih =>
    intro c h
    by_cases ha : p a = true
    · rw [List.dropWhile_cons_of_pos ha] at h
      exact ih c h
    · rw [List.dropWhile_cons_of_neg ha] at h
      simp only [List.head?_cons, Option.some.injEq] at h
      subst h
      simpa using ha

/-- A list whose first element does not satisfy the test is left as it is. -/
theorem dropWhile_of_head {α : Type} (p : α → Bool) (l : List α)
    (h : ∀ c, l.head? = some c → p c = false) : l.dropWhile p = l := by
  cases l with
  | nil => rfl
  | cons a t =>
    have ha : ¬ p a = true := by simp [h a rfl]
    rw [List.dropWhile_cons_of_neg ha]

/-- A trimmed string does not begin with white space. -/
theorem TrimSpace_head (s : Str) :
    ∀ c, (TrimSpace s).head? = some c → isSpace c = false := by
  intro c hc
  unfold TrimSpace at hc
  have hpre : ((s.dropWhile isSpace).reverse.dropWhile isSpace).reverse <+:
      s.dropWhile isSpace := by
    have := List.dropWhile_suffix isSpace (l := (s.dropWhile isSpace).reverse)
    have h2 := List.reverse_prefix.2 this
    rwa [List.reverse_reverse] at h2
  obtain ⟨t, ht⟩ := hpre
  apply head_dropWhile isSpace s c
  rw [← ht]
  cases hr : ((s.dropWhile isSpace).reverse.dropWhile isSpace).reverse with
  | nil => rw [hr] at hc; simp at hc
  | cons a r =>
    rw [hr] at hc
    simpa using hc

/-- A trimmed string does not end with white space. -/
theorem TrimSpace_last (s : Str) :
    ∀ c, (TrimSpace s).getLast? = some c → isSpace c = false := by
  intro c hc
  unfold TrimSpace at hc
  rw [List.getLast?_reverse] at hc
  exact head_dropWhile isSpace _ c hc

/-- A string that neither begins nor ends with white space is left as it is. -/
theorem TrimSpace_of_edges (x : Str) (h1 : ∀ c, x.head? = some c → isSpace c = false)
    (h2 : ∀ c, x.getLast? = some c → isSpace c = false) : TrimSpace x = x := by
  unfold TrimSpace
  rw [dropWhile_of_head isSpace x h1]
  rw [dropWhile_of_head isSpace x.reverse (by
    intro c hc
    rw [List.head?_reverse] at hc
    exact h2 c hc)]
  exact List.reverse_reverse x

/-- The function `Join` puts the separator between the elements. -/
theorem Join_eq_intercalate (l : List Str) (sep : Str) : Join l sep = sep.intercalate l := by
  induction l with
  | nil => rfl
  | cons a t ih =>
    cases t with
    | nil => simp [Join, List.intercalate]
    | cons b r =>
      simp only [Join, ih, List.intercalate, List.intersperse, List.flatten, List.append_assoc]

end strings

namespace strconv

/-- The text of `Itoa` is the base-10 rendering of the integer. -/
theorem Itoa_eq_toString (n : Int) : Itoa n = (toString n).toList := by
  cases n with
  | ofNat m =>
    show Itoa (Int.ofNat m) = (Nat.repr m).toList
    have : ¬ ((m : Int) < 0) := by omega
    simp [Itoa, Nat.repr, String.toList, List.asString, this]
  | negSucc m =>
    show Itoa (Int.negSucc m) = ("-" ++ Nat.repr (m + 1)).toList
    have h : Int.negSucc m < 0 := Int.negSucc_lt_zero m
    simp [Itoa, Nat.repr, String.toList, List.asString, h, Int.natAbs]

theorem toDigitsCore_fuel (f1 : Nat) : ∀ (f2 n : Nat) (ds : List Char), n < f1 → n < f2 →
    Nat.toDigitsCore 10 f1 n ds = Nat.toDigitsCore 10 f2 n ds := by
  induction f1 with
  | zero => intro f2 n ds h; omega
  | succ f ih =>
    intro f2 n ds h1 h2
    cases f2 with
    | zero => omega
    | succ g =>
      simp only [Nat.toDigitsCore]
      by_cases hz : n / 10 = 0
      · simp [hz]
      · simp only [hz, ↓reduceIte]
        exact ih g (n / 10) _ (by omega) (by omega)

theorem toDigitsCore_append (f : Nat) : ∀ (n : Nat) (ds : List Char),
    Nat.toDigitsCore 10 f n ds = Nat.toDigitsCore 10 f n [] ++ ds := by
  induction f with
  | zero => intro n ds; simp [Nat.toDigitsCore]
  | succ f ih =>
    intro n ds
    simp only [Nat.toDigitsCore]
    by_cases hz : n / 10 = 0
    · simp [hz]
    · simp only [hz, ↓reduceIte]
      rw [ih (n / 10) ((n % 10).digitChar :: ds), ih (n / 10) [(n % 10).digitChar]]
      simp

theorem toDigitsCore_succ (f n : Nat) (ds : List Char) :
    Nat.toDigitsCore 10 (f + 1) n ds =
      if n / 10 = 0 then Nat.digitChar (n % 10) :: ds
      else Nat.toDigitsCore 10 f (n / 10) (Nat.digitChar (n % 10) :: ds) := rfl

theorem toDigits_small (n : Nat) (h : n < 10) : Nat.toDigits 10 n = [Nat.digitChar n] := by
  have hz : n / 10 = 0 := by omega
  have hm : n % 10 = n := by omega
  simp [Nat.toDigits, Nat.toDigitsCore, hz, hm]

theorem toDigits_step (n : Nat) (h : 10 ≤ n) :
    Nat.toDigits 10 n = Nat.toDigits 10 (n / 10) ++ [Nat.digitChar (n % 10)] := by
  have hz : ¬ n / 10 = 0 := by omega
  show Nat.toDigitsCore 10 (n + 1) n [] = Nat.toDigitsCore 10 (n / 10 + 1) (n / 10) [] ++ _
  rw [toDigitsCore_succ, if_neg hz, toDigitsCore_append,
    toDigitsCore_fuel n (n / 10 + 1) (n / 10) [] (by omega) (by omega)]

theorem digitChar_toNat (d : Nat) (h : d < 10) : (Nat.digitChar d).toNat = 48 + d := by
  interval_cases d <;> rfl

theorem toDigits_ne_nil (n : Nat) : Nat.toDigits 10 n ≠ [] := by
  by_cases h : n < 10
  · rw [toDigits_small n h]; simp
  · rw [toDigits_step n (by omega)]; simp

/-- Every character of the decimal digits of a number is a digit. -/
theorem toDigits_digit (n : Nat) : ∀ c ∈ Nat.toDigits 10 n, 48 ≤ c.toNat ∧ c.toNat ≤ 57 := by
  induction n using Nat.strong_induction_on with
  | _ n ih =>
    intro c hc
    by_cases h : n < 10
    · rw [toDigits_small n h] at hc
      simp only [List.mem_singleton] at hc
      subst hc
      rw [digitChar_toNat n h]
      omega
    · rw [toDigits_step n (by omega)] at hc
      simp only [List.mem_append, List.mem_singleton] at hc
      rcases hc with hc | hc
      · exact ih (n / 10) (by omega) c hc
      · subst hc
        rw [digitChar_toNat (n % 10) (by omega)]
        omega

/-- One turn of the digit loop, with the local variables written out. -/
theorem ParseUintLoop_cons (s0 : Str) (bitSize : Nat) (c : Char) (cs : List Char) (n : Nat) :
    ParseUintLoop s0 bitSize (c :: cs) n =
      if 48 ≤ c.toNat ∧ c.toNat ≤ 57 then
        if n ≥ maxUint64 / 10 + 1 then
          (2 ^ bitSize - 1, some (rangeError "ParseUint".toList s0))
        else if (n * 10 % 2 ^ 64 + (c.toNat - 48)) % 2 ^ 64 < n * 10 % 2 ^ 64 ∨
            (n * 10 % 2 ^ 64 + (c.toNat - 48)) % 2 ^ 64 > 2 ^ bitSize - 1 then
          (2 ^ bitSize - 1, some (rangeError "ParseUint".toList s0))
        else ParseUintLoop s0 bitSize cs ((n * 10 % 2 ^ 64 + (c.toNat - 48)) % 2 ^ 64)
      else (0, some (syntaxError "ParseUint".toList s0)) := rfl

/-- The digit loop goes on after a part that it has read without error. -/
theorem ParseUintLoop_append (s0 : Str) (bitSize : Nat) (xs ys : List Char) :
    ∀ (acc v : Nat), ParseUintLoop s0 bitSize xs acc = (v, none) →
      ParseUintLoop s0 bitSize (xs ++ ys) acc = ParseUintLoop s0 bitSize ys v := by
  induction xs with
  | nil =>
    intro acc v h
    simp only [ParseUintLoop, Prod.mk.injEq, and_true] at h
    subst h
    rfl
  | cons c cs ih =>
    intro acc v h
    rw [List.cons_append, ParseUintLoop_cons]
    rw [ParseUintLoop_cons] at h
    by_cases h1 : 48 ≤ c.toNat ∧ c.toNat ≤ 57
    · rw [if_pos h1] at h ⊢
      by_cases h2 : acc ≥ maxUint64 / 10 + 1
      · rw [if_pos h2] at h
        simp at h
      · rw [if_neg h2] at h ⊢
        split_ifs at h ⊢ with h3
        · simp at h
        · exact ih _ v h
    · rw [if_neg h1] at h
      simp at h

/-- One step of the digit loop on a digit that keeps the value in 32 bits. -/
theorem ParseUintLoop_digit (s0 : Str) (d v : Nat) (hd : d < 10)
    (hv : v * 10 + d ≤ 4294967295) :
    ParseUintLoop s0 32 [Nat.digitChar d] v = (v * 10 + d, none) := by
  have e1 : v * 10 % 2 ^ 64 = v * 10 := Nat.mod_eq_of_lt (by omega)
  have e2 : (v * 10 + d) % 2 ^ 64 = v * 10 + d := Nat.mod_eq_of_lt (by omega)
  have c1 : 48 ≤ (Nat.digitChar d).toNat ∧ (Nat.digitChar d).toNat ≤ 57 := by
    rw [digitChar_toNat d hd]; omega
  have c2 : ¬ v ≥ maxUint64 / 10 + 1 := by
    simp only [maxUint64]; omega
  have e3 : (Nat.digitChar d).toNat - 48 = d := by
    rw [digitChar_toNat d hd]; omega
  have c3 : ¬ (v * 10 + d < v * 10 ∨ v * 10 + d > 2 ^ 32 - 1) := by omega
  rw [ParseUintLoop, if_pos c1]
  simp only [e3, e1, e2]
  rw [if_neg c2, if_neg c3]
  rfl

/-- The digit loop reads the decimal digits of a 32-bit number back. -/
theorem ParseUintLoop_toDigits (s0 : Str) (n : Nat) :
    n ≤ 4294967295 → ParseUintLoop s0 32 (Nat.toDigits 10 n) 0 = (n, none) := by
  induction n using Nat.strong_induction_on with
  | _ n ih =>
    intro hn
    by_cases h : n < 10
    · rw [toDigits_small n h]
      have := ParseUintLoop_digit s0 n 0 h (by omega)
      simpa using this
    · rw [toDigits_step n (by omega)]
      rw [ParseUintLoop_append s0 32 _ _ 0 (n / 10) (ih (n / 10) (by omega) (by omega))]
      rw [ParseUintLoop_digit s0 (n % 10) (n / 10) (by omega) (by omega)]
      congr 1
      omega

theorem ParseUint_toDigits (n : Nat) (hn : n ≤ 4294967295) :
    ParseUint (Nat.toDigits 10 n) 32 = (n, none) := by
  unfold ParseUint
  rw [if_neg (toDigits_ne_nil n)]
  exact ParseUintLoop_toDigits _ n hn

/-- The function `ParseInt` with 32 bits reads the text of `Itoa` back, for every `int32`. -/
theorem ParseInt_Itoa (n : Int) (h1 : -2147483648 ≤ n) (h2 : n ≤ 2147483647) :
    ParseInt (Itoa n) 32 = .ok n := by
  by_cases hneg : n < 0
  · have hI : Itoa n = '-' :: Nat.toDigits 10 n.natAbs := by simp [Itoa, hneg]
    rw [hI]
    unfold ParseInt
    simp only [Char.reduceEq, or_true, ↓reduceIte, true_and, not_true_eq_false, false_and]
    rw [ParseUint_toDigits n.natAbs (by omega)]
    simp only [Nat.add_one_sub_one]
    rw [if_neg (by omega)]
    congr 1
    omega
  · have hI : Itoa n = Nat.toDigits 10 n.natAbs := by simp [Itoa, hneg]
    rw [hI]
    unfold ParseInt
    cases hd : Nat.toDigits 10 n.natAbs with
    | nil => exact absurd hd (toDigits_ne_nil _)
    | cons c rest =>
      have hc := toDigits_digit n.natAbs c (by rw [hd]; simp)
      have hm : c ≠ '-' := by
        intro e; rw [e] at hc; revert hc; decide
      have hp : c ≠ '+' := by
        intro e; rw [e] at hc; revert hc; decide
      simp only [hm, hp, or_self, ↓reduceIte, false_and, not_false_eq_true, true_and]
      rw [← hd, ParseUint_toDigits n.natAbs (by omega)]
      simp only [Nat.add_one_sub_one]
      rw [if_neg (by omega)]
      congr 1
      omega

/-- The value of a digit string is at least the value it starts from. -/
theorem le_digitsValue (ds : Str) : ∀ acc, acc ≤ Spec.digitsValue acc ds := by
  induction ds with
  | nil => intro acc; exact Nat.le_refl _
  | cons c cs ih =>
    intro acc
    have h := ih (acc * 10 + (c.toNat - 48))
    simp only [Spec.digitsValue, List.foldl_cons] at h ⊢
    omega

/-- The digit loop succeeds exactly on a string of digits whose value, read after
the accumulator, fits in 32 bits, and returns that value. -/
theorem ParseUintLoop_ok_iff (s0 : Str) (cs : List Char) :
    ∀ (acc v : Nat), acc ≤ 4294967295 →
      (ParseUintLoop s0 32 cs acc = (v, none) ↔
        (cs.all Spec.isDigit = true ∧ Spec.digitsValue acc cs = v ∧ v ≤ 4294967295)) := by
  induction cs with
  | nil =>
    intro acc v hacc
    simp only [ParseUintLoop, Prod.mk.injEq, and_true, List.all_nil, Spec.digitsValue,
      List.foldl_nil, true_and]
    constructor
    · intro h; subst h; exact ⟨rfl, hacc⟩
    · intro h; exact h.1
  | cons c cs ih =>
    intro acc v hacc
    rw [ParseUintLoop_cons]
    have e1 : acc * 10 % 2 ^ 64 = acc * 10 := Nat.mod_eq_of_lt (by omega)
    have c2 : ¬ acc ≥ maxUint64 / 10 + 1 := by
      simp only [maxUint64]; omega
    by_cases hd : 48 ≤ c.toNat ∧ c.toNat ≤ 57
    · have hdig : Spec.isDigit c = true := by simp [Spec.isDigit, hd]
      have e2 : (acc * 10 + (c.toNat - 48)) % 2 ^ 64 = acc * 10 + (c.toNat - 48) :=
        Nat.mod_eq_of_lt (by omega)
      rw [if_pos hd, if_neg c2, e1, e2]
      simp only [List.all_cons, hdig, Bool.true_and, Spec.digitsValue, List.foldl_cons]
      by_cases hov : acc * 10 + (c.toNat - 48) > 2 ^ 32 - 1
      · rw [if_pos (Or.inr hov)]
        constructor
        · intro h; simp at h
        · intro h
          have hle := le_digitsValue cs (acc * 10 + (c.toNat - 48))
          simp only [Spec.digitsValue] at hle
          omega
      · rw [if_neg (by omega)]
        have := ih (acc * 10 + (c.toNat - 48)) v (by omega)
        simp only [Spec.digitsValue] at this
        exact this
    · have hdig : Spec.isDigit c = false := by simp [Spec.isDigit, hd]
      rw [if_neg hd]
      simp [hdig]

/-- An error of the digit loop is a syntax error, or a range error next to the
largest 32-bit value. -/
theorem ParseUintLoop_err (s0 : Str) (cs : List Char) :
    ∀ (acc u : Nat) (e : NumError), ParseUintLoop s0 32 cs acc = (u, some e) →
      e.Err = .ErrSyntax ∨ u = 4294967295 := by
  induction cs with
  | nil =>
    intro acc u e h
    simp [ParseUintLoop] at h
  | cons c cs ih =>
    intro acc u e h
    rw [ParseUintLoop_cons] at h
    split_ifs at h with h1 h2 h3
    · simp only [Prod.mk.injEq, Option.some.injEq] at h
      exact Or.inr (by omega)
    · simp only [Prod.mk.injEq, Option.some.injEq] at h
      exact Or.inr (by omega)
    · exact ih _ u e h
    · simp only [Prod.mk.injEq, Option.some.injEq] at h
      exact Or.inl (by rw [← h.2]; rfl)

/-- The result of `ParseUint` with 32 bits: the value of an unsigned literal that
fits, or an error as in `ParseUintLoop_err`. -/
theorem ParseUint_cases (ds : Str) :
    (∃ v, Spec.natLiteral ds = some v ∧ v ≤ 4294967295 ∧ ParseUint ds 32 = (v, none)) ∨
    ((∀ v, Spec.natLiteral ds = some v → 4294967295 < v) ∧
      ∃ u e, ParseUint ds 32 = (u, some e) ∧ (e.Err = .ErrSyntax ∨ u = 4294967295)) := by
  unfold ParseUint Spec.natLiteral
  by_cases hnil : ds = []
  · right
    subst hnil
    simp only [ne_eq, not_true_eq_false, false_and, ↓reduceIte, reduceCtorEq, false_implies,
      implies_true, true_and]
    exact ⟨_, _, rfl, Or.inl rfl⟩
  · rw [if_neg hnil]
    cases hres : ParseUintLoop ds 32 ds 0 with
    | mk u oe =>
      cases oe with
      | none =>
        left
        have := (ParseUintLoop_ok_iff ds ds 0 u (by omega)).1 hres
        refine ⟨u, ?_, this.2.2, rfl⟩
        simp [hnil, this.1, this.2.1]
      | some e =>
        right
        refine ⟨?_, u, e, rfl, ParseUintLoop_err ds ds 0 u e hres⟩
        intro v hv
        by_contra hlt
        simp only [ne_eq, hnil, not_false_eq_true, true_and] at hv
        split_ifs at hv with hall
        simp only [Option.some.injEq] at hv
        have := (ParseUintLoop_ok_iff ds ds 0 v (by omega)).2 ⟨hall, hv, by omega⟩
        rw [this] at hres
        simp at hres

/-- The body of `ParseInt` with 32 bits on a string that is not empty. -/
theorem ParseInt_cons (c : Char) (rest : List Char) :
    ParseInt (c :: rest) 32 =
      match ParseUint (if c = '+' ∨ c = '-' then rest else c :: rest) 32 with
      | (_, some ⟨_, _, .ErrSyntax⟩) => .error ⟨"ParseInt".toList, c :: rest, .ErrSyntax⟩
      | (un, _) =>
        if ¬ c = '-' ∧ un ≥ 2 ^ (32 - 1) then .error (rangeError "ParseInt".toList (c :: rest))
        else if c = '-' ∧ un > 2 ^ (32 - 1) then
          .error (rangeError "ParseInt".toList (c :: rest))
        else if c = '-' then .ok (-(un : Int)) else .ok (un : Int) := rfl

/-- The function `ParseInt` with 32 bits succeeds exactly on the signed base-10
literals whose value is a 32-bit integer, and returns that value. -/
theorem ParseInt_ok_iff (p : Str) (n : Int) :
    ParseInt p 32 = .ok n ↔ Spec.int32Literal p = some n := by
  cases p with
  | nil => simp [ParseInt, Spec.int32Literal, Spec.intLiteral]
  | cons c rest =>
    rw [ParseInt_cons]
    rcases ParseUint_cases (if c = '+' ∨ c = '-' then rest else c :: rest) with
      ⟨v, hlit, hv, hU⟩ | ⟨hbig, u, e, hU, he⟩
    · rw [hU]
      simp only
      by_cases hp : c = '+'
      · subst hp
        simp only [Char.reduceEq, or_false, ↓reduceIte, not_false_eq_true, true_and,
          false_and] at hlit ⊢
        simp only [Spec.int32Literal, Spec.intLiteral, ↓reduceIte, hlit, Int.ofNat_eq_coe]
        by_cases hr : v ≥ 2 ^ (32 - 1)
        · rw [if_pos hr, if_neg (by omega)]
          simp
        · rw [if_neg hr, if_pos (by omega)]
          simp
      · by_cases hm : c = '-'
        · subst hm
          simp only [Char.reduceEq, or_true, ↓reduceIte, not_true_eq_false, false_and,
            true_and] at hlit ⊢
          simp only [Spec.int32Literal, Spec.intLiteral, Char.reduceEq, ↓reduceIte, hlit,
            Int.ofNat_eq_coe]
          by_cases hr : v > 2 ^ (32 - 1)
          · rw [if_pos hr, if_neg (by omega)]
            simp
          · rw [if_neg hr, if_pos (by omega)]
            simp
        · simp only [hp, hm, or_self, ↓reduceIte, not_false_eq_true, true_and,
            false_and] at hlit ⊢
          simp only [Spec.int32Literal, Spec.intLiteral, hp, hm, ↓reduceIte, hlit,
            Int.ofNat_eq_coe]
          by_cases hr : v ≥ 2 ^ (32 - 1)
          · rw [if_pos hr, if_neg (by omega)]
            simp
          · rw [if_neg hr, if_pos (by omega)]
            simp
    · rw [hU]
      have hnone : Spec.int32Literal (c :: rest) = none := by
        simp only [Spec.int32Literal, Spec.intLiteral]
        by_cases hp : c = '+'
        · subst hp
          simp only [Char.reduceEq, or_false, ↓reduceIte] at hbig
          simp only [↓reduceIte]
          cases hl : Spec.natLiteral rest with
          | none => rfl
          | some v =>
            have := hbig v hl
            simp only [Int.ofNat_eq_coe]
            rw [if_neg (by omega)]
        · by_cases hm : c = '-'
          · subst hm
            simp only [Char.reduceEq, or_true, ↓reduceIte] at hbig
            simp only [Char.reduceEq, ↓reduceIte]
            cases hl : Spec.natLiteral rest with
            | none => rfl
            | some v =>
              have := hbig v hl
              simp only [Int.ofNat_eq_coe]
              rw [if_neg (by omega)]
          · simp only [hp, hm, or_self, ↓reduceIte] at hbig
            simp only [hp, hm, ↓reduceIte]
            cases hl : Spec.natLiteral (c :: rest) with
            | none => rfl
            | some v =>
              have := hbig v hl
              simp only [Int.ofNat_eq_coe]
              rw [if_neg (by omega)]
      rw [hnone]
      obtain ⟨f, num, err⟩ := e
      cases err with
      | ErrSyntax => simp
      | ErrRange =>
        simp only at he
        rcases he with he | he
        · simp at he
        · subst he
          simp only
          by_cases hm : c = '-'
          · simp [hm]
          · simp [hm]

theorem FormatBool_eq (b : Bool) :
    FormatBool b = if b then "true".toList else "false".toList := by
  cases b <;> rfl

end strconv

namespace Attr

open base strings strconv

/-- The result of `Attribute` when the trimmed input is not split in two by the bar. -/
theorem Attribute_bar (L : Lib) (input : Str)
    (h : (Split (TrimSpace input) '|').length ≠ 2) :
    Attribute L input = .error .ErrInvalidAttribute := by
  unfold Attribute
  split
  · rename_i s0 s1 e
    rw [e] at h
    exact absurd rfl h
  · rfl

/-- The result of `Attribute` when the part before the bar is not split in two by
the dollar sign. -/
theorem Attribute_dollar (L : Lib) (input s0 s1 : Str)
    (h1 : Split (TrimSpace input) '|' = [s0, s1])
    (h2 : (Split s0 '$').length ≠ 2) :
    Attribute L input = .error .ErrInvalidEntity := by
  unfold Attribute
  rw [h1]
  simp only
  split
  · rename_i e0 e1 e
    rw [e] at h2
    exact absurd rfl h2
  · rfl

/-- The result of `Attribute` when the entity text is not split in two by the colon. -/
theorem Attribute_entity_colon (L : Lib) (input s0 s1 e0 e1 : Str)
    (h1 : Split (TrimSpace input) '|' = [s0, s1])
    (h2 : Split s0 '$' = [e0, e1])
    (h3 : (Split e0 ':').length ≠ 2) :
    Attribute L input = .error .ErrInvalidAttribute := by
  unfold Attribute
  rw [h1]
  simp only
  rw [h2]
  simp only
  split
  · rename_i a b e
    rw [e] at h3
    exact absurd rfl h3
  · rfl

/-- The result of `Attribute` when the value text is not split in two by the colon. -/
theorem Attribute_value_colon (L : Lib) (input s0 s1 e0 e1 et0 et1 : Str)
    (h1 : Split (TrimSpace input) '|' = [s0, s1])
    (h2 : Split s0 '$' = [e0, e1])
    (h3 : Split e0 ':' = [et0, et1])
    (h4 : (Split s1 ':').length ≠ 2) :
    Attribute L input = .error .ErrInvalidAttribute := by
  unfold Attribute
  rw [h1]
  simp only
  rw [h2]
  simp only
  rw [h3]
  simp only
  split
  · rename_i a b e
    rw [e] at h4
    exact absurd rfl h4
  · rfl

/-- The result of `Attribute` on an input that passes the four structural checks. -/
theorem Attribute_structured (L : Lib) (input s0 s1 e0 e1 et0 et1 v0 v1 : Str)
    (h1 : Split (TrimSpace input) '|' = [s0, s1])
    (h2 : Split s0 '$' = [e0, e1])
    (h3 : Split e0 ':' = [et0, et1])
    (h4 : Split s1 ':' = [v0, v1]) :
    Attribute L input =
      match wrap L v0 v1 with
      | .error err => .error err
      | .ok wrapped =>
        match anypb.New L wrapped with
        | .error err => .error err
        | .ok value =>
          .ok { Entity := some { Typ := et0, Id := et1 }, Attribute := e1, Value := some value } := by
  unfold Attribute
  rw [h1]
  simp only
  rw [h2]
  simp only
  rw [h3]
  simp only
  rw [h4]

/-- An error of the element loop is the error of one of the elements. -/
theorem parseEach_error {α : Type} (parse : Str → Except Error α) (l : List Str) (err : Error)
    (h : parseEach parse l = .error err) : ∃ v ∈ l, parse v = .error err := by
  induction l with
  | nil => simp [parseEach] at h
  | cons v rest ih =>
    unfold parseEach at h
    cases hv : parse v with
    | error e =>
      rw [hv] at h
      simp only [Except.error.injEq] at h
      exact ⟨v, by simp, by rw [hv, h]⟩
    | ok x =>
      rw [hv] at h
      simp only at h
      cases hr : parseEach parse rest with
      | error e =>
        rw [hr] at h
        simp only [Except.error.injEq] at h
        obtain ⟨w, hw, hp⟩ := ih (by rw [hr, h])
        exact ⟨w, by simp [hw], hp⟩
      | ok xs =>
        rw [hr] at h
        simp at h

theorem parseBoolean_error (v : Str) (err : Error) (h : parseBoolean v = .error err) :
    ∃ ne, err = .Errorf "failed to parse boolean: ".toList ne := by
  unfold parseBoolean at h
  split at h
  · simp only [Except.error.injEq] at h
    exact ⟨_, h.symm⟩
  · simp at h

theorem parseDouble_error (L : Lib) (v : Str) (err : Error) (h : parseDouble L v = .error err) :
    ∃ ne, err = .Errorf "failed to parse float: ".toList ne := by
  unfold parseDouble at h
  split at h
  · simp only [Except.error.injEq] at h
    exact ⟨_, h.symm⟩
  · simp at h

theorem parseInteger_error (v : Str) (err : Error) (h : parseInteger v = .error err) :
    ∃ ne, err = .Errorf "failed to parse integer: ".toList ne := by
  unfold parseInteger at h
  split at h
  · simp only [Except.error.injEq] at h
    exact ⟨_, h.symm⟩
  · simp at h

/-- With a tag outside the eight, the switch takes its default case. -/
theorem wrap_unknown (L : Lib) (v0 v1 : Str) (h : v0 ∉ Spec.typeTags) :
    wrap L v0 v1 = .error .ErrInvalidValue := by
  simp only [Spec.typeTags, List.mem_cons, List.mem_singleton, not_or, List.not_mem_nil,
    or_false] at h
  obtain ⟨a1, a2, a3, a4, a5, a6, a7, a8⟩ := h
  unfold wrap
  rw [if_neg a1, if_neg a2, if_neg a3, if_neg a4, if_neg a5, if_neg a6, if_neg a7, if_neg a8]

/-- With one of the eight tags, an error of the switch is a parse error built by
`fmt.Errorf`. -/
theorem wrap_known_error (L : Lib) (v0 v1 : Str) (h : v0 ∈ Spec.typeTags) (err : Error)
    (he : wrap L v0 v1 = .error err) : ∃ pre ne, err = .Errorf pre ne := by
  simp only [Spec.typeTags, List.mem_cons, List.mem_singleton, List.not_mem_nil,
    or_false] at h
  unfold wrap at he
  rcases h with h | h | h | h | h | h | h | h
  all_goals
    subst h
    simp only [String.toList, List.cons.injEq, Char.reduceEq, and_false, and_true, ↓reduceIte,
      reduceCtorEq, and_self] at he
  · split at he
    · rename_i e hp
      simp only [Except.error.injEq] at he
      subst he
      obtain ⟨ne, hne⟩ := parseBoolean_error _ _ hp
      exact ⟨_, ne, hne⟩
    · simp at he
  · split at he
    · rename_i e hp
      simp only [Except.error.injEq] at he
      subst he
      obtain ⟨w, _, hw⟩ := parseEach_error _ _ _ hp
      obtain ⟨ne, hne⟩ := parseBoolean_error _ _ hw
      exact ⟨_, ne, hne⟩
    · simp at he
  · split at he
    · rename_i e hp
      obtain ⟨w, _, hw⟩ := parseEach_error _ _ _ hp
      simp at hw
    · simp at he
  · split at he
    · rename_i e hp
      simp only [Except.error.injEq] at he
      subst he
      obtain ⟨ne, hne⟩ := parseDouble_error _ _ _ hp
      exact ⟨_, ne, hne⟩
    · simp at he
  · split at he
    · rename_i e hp
      simp only [Except.error.injEq] at he
      subst he
      obtain ⟨w, _, hw⟩ := parseEach_error _ _ _ hp
      obtain ⟨ne, hne⟩ := parseDouble_error _ _ _ hw
      exact ⟨_, ne, hne⟩
    · simp at he
  · split at he
    · rename_i e hp
      simp only [Except.error.injEq] at he
      subst he
      obtain ⟨ne, hne⟩ := parseInteger_error _ _ hp
      exact ⟨_, ne, hne⟩
    · simp at he
  · split at he
    · rename_i e hp
      simp only [Except.error.injEq] at he
      subst he
      obtain ⟨w, _, hw⟩ := parseEach_error _ _ _ hp
      obtain ⟨ne, hne⟩ := parseInteger_error _ _ hw
      exact ⟨_, ne, hne⟩
    · simp at he

/-- An error of `anypb.New` is an error of the protobuf library. -/
theorem New_error (L : Lib) (m : Message L.Float64) (err : Error)
    (h : anypb.New L m = .error err) : err = .Proto .marshal := by
  unfold anypb.New at h
  split at h
  · simp only [Except.error.injEq] at h
    exact h.symm
  · simp at h

/-- The element loop stops at the first element that fails. -/
theorem parseEach_first_error {α : Type} (parse : Str → Except Error α) (good rest : List Str)
    (bad : Str) (err : Error) (hgood : ∀ x ∈ good, ∃ y, parse x = .ok y)
    (hbad : parse bad = .error err) :
    parseEach parse (good ++ bad :: rest) = .error err := by
  induction good with
  | nil => simp [parseEach, hbad]
  | cons g gs ih =>
    obtain ⟨y, hy⟩ := hgood g (by simp)
    have ih2 := ih (fun x hx => hgood x (by simp [hx]))
    simp [parseEach, hy, ih2]

theorem ParseBool_error (x : Str) (e : NumError) (h : ParseBool x = .error e) :
    e = ⟨"ParseBool".toList, x, .ErrSyntax⟩ := by
  unfold ParseBool at h
  split_ifs at h
  simp only [syntaxError, Except.error.injEq] at h
  exact h.symm

theorem ParseInt_error (x : Str) (bitSize : Nat) (e : NumError)
    (h : ParseInt x bitSize = .error e) : ∃ k, e = ⟨"ParseInt".toList, x, k⟩ := by
  unfold ParseInt at h
  split at h
  · simp only [syntaxError, Except.error.injEq] at h
    exact ⟨_, h.symm⟩
  · simp only at h
    split at h
    · simp only [Except.error.injEq] at h
      exact ⟨_, h.symm⟩
    · split_ifs at h <;> simp only [rangeError, Except.error.injEq, reduceCtorEq] at h <;>
        exact ⟨_, h.symm⟩

/-- An element that does not parse makes the element parser of the code fail
with the error `fmt.Errorf` builds from the `NumError` of that element. -/
theorem parseBoolean_of_not_parses (L : Lib) (x : Str)
    (h : Spec.Target.parses L .boolean x = false) :
    parseBoolean x = .error (.Errorf "failed to parse boolean: ".toList
      ⟨"ParseBool".toList, x, .ErrSyntax⟩) := by
  simp only [Spec.Target.parses] at h
  unfold parseBoolean
  cases hp : ParseBool x with
  | ok b => rw [hp] at h; simp at h
  | error e => rw [ParseBool_error x e hp]

theorem parseInteger_of_not_parses (L : Lib) (x : Str)
    (h : Spec.Target.parses L .integer x = false) :
    ∃ k, parseInteger x = .error (.Errorf "failed to parse integer: ".toList
      ⟨"ParseInt".toList, x, k⟩) := by
  simp only [Spec.Target.parses] at h
  unfold parseInteger
  cases hp : ParseInt x 32 with
  | ok b => rw [hp] at h; simp at h
  | error e =>
    obtain ⟨k, hk⟩ := ParseInt_error x 32 e hp
    exact ⟨k, by rw [hk]⟩

theorem parseDouble_of_not_parses (L : Lib) (x : Str)
    (h : Spec.Target.parses L .double x = false) :
    ∃ k, parseDouble L x = .error (.Errorf "failed to parse float: ".toList
      ⟨"ParseFloat".toList, x, k⟩) := by
  simp only [Spec.Target.parses] at h
  unfold parseDouble ParseFloat
  cases hp : L.ParseFloat x with
  | ok b => rw [hp] at h; simp at h
  | error e => exact ⟨e, rfl⟩

theorem parseBoolean_of_parses (L : Lib) (x : Str)
    (h : Spec.Target.parses L .boolean x = true) : ∃ y, parseBoolean x = .ok y := by
  simp only [Spec.Target.parses] at h
  unfold parseBoolean
  cases hp : ParseBool x with
  | ok b => exact ⟨b, rfl⟩
  | error e => rw [hp] at h; simp at h

theorem parseInteger_of_parses (L : Lib) (x : Str)
    (h : Spec.Target.parses L .integer x = true) : ∃ y, parseInteger x = .ok y := by
  simp only [Spec.Target.parses] at h
  unfold parseInteger
  cases hp : ParseInt x 32 with
  | ok b => exact ⟨_, rfl⟩
  | error e => rw [hp] at h; simp at h

theorem parseDouble_of_parses (L : Lib) (x : Str)
    (h : Spec.Target.parses L .double x = true) : ∃ y, parseDouble L x = .ok y := by
  simp only [Spec.Target.parses] at h
  unfold parseDouble ParseFloat
  cases hp : L.ParseFloat x with
  | ok b => exact ⟨_, rfl⟩
  | error e => rw [hp] at h; simp at h

/-- The switch on a scalar or array tag of a parsed type, with a first element
that does not parse. -/
theorem wrap_first_bad (L : Lib) (v0 v1 : Str) (t : Spec.Target) (good rest : List Str)
    (bad : Str)
    (hshape : (v0 = t.tag ∧ bad = v1) ∨ (v0 = t.arrayTag ∧ Split v1 ',' = good ++ bad :: rest))
    (hgood : ∀ x ∈ good, t.parses L x = true)
    (hbad : t.parses L bad = false) :
    ∃ k, wrap L v0 v1 = .error (.Errorf ("failed to parse ".toList ++ t.typeName ++ ": ".toList)
      ⟨t.func, bad, k⟩) := by
  cases t with
  | boolean =>
    have hb := parseBoolean_of_not_parses L bad hbad
    rcases hshape with ⟨h0, hv⟩ | ⟨h0, hv⟩
    · subst h0; subst hv
      refine ⟨.ErrSyntax, ?_⟩
      unfold wrap
      simp only [Spec.Target.tag, ↓reduceIte, hb]
      rfl
    · subst h0
      refine ⟨.ErrSyntax, ?_⟩
      have := parseEach_first_error parseBoolean good rest bad _
        (fun x hx => parseBoolean_of_parses L x (hgood x hx)) hb
      unfold wrap
      simp only [Spec.Target.arrayTag, Spec.Target.tag, String.toList, List.cons_append,
        List.nil_append, List.cons.injEq, Char.reduceEq, and_false, and_true, ↓reduceIte,
        reduceCtorEq, and_self, hv, this]
      rfl
  | integer =>
    obtain ⟨k, hb⟩ := parseInteger_of_not_parses L bad hbad
    rcases hshape with ⟨h0, hv⟩ | ⟨h0, hv⟩
    · subst h0; subst hv
      refine ⟨k, ?_⟩
      unfold wrap
      simp only [Spec.Target.tag, String.toList, List.cons.injEq, Char.reduceEq, and_false,
        and_true, ↓reduceIte, reduceCtorEq, and_self, hb]
      rfl
    · subst h0
      refine ⟨k, ?_⟩
      have := parseEach_first_error parseInteger good rest bad _
        (fun x hx => parseInteger_of_parses L x (hgood x hx)) hb
      unfold wrap
      simp only [Spec.Target.arrayTag, Spec.Target.tag, String.toList, List.cons_append,
        List.nil_append, List.cons.injEq, Char.reduceEq, and_false, and_true, ↓reduceIte,
        reduceCtorEq, and_self, hv, this]
      rfl
  | double =>
    obtain ⟨k, hb⟩ := parseDouble_of_not_parses L bad hbad
    rcases hshape with ⟨h0, hv⟩ | ⟨h0, hv⟩
    · subst h0; subst hv
      refine ⟨k, ?_⟩
      unfold wrap
      simp only [Spec.Target.tag, String.toList, List.cons.injEq, Char.reduceEq, and_false,
        and_true, ↓reduceIte, reduceCtorEq, and_self, hb]
      rfl
    · subst h0
      refine ⟨k, ?_⟩
      have := parseEach_first_error (parseDouble L) good rest bad _
        (fun x hx => parseDouble_of_parses L x (hgood x hx)) hb
      unfold wrap
      simp only [Spec.Target.arrayTag, Spec.Target.tag, String.toList, List.cons_append,
        List.nil_append, List.cons.injEq, Char.reduceEq, and_false, and_true, ↓reduceIte,
        reduceCtorEq, and_self, hv, this]
      rfl

/-- On a value made by `anypb.New`, `MessageIs` accepts exactly the kind of the message. -/
theorem MessageIs_New {B : Type} (k k2 : Kind) (b : B) :
    anypb.MessageIs (⟨anypb.urlBase ++ k2.FullName, b⟩ : Any B) k = decide (k = k2) := by
  cases k <;> cases k2 <;> rfl

/-- A value made by `anypb.New` unmarshals, as its own kind, to the message. -/
theorem UnmarshalTo_same (L : Lib) (hlaw : L.WireRoundTrip) (m : Message L.Float64)
    (w : Any L.Bytes) (hw : anypb.New L m = .ok w) :
    anypb.UnmarshalTo L (some w) m.1 = .ok m.2 := by
  unfold anypb.New at hw
  cases hm : L.Marshal m.1 m.2 with
  | none => rw [hm] at hw; simp at hw
  | some b =>
    rw [hm] at hw
    simp only [Except.ok.injEq] at hw
    subst hw
    unfold anypb.UnmarshalTo
    simp only [MessageIs_New, decide_True, not_true_eq_false, ↓reduceIte, hlaw m.1 m.2 b hm]

/-- A value made by `anypb.New` is refused by `UnmarshalTo` into any other kind. -/
theorem UnmarshalTo_other (L : Lib) (m : Message L.Float64) (w : Any L.Bytes)
    (hw : anypb.New L m = .ok w) (k : Kind) (hk : k ≠ m.1) :
    anypb.UnmarshalTo L (some w) k = .error (.Proto .mismatched) := by
  unfold anypb.New at hw
  cases hm : L.Marshal m.1 m.2 with
  | none => rw [hm] at hw; simp at hw
  | some b =>
    rw [hm] at hw
    simp only [Except.ok.injEq] at hw
    subst hw
    unfold anypb.UnmarshalTo
    simp [MessageIs_New, hk]

/-- The tag of a declared type is the tag of a variant exactly when the switch of
`ValidateValue` makes a target of that variant. -/
theorem tag_eq_iff_target (t : AttributeType) (k : Kind) :
    TypeToString t = Spec.typeTag k ↔ target t = some k := by
  cases t <;> cases k <;>
    first
    | decide
    | simp [TypeToString, target, Spec.typeTag]

/-- The result of `UnmarshalTo` on a value whose URL is the one `anypb.New` makes for the kind
of the target. -/
theorem UnmarshalTo_url (L : Lib) (k : Kind) (b : L.Bytes) :
    anypb.UnmarshalTo L (some ⟨anypb.urlBase ++ k.FullName, b⟩) k =
      match L.Unmarshal k b with
      | none => .error (.Proto .unmarshal)
      | some v => .ok v := by
  unfold anypb.UnmarshalTo
  simp only [MessageIs_New, decide_True, not_true_eq_false, ↓reduceIte]

/-- The result of `AnyToString` on a recognised type URL: the rendering of the unmarshalled
message, or the sentinel when the bytes do not unmarshal. -/
theorem AnyToString_of_url (L : Lib) (x : Any L.Bytes) (k : Kind)
    (h : x.TypeUrl = anypb.urlBase ++ k.FullName) :
    AnyToString L (some x) =
      some (match L.Unmarshal k x.Value with
        | none => undefined
        | some v => Spec.payload L k v) := by
  obtain ⟨url, b⟩ := x
  simp only at h
  subst h
  cases k <;>
    simp only [AnyToString, UnmarshalTo_url] <;>
    simp only [anypb.urlBase, Kind.FullName, String.toList, List.cons_append,
      List.nil_append, List.cons.injEq, Char.reduceEq, and_false, and_true, reduceCtorEq,
      and_self, List.append_assoc, ↓reduceIte] <;>
    cases hu : L.Unmarshal _ b <;>
    simp only [Spec.payload, FormatBool_eq, Join_eq_intercalate, Itoa_eq_toString,
      List.map_id_fun, List.map_id', id, String.toList,
      show FormatBool = (fun b => if b then "true".toList else "false".toList) from
        funext FormatBool_eq,
      show Itoa = (fun n => (toString n).toList) from funext Itoa_eq_toString]

/-- The result of `AnyToString` on an unrecognised type URL. -/
theorem AnyToString_unknown (L : Lib) (x : Any L.Bytes) (h : x.TypeUrl ∉ Spec.typeUrls) :
    AnyToString L (some x) = some undefined := by
  simp only [Spec.typeUrls, List.mem_cons, List.mem_singleton, not_or, List.not_mem_nil,
    or_false] at h
  obtain ⟨a1, a2, a3, a4, a5, a6, a7, a8⟩ := h
  unfold AnyToString
  simp only
  rw [if_neg a1, if_neg a2, if_neg a3, if_neg a4, if_neg a5, if_neg a6, if_neg a7, if_neg a8]

theorem mem_typeUrls_iff (url : Str) :
    url ∈ Spec.typeUrls ↔ ∃ k : Kind, url = anypb.urlBase ++ k.FullName := by
  constructor
  · intro h
    simp only [Spec.typeUrls, List.mem_cons, List.mem_singleton, List.not_mem_nil,
      or_false] at h
    rcases h with h | h | h | h | h | h | h | h
    · exact ⟨.Boolean, h⟩
    · exact ⟨.BooleanArray, h⟩
    · exact ⟨.String, h⟩
    · exact ⟨.StringArray, h⟩
    · exact ⟨.Double, h⟩
    · exact ⟨.DoubleArray, h⟩
    · exact ⟨.Integer, h⟩
    · exact ⟨.IntegerArray, h⟩
  · rintro ⟨k, rfl⟩
    cases k <;> decide

/-- A value made by `anypb.New`: the URL of the kind and the marshalled bytes. -/
theorem New_ok (L : Lib) (m : Message L.Float64) (w : Any L.Bytes)
    (hw : anypb.New L m = .ok w) :
    ∃ b, L.Marshal m.1 m.2 = some b ∧ w = ⟨anypb.urlBase ++ m.1.FullName, b⟩ := by
  unfold anypb.New at hw
  cases hm : L.Marshal m.1 m.2 with
  | none => rw [hm] at hw; simp at hw
  | some b =>
    rw [hm] at hw
    simp only [Except.ok.injEq] at hw
    exact ⟨b, rfl, hw.symm⟩

/-- The tag `TypeUrlToString` gives for the URL of each kind. -/
theorem TypeUrlToString_url (k : Kind) :
    TypeUrlToString (anypb.urlBase ++ k.FullName) = Spec.typeTag k := by
  cases k <;> decide

/-- The result of `ToString` on an attribute whose value was made by `anypb.New`. -/
theorem ToString_New (L : Lib) (hlaw : L.WireRoundTrip) (et0 et1 name : Str)
    (m : Message L.Float64) (w : Any L.Bytes) (hw : anypb.New L m = .ok w) :
    ToString L ⟨some ⟨et0, et1⟩, name, some w⟩ =
      some (et0 ++ ":".toList ++ et1 ++ "$".toList ++ name ++ "|".toList ++
        Spec.typeTag m.1 ++ ":".toList ++ Spec.payload L m.1 m.2) := by
  obtain ⟨b, hb, rfl⟩ := New_ok L m w hw
  unfold ToString
  simp only [AnyToString_of_url L ⟨anypb.urlBase ++ m.1.FullName, b⟩ m.1 rfl,
    hlaw m.1 m.2 b hb, Any.GetTypeUrl, TypeUrlToString_url, EntityToString, Entity.GetType,
    Entity.GetId]

/-- The wire format of `testLib` has the round-trip law. -/
theorem testLib_WireRoundTrip : testLib.WireRoundTrip := by
  intro k v b h
  simp only [testLib, Option.some.injEq] at h
  subst h
  simp [testLib]

/-- The payload of the specification is the string the code renders. -/
theorem payload_eq_render (L : Lib) (k : Kind) (v : k.Val L.Float64) :
    Spec.payload L k v = render L k v := by
  cases k <;>
    simp only [Spec.payload, render, FormatBool_eq, Join_eq_intercalate, Itoa_eq_toString,
      List.map_id_fun, List.map_id', id, String.toList,
      show FormatBool = (fun b => if b then "true".toList else "false".toList) from
        funext FormatBool_eq,
      show Itoa = (fun n => (toString n).toList) from funext Itoa_eq_toString]

/-- The element loop reads back a list of rendered elements. -/
theorem parseEach_map {α : Type} (parse : Str → Except Error α) (fmt : α → Str) (l : List α)
    (h : ∀ x ∈ l, parse (fmt x) = .ok x) : parseEach parse (l.map fmt) = .ok l := by
  induction l with
  | nil => rfl
  | cons a t ih =>
    have h1 := h a (by simp)
    have h2 := ih (fun x hx => h x (by simp [hx]))
    simp [parseEach, h1, h2]

/-- The characters of the text of `Itoa` are digits and the minus sign. -/
theorem Itoa_chars (n : Int) : ∀ c ∈ Itoa n, c = '-' ∨ (48 ≤ c.toNat ∧ c.toNat ≤ 57) := by
  intro c hc
  unfold Itoa at hc
  split_ifs at hc
  · simp only [List.mem_cons] at hc
    rcases hc with hc | hc
    · exact Or.inl hc
    · exact Or.inr (toDigits_digit _ c hc)
  · exact Or.inr (toDigits_digit _ c hc)

theorem Itoa_noneOf (n : Int) : Spec.noneOf ['|', ':', ','] (Itoa n) := by
  intro c hc hb
  rcases Itoa_chars n c hc with h | h
  · subst h; revert hb; decide
  · simp only [List.mem_cons, List.mem_singleton, List.not_mem_nil, or_false] at hb
    rcases hb with hb | hb | hb <;> subst hb <;> revert h <;> decide

theorem FormatBool_noneOf (b : Bool) : Spec.noneOf ['|', ':', ','] (FormatBool b) := by
  cases b <;> intro c hc <;> revert c <;> decide

theorem parseBoolean_FormatBool (b : Bool) : parseBoolean (FormatBool b) = .ok b := by
  cases b <;> rfl

theorem parseInteger_Itoa (n : Int) (h1 : -2147483648 ≤ n) (h2 : n ≤ 2147483647) :
    parseInteger (Itoa n) = .ok n := by
  unfold parseInteger
  rw [ParseInt_Itoa n h1 h2]
  simp only [int32, Except.ok.injEq]
  omega

theorem parseDouble_FormatFloat (L : Lib) (d : L.Float64)
    (h : L.ParseFloat (L.FormatFloat d) = .ok d) : parseDouble L (L.FormatFloat d) = .ok d := by
  unfold parseDouble ParseFloat
  rw [h]

/-- Weakening of `noneOf` to one character. -/
theorem not_mem_of_noneOf {bad : List Char} {s : Str} (h : Spec.noneOf bad s) (c : Char)
    (hc : c ∈ bad) : c ∉ s :=
  fun hm => h c hm hc

/-- The joined renderings hold neither the bar nor the colon when no rendering does. -/
theorem Join_noneOf (l : List Str) (h : ∀ s ∈ l, Spec.noneOf ['|', ':', ','] s) :
    Spec.noneOf ['|', ':'] (Join l ",".toList) := by
  intro c hc hb
  rcases mem_Join l _ c hc with h1 | ⟨x, hx, hcx⟩
  · simp only [String.toList, List.mem_singleton] at h1
    subst h1
    revert hb
    decide
  · apply h x hx c hcx
    simp only [List.mem_cons, List.mem_singleton, List.not_mem_nil, or_false] at hb ⊢
    rcases hb with hb | hb
    · exact Or.inl hb
    · exact Or.inr (Or.inl hb)

/-- The rendering of a readable value holds neither the bar nor the colon. -/
theorem render_noneOf (L : Lib) (k : Kind) (v : k.Val L.Float64) (h : Spec.readable L k v) :
    Spec.noneOf ['|', ':'] (render L k v) := by
  cases k with
  | Boolean =>
    intro c hc hb
    exact FormatBool_noneOf v c hc (by
      simp only [List.mem_cons, List.mem_singleton, List.not_mem_nil, or_false] at hb ⊢
      tauto)
  | BooleanArray =>
    apply Join_noneOf
    intro s hs
    simp only [List.mem_map] at hs
    obtain ⟨b, _, rfl⟩ := hs
    exact FormatBool_noneOf b
  | String => exact h
  | StringArray =>
    apply Join_noneOf
    intro s hs
    simp only [List.map_id_fun', id] at hs
    exact h.2 s (by simpa using hs)
  | Double => exact h.1
  | DoubleArray =>
    apply Join_noneOf
    intro s hs
    simp only [List.mem_map] at hs
    obtain ⟨d, hd, rfl⟩ := hs
    exact (h.2 d hd).1
  | Integer =>
    intro c hc hb
    exact Itoa_noneOf v c hc (by
      simp only [List.mem_cons, List.mem_singleton, List.not_mem_nil, or_false] at hb ⊢
      tauto)
  | IntegerArray =>
    apply Join_noneOf
    intro s hs
    simp only [List.mem_map] at hs
    obtain ⟨n, _, rfl⟩ := hs
    exact Itoa_noneOf n

/-- The switch of `Attribute` reads the rendering of a readable value back. -/
theorem wrap_render (L : Lib) (k : Kind) (v : k.Val L.Float64) (h : Spec.readable L k v) :
    wrap L (Spec.typeTag k) (render L k v) = .ok ⟨k, v⟩ := by
  cases k with
  | Boolean =>
    simp only [wrap, Spec.typeTag, render, ↓reduceIte, parseBoolean_FormatBool]
  | BooleanArray =>
    have hs : Split (Join (List.map FormatBool v) [',']) ',' = List.map FormatBool v :=
      Split_Join _ ',' (by simpa using h) (by
        intro s hs
        simp only [List.mem_map] at hs
        obtain ⟨b, _, rfl⟩ := hs
        exact not_mem_of_noneOf (FormatBool_noneOf b) ',' (by decide))
    have hp := parseEach_map parseBoolean FormatBool v (fun x _ => parseBoolean_FormatBool x)
    simp only [wrap, Spec.typeTag, render, String.toList, List.cons.injEq, Char.reduceEq,
      and_false, and_true, ↓reduceIte, reduceCtorEq, and_self, hs, hp]
  | String =>
    simp only [wrap, Spec.typeTag, render, String.toList, List.cons.injEq, Char.reduceEq,
      and_false, and_true, ↓reduceIte, reduceCtorEq, and_self]
  | StringArray =>
    have hs : Split (Join (List.map (fun v => v) v) [',']) ',' = v := by
      rw [List.map_id']
      exact Split_Join _ ',' h.1 (fun s hs => not_mem_of_noneOf (h.2 s hs) ',' (by decide))
    have hp := parseEach_map (fun value => (.ok value : Except Error Str)) (fun x => x) v
      (fun x _ => rfl)
    rw [List.map_id'] at hp
    simp only [wrap, Spec.typeTag, render, String.toList, List.cons.injEq, Char.reduceEq,
      and_false, and_true, ↓reduceIte, reduceCtorEq, and_self, hs, hp]
  | Double =>
    simp only [wrap, Spec.typeTag, render, String.toList, List.cons.injEq, Char.reduceEq,
      and_false, and_true, ↓reduceIte, reduceCtorEq, and_self,
      parseDouble_FormatFloat L v h.2]
  | DoubleArray =>
    have hs : Split (Join (List.map L.FormatFloat v) [',']) ',' = List.map L.FormatFloat v :=
      Split_Join _ ',' (by simpa using h.1) (by
        intro s hs
        simp only [List.mem_map] at hs
        obtain ⟨d, hd, rfl⟩ := hs
        exact not_mem_of_noneOf (h.2 d hd).1 ',' (by decide))
    have hp := parseEach_map (parseDouble L) L.FormatFloat v
      (fun x hx => parseDouble_FormatFloat L x (h.2 x hx).2)
    simp only [wrap, Spec.typeTag, render, String.toList, List.cons.injEq, Char.reduceEq,
      and_false, and_true, ↓reduceIte, reduceCtorEq, and_self, hs, hp]
  | Integer =>
    simp only [wrap, Spec.typeTag, render, String.toList, List.cons.injEq, Char.reduceEq,
      and_false, and_true, ↓reduceIte, reduceCtorEq, and_self,
      parseInteger_Itoa v h.1 h.2]
  | IntegerArray =>
    have hs : Split (Join (List.map Itoa v) [',']) ',' = List.map Itoa v :=
      Split_Join _ ',' (by simpa using h.1) (by
        intro s hs
        simp only [List.mem_map] at hs
        obtain ⟨n, _, rfl⟩ := hs
        exact not_mem_of_noneOf (Itoa_noneOf n) ',' (by decide))
    have hp := parseEach_map parseInteger Itoa v
      (fun x hx => parseInteger_Itoa x (h.2 x hx).1 (h.2 x hx).2)
    simp only [wrap, Spec.typeTag, render, String.toList, List.cons.injEq, Char.reduceEq,
      and_false, and_true, ↓reduceIte, reduceCtorEq, and_self, hs, hp]

theorem typeTag_noneOf (k : Kind) : Spec.noneOf ['|', ':'] (Spec.typeTag k) := by
  cases k <;> intro c hc <;> revert c <;> decide

/-- A literal in the range of a 32-bit integer has its value in that range. -/
theorem int32Literal_range (p : Str) (n : Int) (h : Spec.int32Literal p = some n) :
    -2147483648 ≤ n ∧ n ≤ 2147483647 := by
  unfold Spec.int32Literal at h
  split at h
  · simp at h
  · split_ifs at h with hr
    simp only [Option.some.injEq] at h
    subst h
    exact hr

/-- The element parser of the integer cases succeeds exactly on the literals in
the range of a 32-bit integer, with their value. -/
theorem parseInteger_ok_iff (x : Str) (n : Int) :
    parseInteger x = .ok n ↔ Spec.int32Literal x = some n := by
  unfold parseInteger
  cases hp : ParseInt x 32 with
  | error e =>
    simp only [reduceCtorEq, false_iff]
    intro h
    rw [(ParseInt_ok_iff x n).2 h] at hp
    simp at hp
  | ok v =>
    have hv := (ParseInt_ok_iff x v).1 hp
    have hr := int32Literal_range x v hv
    have e : int32 v = v := by simp only [int32]; omega
    simp only [e, Except.ok.injEq, hv, Option.some.injEq]

/-- The element parser fails on every other text. -/
theorem parseInteger_error_of_none (x : Str) (h : Spec.int32Literal x = none) :
    ∃ err, parseInteger x = .error err := by
  cases hp : parseInteger x with
  | error e => exact ⟨e, rfl⟩
  | ok n =>
    rw [(parseInteger_ok_iff x n).1 hp] at h
    simp at h

/-- The element loop of the case `integer[]` succeeds exactly when every element
is a literal in the range of a 32-bit integer, with the list of their values. -/
theorem parseEach_parseInteger (l : List Str) : ∀ ys : List Int,
    parseEach parseInteger l = .ok ys ↔
      (l.all (fun x => (Spec.int32Literal x).isSome) = true ∧
        ys = l.filterMap Spec.int32Literal) := by
  induction l with
  | nil =>
    intro ys
    simp only [parseEach, Except.ok.injEq, List.all_nil, List.filterMap_nil, true_and]
    exact eq_comm
  | cons x rest ih =>
    intro ys
    rw [parseEach]
    cases hx : Spec.int32Literal x with
    | none =>
      obtain ⟨err, he⟩ := parseInteger_error_of_none x hx
      simp [he, hx]
    | some n =>
      have hp := (parseInteger_ok_iff x n).2 hx
      rw [hp]
      simp only [List.all_cons, hx, Option.isSome_some, Bool.true_and,
        List.filterMap_cons]
      cases hr : parseEach parseInteger rest with
      | error e =>
        simp only [reduceCtorEq, false_iff, not_and]
        intro hall
        have := (ih (rest.filterMap Spec.int32Literal)).2 ⟨hall, rfl⟩
        rw [hr] at this
        simp at this
      | ok zs =>
        have hz := (ih zs).1 hr
        simp only [Except.ok.injEq, hz.1, true_and]
        rw [← hz.2]
        exact eq_comm

/-- The switch of `Attribute` on the tag `integer`. -/
theorem wrap_integer (L : Lib) (p : Str) :
    wrap L "integer".toList p =
      match parseInteger p with
      | .error err => .error err
      | .ok intVal => .ok ⟨.Integer, intVal⟩ := by
  simp only [wrap, String.toList, List.cons.injEq, Char.reduceEq, and_false, and_true,
    ↓reduceIte, reduceCtorEq, and_self]

/-- The switch of `Attribute` on the tag `integer[]`. -/
theorem wrap_integer_array (L : Lib) (p : Str) :
    wrap L "integer[]".toList p =
      match parseEach parseInteger (Split p ',') with
      | .error err => .error err
      | .ok ia => .ok ⟨.IntegerArray, ia⟩ := by
  simp only [wrap, String.toList, List.cons.injEq, Char.reduceEq, and_false, and_true,
    ↓reduceIte, reduceCtorEq, and_self]

/-- On an input that passes the four structural checks, `Attribute` succeeds
exactly when the switch gives a message and `anypb.New` wraps it; the result
holds the two entity parts, the attribute name and the wrapped value. -/
theorem Attribute_ok_iff (L : Lib) (input s0 s1 e0 e1 et0 et1 v0 v1 : Str)
    (h1 : Split (TrimSpace input) '|' = [s0, s1])
    (h2 : Split s0 '$' = [e0, e1])
    (h3 : Split e0 ':' = [et0, et1])
    (h4 : Split s1 ':' = [v0, v1]) (a : base.Attribute L.Bytes) :
    Attribute L input = .ok a ↔
      ∃ (m : Message L.Float64) (w : Any L.Bytes), wrap L v0 v1 = .ok m ∧
        anypb.New L m = .ok w ∧ a = ⟨some ⟨et0, et1⟩, e1, some w⟩ := by
  rw [Attribute_structured L input s0 s1 e0 e1 et0 et1 v0 v1 h1 h2 h3 h4]
  cases hw : wrap L v0 v1 with
  | error err => simp
  | ok m =>
    cases hn : anypb.New L m with
    | error err =>
      simp only [hn, reduceCtorEq, false_iff, not_exists, not_and]
      intro m2 w2 hm2 hw2
      simp only [Except.ok.injEq] at hm2
      subst hm2
      rw [hn] at hw2
      simp at hw2
    | ok w =>
      simp only [hn]
      constructor
      · intro h
        simp only [Except.ok.injEq] at h
        exact ⟨m, w, rfl, hn, h.symm⟩
      · rintro ⟨m2, w2, hm2, hw2, ha⟩
        simp only [Except.ok.injEq] at hm2
        subst hm2
        rw [hn] at hw2
        simp only [Except.ok.injEq] at hw2
        subst hw2
        rw [ha]

/-- An input that `Attribute` accepts passes the four structural checks. -/
theorem Attribute_ok_structure (L : Lib) (input : Str) (a : base.Attribute L.Bytes)
    (h : Attribute L input = .ok a) :
    ∃ s0 s1 e0 e1 et0 et1 v0 v1, Split (TrimSpace input) '|' = [s0, s1] ∧
      Split s0 '$' = [e0, e1] ∧ Split e0 ':' = [et0, et1] ∧ Split s1 ':' = [v0, v1] := by
  unfold Attribute at h
  split at h
  · rename_i s0 s1 h1
    split at h
    · rename_i e0 e1 h2
      split at h
      · rename_i et0 et1 h3
        split at h
        · rename_i v0 v1 h4
          exact ⟨s0, s1, e0, e1, et0, et1, v0, v1, h1, h2, h3, h4⟩
        · simp at h
      · simp at h
    · simp at h
  · simp at h

/-- The message the switch of `Attribute` gives has the kind of the tag. -/
theorem wrap_ok_tag (L : Lib) (v0 v1 : Str) (m : Message L.Float64)
    (h : wrap L v0 v1 = .ok m) : v0 = Spec.typeTag m.1 := by
  unfold wrap at h
  split_ifs at h with c1 c2 c3 c4 c5 c6 c7 c8
  · split at h
    · simp at h
    · simp only [Except.ok.injEq] at h
      subst h
      exact c1
  · split at h
    · simp at h
    · simp only [Except.ok.injEq] at h
      subst h
      exact c2
  · simp only [Except.ok.injEq] at h
    subst h
    exact c3
  · split at h
    · simp at h
    · simp only [Except.ok.injEq] at h
      subst h
      exact c4
  · split at h
    · simp at h
    · simp only [Except.ok.injEq] at h
      subst h
      exact c5
  · split at h
    · simp at h
    · simp only [Except.ok.injEq] at h
      subst h
      exact c6
  · split at h
    · simp at h
    · simp only [Except.ok.injEq] at h
      subst h
      exact c7
  · split at h
    · simp at h
    · simp only [Except.ok.injEq] at h
      subst h
      exact c8

/-- With a library whose `proto.Marshal` does not fail, `anypb.New` succeeds. -/
theorem New_of_MarshalTotal (L : Lib) (hmar : L.MarshalTotal) (m : Message L.Float64) :
    ∃ w, anypb.New L m = .ok w := by
  obtain ⟨b, hb⟩ := hmar m.1 m.2
  exact ⟨⟨anypb.urlBase ++ m.1.FullName, b⟩, by simp [anypb.New, hb]⟩

/-- The round trip: the encoding of an attribute with a value made by
`anypb.New` is decoded to the same attribute, when the entity type and id hold
no bar, dollar sign or colon, the attribute name no bar or dollar sign, the
value is readable, and `TrimSpace` leaves the encoding as it is. -/
theorem round_trip_core (L : Lib) (hlaw : L.WireRoundTrip) (et0 et1 name : Str)
    (m : Message L.Float64) (w : Any L.Bytes) (hw : anypb.New L m = .ok w)
    (h0 : Spec.noneOf ['|', '$', ':'] et0) (h1 : Spec.noneOf ['|', '$', ':'] et1)
    (hn : Spec.noneOf ['|', '$'] name) (hv : Spec.readable L m.1 m.2) :
    ∃ enc, ToString L ⟨some ⟨et0, et1⟩, name, some w⟩ = some enc ∧
      (TrimSpace enc = enc → Attribute L enc = .ok ⟨some ⟨et0, et1⟩, name, some w⟩) := by
  refine ⟨_, ToString_New L hlaw et0 et1 name m w hw, ?_⟩
  intro htrim
  rw [payload_eq_render] at htrim ⊢
  have henc : et0 ++ ":".toList ++ et1 ++ "$".toList ++ name ++ "|".toList ++
      Spec.typeTag m.1 ++ ":".toList ++ render L m.1 m.2 =
      (et0 ++ ':' :: (et1 ++ '$' :: name)) ++ '|' :: (Spec.typeTag m.1 ++ ':' :: render L m.1 m.2) := by
    simp [String.toList]
  rw [henc] at htrim ⊢
  have a0 : ∀ c, c ∈ ['|', '$', ':'] → c ∉ et0 := fun c hc => not_mem_of_noneOf h0 c hc
  have a1 : ∀ c, c ∈ ['|', '$', ':'] → c ∉ et1 := fun c hc => not_mem_of_noneOf h1 c hc
  have an : ∀ c, c ∈ ['|', '$'] → c ∉ name := fun c hc => not_mem_of_noneOf hn c hc
  have at_ : ∀ c, c ∈ ['|', ':'] → c ∉ Spec.typeTag m.1 :=
    fun c hc => not_mem_of_noneOf (typeTag_noneOf m.1) c hc
  have ar : ∀ c, c ∈ ['|', ':'] → c ∉ render L m.1 m.2 :=
    fun c hc => not_mem_of_noneOf (render_noneOf L m.1 m.2 hv) c hc
  have b1 : '|' ∉ et0 ++ ':' :: (et1 ++ '$' :: name) := by
    have := a0 '|' (by decide)
    have := a1 '|' (by decide)
    have := an '|' (by decide)
    simp [*]
  have b2 : '|' ∉ Spec.typeTag m.1 ++ ':' :: render L m.1 m.2 := by
    have := at_ '|' (by decide)
    have := ar '|' (by decide)
    simp [*]
  have b3 : '$' ∉ et0 ++ ':' :: et1 := by
    have := a0 '$' (by decide)
    have := a1 '$' (by decide)
    simp [*]
  have s1 : Split (TrimSpace ((et0 ++ ':' :: (et1 ++ '$' :: name)) ++
      '|' :: (Spec.typeTag m.1 ++ ':' :: render L m.1 m.2))) '|' =
      [et0 ++ ':' :: (et1 ++ '$' :: name), Spec.typeTag m.1 ++ ':' :: render L m.1 m.2] := by
    rw [htrim, Split_append _ _ '|' b1, Split_of_not_mem _ '|' b2]
  have s2 : Split (et0 ++ ':' :: (et1 ++ '$' :: name)) '$' = [et0 ++ ':' :: et1, name] := by
    have e : et0 ++ ':' :: (et1 ++ '$' :: name) = (et0 ++ ':' :: et1) ++ '$' :: name := by simp
    rw [e, Split_append _ _ '$' b3, Split_of_not_mem _ '$' (an '$' (by decide))]
  have s3 : Split (et0 ++ ':' :: et1) ':' = [et0, et1] := by
    rw [Split_append _ _ ':' (a0 ':' (by decide)), Split_of_not_mem _ ':' (a1 ':' (by decide))]
  have s4 : Split (Spec.typeTag m.1 ++ ':' :: render L m.1 m.2) ':' =
      [Spec.typeTag m.1, render L m.1 m.2] := by
    rw [Split_append _ _ ':' (at_ ':' (by decide)), Split_of_not_mem _ ':' (ar ':' (by decide))]
  rw [Attribute_structured L _ _ _ _ _ _ _ _ _ s1 s2 s3 s4, wrap_render L m.1 m.2 hv]
  simp only [hw]

/-- The element loop gives as many values as there are elements. -/
theorem parseEach_length {α : Type} (parse : Str → Except Error α) (l : List Str) :
    ∀ ys, parseEach parse l = .ok ys → ys.length = l.length := by
  induction l with
  | nil =>
    intro ys h
    simp only [parseEach, Except.ok.injEq] at h
    subst h
    rfl
  | cons x rest ih =>
    intro ys h
    rw [parseEach] at h
    split at h
    · simp at h
    · split at h
      · simp at h
      · rename_i xs hxs
        simp only [Except.ok.injEq] at h
        subst h
        simp [ih xs hxs]

/-- The element loop of the case `string[]` keeps every element. -/
theorem parseEach_id (l : List Str) :
    parseEach (fun value => (.ok value : Except Error Str)) l = .ok l := by
  induction l with
  | nil => rfl
  | cons x rest ih => simp only [parseEach, ih]

/-- A decimal digit is not white space. -/
theorem digit_not_space (c : Char) (h : 48 ≤ c.toNat ∧ c.toNat ≤ 57) : isSpace c = false := by
  simp only [isSpace, Bool.or_eq_false_iff, decide_eq_false_iff_not, Bool.and_eq_false_iff,
    Bool.decide_and]
  omega

/-- The text of `Itoa` holds no white space. -/
theorem Itoa_noSpace (n : Int) : ∀ c ∈ Itoa n, isSpace c = false := by
  intro c hc
  rcases Itoa_chars n c hc with rfl | hd
  · decide
  · exact digit_not_space c hd

/-- The text of `FormatBool` holds no white space. -/
theorem FormatBool_noSpace (b : Bool) : ∀ c ∈ FormatBool b, isSpace c = false := by
  cases b <;> decide

/-- Texts without white space joined by commas hold no white space. -/
theorem Join_noSpace (l : List Str) (h : ∀ s ∈ l, ∀ c ∈ s, isSpace c = false) :
    ∀ c ∈ Join l ",".toList, isSpace c = false := by
  intro c hc
  rcases mem_Join l _ c hc with h1 | ⟨s, hs, hcs⟩
  · have : c = ',' := by simpa [String.toList] using h1
    subst this
    decide
  · exact h s hs c hcs

/-- The message the switch of `Attribute` gives for a payload without bar and
colon, when it is not a double: the message is readable, and its rendering is
the payload itself or holds no white space. -/
theorem wrap_ok_canonical (L : Lib) (v0 v1 : Str) (m : Message L.Float64)
    (h : wrap L v0 v1 = .ok m) (hp : Spec.noneOf ['|', ':'] v1)
    (hd1 : m.1 ≠ .Double) (hd2 : m.1 ≠ .DoubleArray) :
    Spec.readable L m.1 m.2 ∧
      (render L m.1 m.2 = v1 ∨ ∀ c ∈ render L m.1 m.2, isSpace c = false) := by
  have hpos : 0 < (Split v1 ',').length := List.length_pos.2 (Split_ne_nil v1 ',')
  unfold wrap at h
  split_ifs at h with c1 c2 c3 c4 c5 c6 c7 c8
  · split at h
    · simp at h
    · simp only [Except.ok.injEq] at h
      subst h
      exact ⟨trivial, Or.inr (FormatBool_noSpace _)⟩
  · split at h
    · simp at h
    · rename_i ba hba
      simp only [Except.ok.injEq] at h
      subst h
      refine ⟨?_, Or.inr (Join_noSpace _ ?_)⟩
      · show ba ≠ []
        intro e
        have hl := parseEach_length _ _ _ hba
        rw [e] at hl
        simp only [List.length_nil] at hl
        omega
      · intro s hs c hc
        obtain ⟨b, _, rfl⟩ := List.mem_map.1 hs
        exact FormatBool_noSpace b c hc
  · simp only [Except.ok.injEq] at h
    subst h
    exact ⟨hp, Or.inl rfl⟩
  · split at h
    · simp at h
    · rename_i sa hsa
      rw [parseEach_id] at hsa
      simp only [Except.ok.injEq] at hsa h
      subst hsa
      subst h
      refine ⟨⟨Split_ne_nil v1 ',', ?_⟩, Or.inl ?_⟩
      · intro x hx c hc hbad
        have hm := mem_Split v1 ',' x hx
        simp only [List.mem_cons, List.mem_singleton, List.not_mem_nil, or_false] at hbad
        rcases hbad with rfl | rfl | rfl
        · exact hp _ (hm.2 _ hc) (by simp)
        · exact hp _ (hm.2 _ hc) (by simp)
        · exact hm.1 hc
      · show Join ((Split v1 ',').map (fun v => v)) ",".toList = v1
        rw [List.map_id']
        exact Join_Split v1 ','
  · split at h
    · simp at h
    · simp only [Except.ok.injEq] at h
      subst h
      exact absurd rfl hd1
  · split at h
    · simp at h
    · simp only [Except.ok.injEq] at h
      subst h
      exact absurd rfl hd2
  · split at h
    · simp at h
    · rename_i n hn
      simp only [Except.ok.injEq] at h
      subst h
      exact ⟨int32Literal_range v1 n ((parseInteger_ok_iff v1 n).1 hn),
        Or.inr (Itoa_noSpace n)⟩
  · split at h
    · simp at h
    · rename_i ia hia
      simp only [Except.ok.injEq] at h
      subst h
      refine ⟨⟨?_, ?_⟩, Or.inr (Join_noSpace _ ?_)⟩
      · show ia ≠ []
        intro e
        have hl := parseEach_length _ _ _ hia
        rw [e] at hl
        simp only [List.length_nil] at hl
        omega
      · show ∀ n ∈ ia, -2147483648 ≤ n ∧ n ≤ 2147483647
        intro n hn
        obtain ⟨_, hys⟩ := (parseEach_parseInteger _ ia).1 hia
        rw [hys] at hn
        obtain ⟨x, _, hx⟩ := List.mem_filterMap.1 hn
        exact int32Literal_range x n hx
      · intro s hs c hc
        obtain ⟨n, _, rfl⟩ := List.mem_map.1 hs
        exact Itoa_noSpace n c hc

/-- Dropping up to the first occurrence of a character. -/
theorem dropWhile_ne_append (a b : Str) (c : Char) (h : c ∉ a) :
    (a ++ c :: b).dropWhile (fun x => x != c) = c :: b := by
  induction a with
  | nil => simp
  | cons x t ih =>
    have hx : x ≠ c := fun e => h (by simp [e])
    have ht : c ∉ t := fun e => h (by simp [e])
    simp [List.dropWhile_cons, hx, ih ht]

/-- Taking up to the first occurrence of a character. -/
theorem takeWhile_ne_append (a b : Str) (c : Char) (h : c ∉ a) :
    (a ++ c :: b).takeWhile (fun x => x != c) = a := by
  induction a with
  | nil => simp
  | cons x t ih =>
    have hx : x ≠ c := fun e => h (by simp [e])
    have ht : c ∉ t := fun e => h (by simp [e])
    simp [List.takeWhile_cons, hx, ih ht]

/-- The tag written in an input that passes the structural checks is the text
the switch of `Attribute` reads. -/
theorem inputTag_eq (input s0 s1 v0 v1 : Str)
    (h1 : Split (TrimSpace input) '|' = [s0, s1]) (h4 : Split s1 ':' = [v0, v1]) :
    Spec.inputTag input = v0 := by
  obtain ⟨e1, n1, _⟩ := Split_pair _ _ _ _ h1
  obtain ⟨e4, n4, _⟩ := Split_pair _ _ _ _ h4
  unfold Spec.inputTag
  rw [e1, dropWhile_ne_append s0 s1 '|' n1, List.drop_one, List.tail_cons, e4,
    takeWhile_ne_append v0 v1 ':' n4]

/-- The encoding built from the parts of a trimmed input, with a tag and a
rendering that is the payload of the input or holds no white space, is left as
it is by `TrimSpace`. -/
theorem TrimSpace_canonical (input et0 rest0 v1 pre tag r : Str)
    (hin : TrimSpace input = et0 ++ ':' :: rest0)
    (hlast : TrimSpace input = pre ++ ':' :: v1)
    (hr : r = v1 ∨ ∀ c ∈ r, isSpace c = false) (mid : Str) :
    TrimSpace (et0 ++ ':' :: (mid ++ (tag ++ ':' :: r))) =
      et0 ++ ':' :: (mid ++ (tag ++ ':' :: r)) := by
  apply TrimSpace_of_edges
  · intro c hc
    cases et0 with
    | nil =>
      simp only [List.nil_append, List.head?_cons, Option.some.injEq] at hc
      subst hc
      decide
    | cons a t =>
      simp only [List.cons_append, List.head?_cons, Option.some.injEq] at hc
      subst hc
      apply TrimSpace_head input
      rw [hin]
      rfl
  · intro c hc
    have e : et0 ++ ':' :: (mid ++ (tag ++ ':' :: r)) =
        (et0 ++ ':' :: (mid ++ tag)) ++ [':'] ++ r := by simp
    rw [e] at hc
    by_cases hnil : r = []
    · subst hnil
      rw [List.append_nil, List.getLast?_concat] at hc
      simp only [Option.some.injEq] at hc
      subst hc
      decide
    · rw [List.getLast?_append_of_ne_nil _ hnil] at hc
      rcases hr with rfl | hr
      · apply TrimSpace_last input
        rw [hlast]
        have e2 : pre ++ ':' :: r = (pre ++ [':']) ++ r := by simp
        rw [e2, List.getLast?_append_of_ne_nil _ hnil]
        exact hc
      · exact hr c (List.mem_of_mem_getLast? hc)

/-- A string that holds none of the characters of a list. -/
theorem noneOf_of (bad : List Char) (s : Str) (h : ∀ c ∈ bad, c ∉ s) : Spec.noneOf bad s :=
  fun c hc hb => h c hb hc

/-- The parts of an input that passes the structural checks: the entity type
and id hold no bar, dollar sign or colon, the name no bar or dollar sign, the
payload no bar or colon, and the trimmed input is the parts with the separators
between them. -/
theorem structure_parts (input s0 s1 e0 e1 et0 et1 v0 v1 : Str)
    (h1 : Split (TrimSpace input) '|' = [s0, s1]) (h2 : Split s0 '$' = [e0, e1])
    (h3 : Split e0 ':' = [et0, et1]) (h4 : Split s1 ':' = [v0, v1]) :
    Spec.noneOf ['|', '$', ':'] et0 ∧ Spec.noneOf ['|', '$', ':'] et1 ∧
      Spec.noneOf ['|', '$'] e1 ∧ Spec.noneOf ['|', ':'] v1 ∧
      TrimSpace input = et0 ++ ':' :: (et1 ++ '$' :: e1 ++ '|' :: (v0 ++ ':' :: v1)) ∧
      TrimSpace input = (s0 ++ '|' :: v0) ++ ':' :: v1 := by
  obtain ⟨p1, n1a, n1b⟩ := Split_pair _ '|' s0 s1 h1
  obtain ⟨p2, n2a, n2b⟩ := Split_pair s0 '$' e0 e1 h2
  obtain ⟨p3, n3a, n3b⟩ := Split_pair e0 ':' et0 et1 h3
  obtain ⟨p4, n4a, n4b⟩ := Split_pair s1 ':' v0 v1 h4
  have q1 : TrimSpace input = et0 ++ ':' :: (et1 ++ '$' :: e1 ++ '|' :: (v0 ++ ':' :: v1)) := by
    rw [p1, p2, p3, p4]
    simp
  have q2 : TrimSpace input = (s0 ++ '|' :: v0) ++ ':' :: v1 := by
    rw [p1, p4]
    simp
  rw [p2, p3] at n1a
  rw [p3] at n2a
  rw [p4] at n1b
  simp only [List.mem_append, List.mem_cons, not_or] at n1a n2a n1b
  refine ⟨noneOf_of _ _ ?_, noneOf_of _ _ ?_, noneOf_of _ _ ?_, noneOf_of _ _ ?_, q1, q2⟩
  · intro c hc
    simp only [List.mem_cons, List.mem_singleton, List.not_mem_nil, or_false] at hc
    rcases hc with rfl | rfl | rfl
    · exact n1a.1.1
    · exact n2a.1
    · exact n3a
  · intro c hc
    simp only [List.mem_cons, List.mem_singleton, List.not_mem_nil, or_false] at hc
    rcases hc with rfl | rfl | rfl
    · exact n1a.1.2.2
    · exact n2a.2.2
    · exact n3b
  · intro c hc
    simp only [List.mem_cons, List.mem_singleton, List.not_mem_nil, or_false] at hc
    rcases hc with rfl | rfl
    · exact n1a.2.2
    · exact n2b
  · intro c hc
    simp only [List.mem_cons, List.mem_singleton, List.not_mem_nil, or_false] at hc
    rcases hc with rfl | rfl
    · exact n1b.2.2
    · exact n4b

/-- A value of the round trip under delimiter-freedom is readable. -/
theorem readable_of_plainValue (L : Lib) (k : Kind) (v : k.Val L.Float64)
    (h : Spec.plainValue L k v) : Spec.readable L k v := by
  cases k with
  | Boolean => trivial
  | BooleanArray => exact h
  | String => exact h
  | StringArray =>
    refine ⟨h.1, ?_⟩
    intro x hx c hc hbad
    have h2 := h.2 x hx
    simp only [List.mem_cons, List.mem_singleton, List.not_mem_nil, or_false] at hbad
    rcases hbad with rfl | rfl | rfl
    · exact h2.1 _ hc (by simp)
    · exact h2.1 _ hc (by simp)
    · exact h2.2 _ hc (by simp)
  | Double => exact h.elim
  | DoubleArray => exact h.elim
  | Integer =>
    have aux : ∀ n : Int, (-2 ^ 31 ≤ n ∧ n ≤ 2 ^ 31 - 1) →
        (-2147483648 ≤ n ∧ n ≤ 2147483647) := by
      intro n hn
      omega
    exact aux v h
  | IntegerArray =>
    refine ⟨h.1, ?_⟩
    intro n hn
    have h2 : -2 ^ 31 ≤ n ∧ n ≤ 2 ^ 31 - 1 := h.2 n hn
    omega

/-- A string with clean edges is left as it is by `TrimSpace`. -/
theorem TrimSpace_of_cleanEdges (x : Str) (h : Spec.cleanEdges x = true) : TrimSpace x = x := by
  simp only [Spec.cleanEdges, Bool.and_eq_true] at h
  apply TrimSpace_of_edges
  · intro c hc
    have h1 := h.1
    rw [hc] at h1
    simpa using h1
  · intro c hc
    have h2 := h.2
    rw [hc] at h2
    simpa using h2

end Attr

/-! ## Lemmas on the schema reader -/

namespace memory

open base storage database

/-- The lookup in the index `id` finds nothing exactly when no row has the key. -/
theorem First_eq_none (t : memdb.Table) (tenantID name version : Str) :
    memdb.First t tenantID name version = none ↔
      ∀ row ∈ t, ¬ (row.TenantID = tenantID ∧ row.Name = name ∧ row.Version = version) := by
  unfold memdb.First
  rw [List.find?_eq_none]
  constructor
  · intro h row hrow hk
    exact h row hrow (by simp [hk.1, hk.2.1, hk.2.2])
  · intro h row hrow hk
    simp only [Bool.and_eq_true, decide_eq_true_eq] at hk
    exact h row hrow ⟨hk.1.1, hk.1.2, hk.2⟩

/-- A row that the filter refuses leaves the filtered list as it is, wherever it
is inserted. -/
theorem filter_orderedInsert_of_not {α : Type} (rel : α → α → Prop) [DecidableRel rel]
    (p : α → Bool) (a : α) (ha : p a = false) (l : List α) :
    (l.orderedInsert rel a).filter p = l.filter p := by
  induction l with
  | nil => simp [ha]
  | cons b l ih =>
    by_cases h : rel a b
    · simp [List.orderedInsert, h, List.filter_cons, ha]
    · simp only [List.orderedInsert, h, ↓reduceIte, List.filter_cons, ih]

/-- The rows `txn.Get` returns do not change when a row with another index key is
added to the table. -/
theorem Get_cons_of_not (t : memdb.Table) (tenantID version : Str) (row : SchemaDefinition)
    (h : ¬ (row.TenantID = tenantID ∧ row.Version = version)) :
    memdb.Get (row :: t) tenantID version = memdb.Get t tenantID version := by
  unfold memdb.Get memdb.versionIndex
  simp only [List.insertionSort]
  apply filter_orderedInsert_of_not
  simp only [Bool.and_eq_false_imp, decide_eq_true_eq, decide_eq_false_iff_not]
  intro h1 h2
  exact h ⟨h1, h2⟩

/-- The result of `ReadSchema` is the answer of the compiler to the texts of the
rows `txn.Get` returns. -/
theorem ReadSchema_eq (X : Ext) (r : Store) (tenantID version : Str) :
    (ReadSchema X r tenantID version).1 =
      match X.NewSchemaFromStringDefinitions false
        ((memdb.Get r.DB tenantID version).map (fun row => row.Serialized)) with
      | .error err => (none, some err)
      | .ok sch => (some sch, none) := by
  unfold ReadSchema
  simp only
  split <;> rfl

/-- The distinct elements are pairwise different, are elements of the list, and
are not among those left out. -/
theorem distinctFrom_spec (l : List Str) : ∀ seen : List Str,
    (Spec.distinctFrom seen l).Nodup ∧
      ∀ v ∈ Spec.distinctFrom seen l, v ∉ seen ∧ v ∈ l := by
  induction l with
  | nil => intro seen; simp [Spec.distinctFrom]
  | cons a l ih =>
    intro seen
    by_cases ha : a ∈ seen
    · simp only [Spec.distinctFrom, ha, ↓reduceIte]
      refine ⟨(ih seen).1, fun v hv => ⟨((ih seen).2 v hv).1, ?_⟩⟩
      exact List.mem_cons_of_mem _ ((ih seen).2 v hv).2
    · simp only [Spec.distinctFrom, ha, ↓reduceIte]
      have h1 := (ih (a :: seen)).1
      have h2 := (ih (a :: seen)).2
      refine ⟨?_, ?_⟩
      · rw [List.nodup_cons]
        refine ⟨fun hmem => ?_, h1⟩
        exact (h2 a hmem).1 (by simp)
      · intro v hv
        rw [List.mem_cons] at hv
        rcases hv with rfl | hv
        · exact ⟨ha, by simp⟩
        · refine ⟨fun hs => (h2 v hv).1 (List.mem_cons_of_mem _ hs), ?_⟩
          exact List.mem_cons_of_mem _ (h2 v hv).2

/-- Every element of the list that is not left out is among the distinct ones. -/
theorem mem_distinctFrom (l : List Str) : ∀ (seen : List Str) (v : Str),
    v ∈ l → v ∉ seen → v ∈ Spec.distinctFrom seen l := by
  induction l with
  | nil => intro seen v h; simp at h
  | cons a l ih =>
    intro seen v hv hs
    by_cases ha : a ∈ seen
    · simp only [Spec.distinctFrom, ha, ↓reduceIte]
      rw [List.mem_cons] at hv
      rcases hv with rfl | hv
      · exact absurd ha hs
      · exact ih seen v hv hs
    · simp only [Spec.distinctFrom, ha, ↓reduceIte]
      by_cases e : v = a
      · simp [e]
      · rw [List.mem_cons] at hv
        rcases hv with rfl | hv
        · exact absurd rfl e
        · exact List.mem_cons_of_mem _ (ih (a :: seen) v hv (by simp [e, hs]))

/-- The loop of `ListSchemas`, started with the entries of the versions `vs` and
the set `uniq`, on rows with valid versions: with `full` the versions `vs`
followed by the further distinct versions of the rows, the loop returns all of
`full` and the sentinel when `full` fits in the page, and the first `pageSize`
of `full` and a token when it does not. -/
theorem ListSchemasLoop_spec (X : Ext) (pageSize : Nat) (rest : List SchemaDefinition) :
    ∀ (vs uniq : List Str),
      (∀ row ∈ rest, (X.xidTime row.Version).isSome = true) →
      vs.length ≤ pageSize →
      ((vs ++ Spec.distinctFrom uniq (rest.map (fun row => row.Version))).length ≤ pageSize →
        ListSchemasLoop X pageSize rest (vs.map (Spec.entry X)) uniq =
          ((vs ++ Spec.distinctFrom uniq (rest.map (fun row => row.Version))).map (Spec.entry X),
            some .noop, none)) ∧
      (pageSize < (vs ++ Spec.distinctFrom uniq (rest.map (fun row => row.Version))).length →
        ∃ tok, ListSchemasLoop X pageSize rest (vs.map (Spec.entry X)) uniq =
          (((vs ++ Spec.distinctFrom uniq (rest.map (fun row => row.Version))).take pageSize).map
            (Spec.entry X), some (.token tok), none)) := by
  induction rest with
  | nil =>
    intro vs uniq _ hlen
    simp only [List.map_nil, Spec.distinctFrom, List.append_nil, ListSchemasLoop]
    exact ⟨fun _ => trivial, fun h => absurd hlen (by omega)⟩
  | cons s rest ih =>
    intro vs uniq hvalid hlen
    have hs : (X.xidTime s.Version).isSome = true := hvalid s (by simp)
    obtain ⟨createdAt, hc⟩ := Option.isSome_iff_exists.1 hs
    have hrest : ∀ row ∈ rest, (X.xidTime row.Version).isSome = true :=
      fun row hrow => hvalid row (by simp [hrow])
    have hentry : (⟨s.Version, createdAt⟩ : SchemaList) = Spec.entry X s.Version := by
      simp [Spec.entry, hc]
    by_cases hm : s.Version ∈ uniq
    · have hloop : ListSchemasLoop X pageSize (s :: rest) (vs.map (Spec.entry X)) uniq =
          ListSchemasLoop X pageSize rest (vs.map (Spec.entry X)) uniq := by
        rw [ListSchemasLoop]
        simp only [hc, hm, decide_True, ↓reduceIte, List.length_map]
        rw [if_neg (by omega)]
      simp only [List.map_cons, Spec.distinctFrom, hm, ↓reduceIte, hloop]
      exact ih vs uniq hrest hlen
    · by_cases hfull : vs.length + 1 > pageSize
      · have hloop : ListSchemasLoop X pageSize (s :: rest) (vs.map (Spec.entry X)) uniq =
            (vs.map (Spec.entry X),
              some (.token (X.EncodeToken (s.Name ++ "|".toList ++ s.Version))), none) := by
          rw [ListSchemasLoop]
          simp only [hc, hm, decide_False, Bool.false_eq_true, ↓reduceIte, List.length_append,
            List.length_map, List.length_singleton]
          rw [if_pos hfull]
          have e : pageSize = (vs.map (Spec.entry X)).length := by
            rw [List.length_map]; omega
          rw [e, List.take_left]
        simp only [List.map_cons, Spec.distinctFrom, hm, ↓reduceIte, hloop]
        refine ⟨fun h => ?_,
          fun _ => ⟨X.EncodeToken (s.Name ++ "|".toList ++ s.Version), ?_⟩⟩
        · simp only [List.length_append, List.length_cons] at h
          omega
        · have e : pageSize = vs.length := by omega
          rw [e, List.take_left]
      · have hloop : ListSchemasLoop X pageSize (s :: rest) (vs.map (Spec.entry X)) uniq =
            ListSchemasLoop X pageSize rest ((vs ++ [s.Version]).map (Spec.entry X))
              (s.Version :: uniq) := by
          rw [ListSchemasLoop]
          simp only [hc, hm, decide_False, Bool.false_eq_true, ↓reduceIte, List.length_append,
            List.length_map, List.length_singleton]
          rw [if_neg hfull, hentry]
          simp
        have hfull2 : (vs ++ [s.Version]).length ≤ pageSize := by
          simp only [List.length_append, List.length_singleton]; omega
        have e : vs ++ s.Version :: Spec.distinctFrom (s.Version :: uniq)
              (rest.map (fun row => row.Version)) =
            (vs ++ [s.Version]) ++ Spec.distinctFrom (s.Version :: uniq)
              (rest.map (fun row => row.Version)) := by simp
        simp only [List.map_cons, Spec.distinctFrom, hm, ↓reduceIte, hloop]
        rw [e]
        exact ih (vs ++ [s.Version]) (s.Version :: uniq) hrest hfull2

/-- The result of `ListSchemas` for a lower bound `lb` that the token stands for. -/
theorem ListSchemas_eq (X : Ext) (r : Store) (tenantID : Str) (p : Pagination) (lb : Str)
    (hlb : (p.token = [] ∧ lb = []) ∨ (p.token ≠ [] ∧ X.DecodeToken p.token = .ok lb)) :
    (ListSchemas X r tenantID p).1 =
      ListSchemasLoop X p.pageSize (memdb.LowerBound r.DB tenantID lb) [] [] := by
  unfold ListSchemas
  rcases hlb with ⟨h1, h2⟩ | ⟨h1, h2⟩
  · simp [Pagination.Token, Pagination.PageSize, h1, h2]
  · simp [Pagination.Token, Pagination.PageSize, h1, h2]

/-- A call that returns the token it was given makes the listing go round for
ever: no number of calls reaches the sentinel. -/
theorem listAll_cycle (X : Ext) (r : Store) (tenantID : Str) (pageSize : Nat) (token : Str)
    (page : List SchemaList)
    (h : (ListSchemas X r tenantID ⟨pageSize, token⟩).1 = (page, some (.token token), none)) :
    ∀ fuel, Spec.listAll X r tenantID pageSize fuel token = none := by
  intro fuel
  induction fuel with
  | zero => rfl
  | succ n ih =>
    rw [Spec.listAll, h]
    simp only [ih]

/-- One call of the listing that returns a token, followed by the rest. -/
theorem listAll_step (X : Ext) (r : Store) (tenantID : Str) (pageSize fuel : Nat)
    (token next : Str) (page : List SchemaList)
    (h : (ListSchemas X r tenantID ⟨pageSize, token⟩).1 = (page, some (.token next), none)) :
    Spec.listAll X r tenantID pageSize (fuel + 1) token =
      match Spec.listAll X r tenantID pageSize fuel next with
      | some pages => some (page ++ pages)
      | none => none := by
  rw [Spec.listAll, h]

end memory

/-! ## The claims -/

namespace Attr

open base strings strconv

/-- C1, as stated, fails on the code.  With the wire format of `testLib`: a string
value with a colon is encoded to a text that `Attribute` refuses; an empty
array is encoded to a text that is decoded to the array of one empty string, not
to the empty array; an entity type with a leading space is decoded without the
space. -/
theorem round_trip_counterexample :
    (ToString testLib ⟨some ⟨"doc".toList, "1".toList⟩, "title".toList,
        some ⟨"type.googleapis.com/base.v1.String".toList, ⟨.String, "a:b".toList⟩⟩⟩ =
        some "doc:1$title|string:a:b".toList ∧
      Attribute testLib "doc:1$title|string:a:b".toList = .error .ErrInvalidAttribute) ∧
    (ToString testLib ⟨some ⟨"doc".toList, "1".toList⟩, "tags".toList,
        some ⟨"type.googleapis.com/base.v1.StringArray".toList, ⟨.StringArray, []⟩⟩⟩ =
        some "doc:1$tags|string[]:".toList ∧
      Attribute testLib "doc:1$tags|string[]:".toList =
        .ok ⟨some ⟨"doc".toList, "1".toList⟩, "tags".toList,
          some ⟨"type.googleapis.com/base.v1.StringArray".toList, ⟨.StringArray, [[]]⟩⟩⟩ ∧
      Attribute testLib "doc:1$tags|string[]:".toList ≠
        .ok ⟨some ⟨"doc".toList, "1".toList⟩, "tags".toList,
          some ⟨"type.googleapis.com/base.v1.StringArray".toList, ⟨.StringArray, []⟩⟩⟩) ∧
    (ToString testLib ⟨some ⟨" doc".toList, "1".toList⟩, "n".toList,
        some ⟨"type.googleapis.com/base.v1.Integer".toList, ⟨.Integer, 1⟩⟩⟩ =
        some " doc:1$n|integer:1".toList ∧
      Attribute testLib " doc:1$n|integer:1".toList =
        .ok ⟨some ⟨"doc".toList, "1".toList⟩, "n".toList,
          some ⟨"type.googleapis.com/base.v1.Integer".toList, ⟨.Integer, 1⟩⟩⟩ ∧
      Attribute testLib " doc:1$n|integer:1".toList ≠
        .ok ⟨some ⟨" doc".toList, "1".toList⟩, "n".toList,
          some ⟨"type.googleapis.com/base.v1.Integer".toList, ⟨.Integer, 1⟩⟩⟩) := by
  have h2 : Attribute testLib "doc:1$tags|string[]:".toList =
      .ok ⟨some ⟨"doc".toList, "1".toList⟩, "tags".toList,
        some ⟨"type.googleapis.com/base.v1.StringArray".toList, ⟨.StringArray, [[]]⟩⟩⟩ := by
    rfl
  have h3 : Attribute testLib " doc:1$n|integer:1".toList =
      .ok ⟨some ⟨"doc".toList, "1".toList⟩, "n".toList,
        some ⟨"type.googleapis.com/base.v1.Integer".toList, ⟨.Integer, 1⟩⟩⟩ := by
    rfl
  refine ⟨⟨by rfl, by rfl⟩, ⟨by rfl, h2, ?_⟩, ⟨by rfl, h3, ?_⟩⟩
  · rw [h2]
    simp only [ne_eq, Except.ok.injEq, Attribute.mk.injEq, Option.some.injEq, Any.mk.injEq,
      true_and]
    intro e
    injection e with _ e2
    simp at e2
  · rw [h3]
    simp

/-- C1 (round-trip law), amended.  For every attribute whose value was made by
`anypb.New` from a message of the closed type set, with an entity type and id
that hold no bar, dollar sign or colon, an attribute name that holds no bar or
dollar sign, and a readable value (strings without bar and colon, and without
comma inside an array; arrays not empty; integers in 32 bits; doubles whose
`FormatFloat` text is free of these separators and parsed back by
`ParseFloat`), such that the encoding neither begins nor ends with white
space: `ToString` returns an encoding and `Attribute` of it succeeds and gives
the attribute back. -/
theorem round_trip_readable (L : Lib) (hlaw : L.WireRoundTrip) (et0 et1 name : Str)
    (m : Message L.Float64) (w : Any L.Bytes) (hw : anypb.New L m = .ok w)
    (h0 : Spec.noneOf ['|', '$', ':'] et0) (h1 : Spec.noneOf ['|', '$', ':'] et1)
    (hn : Spec.noneOf ['|', '$'] name) (hv : Spec.readable L m.1 m.2)
    (htrim : ∀ enc, ToString L ⟨some ⟨et0, et1⟩, name, some w⟩ = some enc →
      TrimSpace enc = enc) :
    ∃ enc, ToString L ⟨some ⟨et0, et1⟩, name, some w⟩ = some enc ∧
      Attribute L enc = .ok ⟨some ⟨et0, et1⟩, name, some w⟩ := by
  obtain ⟨enc, he, hd⟩ := round_trip_core L hlaw et0 et1 name m w hw h0 h1 hn hv
  exact ⟨enc, he, hd (htrim enc he)⟩

/-- Witness of C1, amended: an array of three integers, with a colon in the
attribute name. -/
theorem round_trip_readable_witness :
    ∃ enc, ToString testLib ⟨some ⟨"doc".toList, "1".toList⟩, "a:b".toList,
        some ⟨"type.googleapis.com/base.v1.IntegerArray".toList,
          ⟨.IntegerArray, [-5, 0, 2147483647]⟩⟩⟩ = some enc ∧
      Attribute testLib enc = .ok ⟨some ⟨"doc".toList, "1".toList⟩, "a:b".toList,
        some ⟨"type.googleapis.com/base.v1.IntegerArray".toList,
          ⟨.IntegerArray, [-5, 0, 2147483647]⟩⟩⟩ :=
  round_trip_readable testLib testLib_WireRoundTrip "doc".toList "1".toList "a:b".toList
    ⟨.IntegerArray, [-5, 0, 2147483647]⟩ _ rfl
    (by unfold Spec.noneOf; decide) (by unfold Spec.noneOf; decide)
    (by unfold Spec.noneOf; decide)
    (by
      show ([-5, 0, 2147483647] : List Int) ≠ [] ∧
        ∀ n ∈ ([-5, 0, 2147483647] : List Int), -2147483648 ≤ n ∧ n ≤ 2147483647
      refine ⟨by simp, ?_⟩
      intro n hn
      have hn2 : n = -5 ∨ n = 0 ∨ n = 2147483647 := by simpa using hn
      rcases hn2 with rfl | rfl | rfl <;> omega)
    (by
      intro enc he
      have e : ToString testLib ⟨some ⟨"doc".toList, "1".toList⟩, "a:b".toList,
          some ⟨"type.googleapis.com/base.v1.IntegerArray".toList,
            ⟨.IntegerArray, [-5, 0, 2147483647]⟩⟩⟩ =
          some "doc:1$a:b|integer[]:-5,0,2147483647".toList := by rfl
      rw [e] at he
      simp only [Option.some.injEq] at he
      subst he
      decide)

/-- C3 (malformed attribute segment).  If the trimmed input is not split into
exactly two parts by the bar, or if it is, the part before the bar is split in
two by the dollar sign and the entity text in two by the colon, but the part
after the bar is not split into exactly two parts by the colon, then `Attribute`
returns the error `ErrInvalidAttribute` and no attribute. -/
theorem malformed_attribute_segment (L : Lib) (input : Str)
    (h : (Split (TrimSpace input) '|').length ≠ 2 ∨
      ∃ s0 s1 e0 e1 et0 et1, Split (TrimSpace input) '|' = [s0, s1] ∧
        Split s0 '$' = [e0, e1] ∧ Split e0 ':' = [et0, et1] ∧ (Split s1 ':').length ≠ 2) :
    Attribute L input = .error .ErrInvalidAttribute := by
  rcases h with h | ⟨s0, s1, e0, e1, et0, et1, h1, h2, h3, h4⟩
  · exact Attribute_bar L input h
  · exact Attribute_value_colon L input s0 s1 e0 e1 et0 et1 h1 h2 h3 h4

/-- Witness of C3 at the input of the specification, with three value-side parts. -/
theorem malformed_attribute_segment_witness :
    Attribute testLib "doc:1$is_public|boolean:true:true".toList = .error .ErrInvalidAttribute :=
  malformed_attribute_segment testLib "doc:1$is_public|boolean:true:true".toList
    (Or.inr ⟨"doc:1$is_public".toList, "boolean:true:true".toList, "doc:1".toList,
      "is_public".toList, "doc".toList, "1".toList, by decide, by decide, by decide, by decide⟩)

/-- C4 (malformed entity segment, type/id delimiter): the code at an input with
one bar, one dollar sign before it, and an entity text `doc` without a colon.
The claim asks for `ErrInvalidEntity`; the code returns `ErrInvalidAttribute`. -/
theorem entity_without_colon_gives_ErrInvalidAttribute :
    (strings.TrimSpace "doc$is_public|boolean:true".toList).count '|' = 1 ∧
    "doc$is_public".toList.count '$' = 1 ∧
    Split "doc".toList ':' = ["doc".toList] ∧
    Attribute testLib "doc$is_public|boolean:true".toList = .error .ErrInvalidAttribute ∧
    Attribute testLib "doc$is_public|boolean:true".toList ≠ .error .ErrInvalidEntity := by
  refine ⟨by decide, by decide, by decide, by rfl, ?_⟩
  have h : Attribute testLib "doc$is_public|boolean:true".toList = .error .ErrInvalidAttribute := by
    rfl
  rw [h]
  simp

/-- C5 (malformed entity segment, entity/attribute-name delimiter).  If the
trimmed input is split in two by the bar (it has exactly one bar) and the part
before the bar is not split into exactly two parts by the dollar sign, then
`Attribute` returns `ErrInvalidEntity`, whatever the part `s1` after the bar is. -/
theorem malformed_entity_segment_dollar (L : Lib) (input s0 s1 : Str)
    (h1 : Split (TrimSpace input) '|' = [s0, s1])
    (h2 : (Split s0 '$').length ≠ 2) :
    Attribute L input = .error .ErrInvalidEntity :=
  Attribute_dollar L input s0 s1 h1 h2

/-- Witness of C5: no dollar sign before the bar, and a value part that is itself
malformed. -/
theorem malformed_entity_segment_dollar_witness :
    Attribute testLib "doc:1|boolean:true:true".toList = .error .ErrInvalidEntity :=
  malformed_entity_segment_dollar testLib "doc:1|boolean:true:true".toList
    "doc:1".toList "boolean:true:true".toList (by decide) (by decide)

/-- C6 (closed type set on decode).  On an input that passes the four structural
checks, `Attribute` returns `ErrInvalidValue` exactly when the type tag `v0` is
not one of the eight tags, and it succeeds only with one of the eight tags. -/
theorem closed_type_set (L : Lib) (input s0 s1 e0 e1 et0 et1 v0 v1 : Str)
    (h1 : Split (TrimSpace input) '|' = [s0, s1])
    (h2 : Split s0 '$' = [e0, e1])
    (h3 : Split e0 ':' = [et0, et1])
    (h4 : Split s1 ':' = [v0, v1]) :
    (Attribute L input = .error .ErrInvalidValue ↔ v0 ∉ Spec.typeTags) ∧
    (∀ a, Attribute L input = .ok a → v0 ∈ Spec.typeTags) := by
  rw [Attribute_structured L input s0 s1 e0 e1 et0 et1 v0 v1 h1 h2 h3 h4]
  by_cases hm : v0 ∈ Spec.typeTags
  · constructor
    · constructor
      · intro h
        exfalso
        cases hw : wrap L v0 v1 with
        | error err =>
          rw [hw] at h
          simp only [Except.error.injEq] at h
          obtain ⟨pre, ne, hne⟩ := wrap_known_error L v0 v1 hm err hw
          rw [h] at hne
          simp at hne
        | ok m =>
          rw [hw] at h
          simp only at h
          cases hn : anypb.New L m with
          | error err =>
            rw [hn] at h
            simp only [Except.error.injEq] at h
            have := New_error L m err hn
            rw [h] at this
            simp at this
          | ok v =>
            rw [hn] at h
            simp at h
      · intro h
        exact absurd hm h
    · intro a _
      exact hm
  · rw [wrap_unknown L v0 v1 hm]
    simp [hm]

/-- Witness of C6: the tag `float` is not one of the eight. -/
theorem closed_type_set_witness :
    Attribute testLib "doc:1$rate|float:1".toList = .error .ErrInvalidValue :=
  ((closed_type_set testLib "doc:1$rate|float:1".toList "doc:1$rate".toList "float:1".toList
    "doc:1".toList "rate".toList "doc".toList "1".toList "float".toList "1".toList
    (by decide) (by decide) (by decide) (by decide)).1).2 (by decide)

/-- C7 (per-element parse failure).  On an input that passes the four structural
checks, let the tag be the scalar tag of a parsed type `t` (boolean, integer,
double) with `bad` the payload, or its array tag with `bad` the first
comma-separated element of the payload that does not parse as `t` (the elements
`good` before it all parse).  Then `Attribute` returns no attribute: it fails
with the error of `fmt.Errorf` whose text starts with "failed to parse" and the
name of the target type, and goes on with the `NumError` of the `strconv`
function for the text `bad`.  That error is none of `ErrInvalidAttribute`,
`ErrInvalidEntity`, `ErrInvalidValue`, and its message contains the quoted `bad`. -/
theorem element_parse_failure (L : Lib) (input s0 s1 e0 e1 et0 et1 v0 v1 : Str)
    (t : Spec.Target) (good rest : List Str) (bad : Str)
    (h1 : Split (TrimSpace input) '|' = [s0, s1])
    (h2 : Split s0 '$' = [e0, e1])
    (h3 : Split e0 ':' = [et0, et1])
    (h4 : Split s1 ':' = [v0, v1])
    (hshape : (v0 = t.tag ∧ bad = v1) ∨ (v0 = t.arrayTag ∧ Split v1 ',' = good ++ bad :: rest))
    (hgood : ∀ x ∈ good, t.parses L x = true)
    (hbad : t.parses L bad = false) :
    ∃ (k : ErrKind) (err : Error),
      Attribute L input = .error err ∧
      err = .Errorf ("failed to parse ".toList ++ t.typeName ++ ": ".toList) ⟨t.func, bad, k⟩ ∧
      err ≠ .ErrInvalidAttribute ∧ err ≠ .ErrInvalidEntity ∧ err ≠ .ErrInvalidValue ∧
      err.Error L.Quote = some ("failed to parse ".toList ++ t.typeName ++ ": ".toList ++
        ("strconv.".toList ++ t.func ++ ": parsing ".toList ++ L.Quote bad ++ ": ".toList ++
          k.Error)) := by
  obtain ⟨k, hk⟩ := wrap_first_bad L v0 v1 t good rest bad hshape hgood hbad
  refine ⟨k, _, ?_, rfl, by simp, by simp, by simp, rfl⟩
  rw [Attribute_structured L input s0 s1 e0 e1 et0 et1 v0 v1 h1 h2 h3 h4, hk]

/-- Witness of C7: a non-numeric second entry in an `integer[]` list. -/
theorem element_parse_failure_witness :
    ∃ (k : ErrKind) (err : Error),
      Attribute testLib "doc:1$n|integer[]:1,x,y".toList = .error err ∧
      err = .Errorf ("failed to parse ".toList ++ Spec.Target.integer.typeName ++ ": ".toList)
        ⟨Spec.Target.integer.func, "x".toList, k⟩ ∧
      err ≠ .ErrInvalidAttribute ∧ err ≠ .ErrInvalidEntity ∧ err ≠ .ErrInvalidValue ∧
      err.Error testLib.Quote = some ("failed to parse ".toList ++
        Spec.Target.integer.typeName ++ ": ".toList ++
        ("strconv.".toList ++ Spec.Target.integer.func ++ ": parsing ".toList ++
          testLib.Quote "x".toList ++ ": ".toList ++ k.Error)) :=
  element_parse_failure testLib "doc:1$n|integer[]:1,x,y".toList "doc:1$n".toList
    "integer[]:1,x,y".toList "doc:1".toList "n".toList "doc".toList "1".toList
    "integer[]".toList "1,x,y".toList .integer ["1".toList] ["y".toList] "x".toList
    (by decide) (by decide) (by decide) (by decide) (Or.inr ⟨by decide, by decide⟩)
    (by decide) (by decide)

/-- C8 (`ValidateValue` accepts exactly the matching type).  For each of the
eight declared attribute types `t` and every wrapped value `w` made by
`anypb.New` from a message `m` of the closed type set, `ValidateValue` returns
`nil` exactly when the tag of `t` is the tag of the variant of `m`; otherwise it
returns the error of `UnmarshalTo` (mismatched message type). -/
theorem validate_value_accepts_matching (L : Lib) (hlaw : L.WireRoundTrip)
    (t : AttributeType) (ht : t ∈ Spec.declaredTypes)
    (m : Message L.Float64) (w : Any L.Bytes) (hw : anypb.New L m = .ok w) :
    (ValidateValue L (some w) t = none ↔ TypeToString t = Spec.typeTag m.1) ∧
    (TypeToString t ≠ Spec.typeTag m.1 →
      ValidateValue L (some w) t = some (.Proto .mismatched)) := by
  have hk : ∃ k, target t = some k := by
    simp only [Spec.declaredTypes, List.mem_cons, List.mem_singleton, List.not_mem_nil,
      or_false] at ht
    rcases ht with h | h | h | h | h | h | h | h <;> subst h <;> exact ⟨_, rfl⟩
  obtain ⟨k, hk⟩ := hk
  simp only [ne_eq, tag_eq_iff_target, hk, Option.some.injEq]
  unfold ValidateValue
  rw [hk]
  by_cases e : k = m.1
  · subst e
    simp [UnmarshalTo_same L hlaw m w hw]
  · simp [UnmarshalTo_other L m w hw k e, e]

/-- Witness of C8: an `IntegerArray` value is accepted as `integer[]` and, by the
second part, refused as `integer`. -/
theorem validate_value_accepts_matching_witness :
    (ValidateValue testLib (some ⟨"type.googleapis.com/base.v1.IntegerArray".toList,
        ⟨.IntegerArray, [1, 2]⟩⟩) .ATTRIBUTE_TYPE_INTEGER = none ↔
      TypeToString .ATTRIBUTE_TYPE_INTEGER = Spec.typeTag .IntegerArray) ∧
    (TypeToString .ATTRIBUTE_TYPE_INTEGER ≠ Spec.typeTag .IntegerArray →
      ValidateValue testLib (some ⟨"type.googleapis.com/base.v1.IntegerArray".toList,
        ⟨.IntegerArray, [1, 2]⟩⟩) .ATTRIBUTE_TYPE_INTEGER = some (.Proto .mismatched)) :=
  validate_value_accepts_matching testLib testLib_WireRoundTrip .ATTRIBUTE_TYPE_INTEGER
    (by decide) ⟨.IntegerArray, [1, 2]⟩ _ rfl

/-- C9 (`ValidateValue` rejects unknown declared types).  For every declared
type that is not one of the eight, the zero value included, `ValidateValue`
returns the error made from `ERROR_CODE_INVALID_ARGUMENT`, the same for every
wrapped value (a `nil` one too) and every behaviour of the wire format: the
value is not inspected. -/
theorem validate_value_rejects_unknown (t : AttributeType) (ht : t ∉ Spec.declaredTypes)
    (L : Lib) (any : Option (Any L.Bytes)) :
    ValidateValue L any t = some (.New "ERROR_CODE_INVALID_ARGUMENT".toList) := by
  cases t <;> first | rfl | (exfalso; apply ht; decide)

/-- Witness of C9 at the zero value of the enumeration. -/
theorem validate_value_rejects_unknown_witness :
    ValidateValue testLib (some ⟨"type.googleapis.com/base.v1.Integer".toList, ⟨.Integer, 3⟩⟩)
      .ATTRIBUTE_TYPE_UNSPECIFIED = some (.New "ERROR_CODE_INVALID_ARGUMENT".toList) :=
  validate_value_rejects_unknown .ATTRIBUTE_TYPE_UNSPECIFIED (by decide) testLib _

/-- C10 (diagnostic rendering is total).  For every wrapped value `x`,
`AnyToString` returns a string; the string is `undefined` when the type URL of
`x` is not one of the eight recognised URLs, and also when it is the URL of a
kind `k` but the bytes of `x` do not unmarshal as `k`. -/
theorem any_to_string_total (L : Lib) (x : Any L.Bytes) :
    ∃ str, AnyToString L (some x) = some str ∧
      (x.TypeUrl ∉ Spec.typeUrls → str = "undefined".toList) ∧
      (∀ k : Kind, x.TypeUrl = anypb.urlBase ++ k.FullName → L.Unmarshal k x.Value = none →
        str = "undefined".toList) := by
  by_cases h : x.TypeUrl ∈ Spec.typeUrls
  · obtain ⟨k, hk⟩ := (mem_typeUrls_iff x.TypeUrl).1 h
    refine ⟨_, AnyToString_of_url L x k hk, fun hn => absurd h hn, ?_⟩
    intro k2 hk2 hu
    have e : k2 = k := by
      rw [hk] at hk2
      revert hk2
      cases k <;> cases k2 <;> decide
    subst e
    rw [hu]
    rfl
  · refine ⟨_, AnyToString_unknown L x h, fun _ => rfl, ?_⟩
    intro k hk _
    rfl

/-- C2 (encode format).  For every attribute whose value was made by `anypb.New`
from a message of the closed type set, `ToString` returns the entity type, a
colon, the entity id, a dollar sign, the attribute name, a bar, the type tag of
the variant, a colon and the payload of the specification; the attribute
(doc, 1, is_public, boolean true) encodes to `doc:1$is_public|boolean:true`. -/
theorem encode_format (L : Lib) (hlaw : L.WireRoundTrip) (et0 et1 name : Str)
    (m : Message L.Float64) (w : Any L.Bytes) (hw : anypb.New L m = .ok w) :
    ToString L ⟨some ⟨et0, et1⟩, name, some w⟩ =
      some (et0 ++ ":".toList ++ et1 ++ "$".toList ++ name ++ "|".toList ++
        Spec.typeTag m.1 ++ ":".toList ++ Spec.payload L m.1 m.2) ∧
    (m = ⟨.Boolean, true⟩ →
      ToString L ⟨some ⟨"doc".toList, "1".toList⟩, "is_public".toList, some w⟩ =
        some "doc:1$is_public|boolean:true".toList) := by
  refine ⟨ToString_New L hlaw et0 et1 name m w hw, ?_⟩
  intro hm
  subst hm
  rw [ToString_New L hlaw _ _ _ _ w hw]
  rfl

/-- Witness of C2: an array of two strings. -/
theorem encode_format_witness :
    ToString testLib ⟨some ⟨"doc".toList, "1".toList⟩, "tags".toList,
      some ⟨"type.googleapis.com/base.v1.StringArray".toList,
        ⟨.StringArray, ["a".toList, "b".toList]⟩⟩⟩ =
      some "doc:1$tags|string[]:a,b".toList :=
  (encode_format testLib testLib_WireRoundTrip "doc".toList "1".toList "tags".toList
    ⟨.StringArray, ["a".toList, "b".toList]⟩ _ rfl).1

/-- C21 (integers are 32-bit base-10 on decode).  On an input that passes the
four structural checks, with the payload `p`: under the tag `integer`,
`Attribute` succeeds exactly when `p` is a signed base-10 integer literal whose
value `n` lies between -2^31 and 2^31 - 1 (and `anypb.New` wraps the message),
and the decoded value is the integer `n` itself; with a library whose
`proto.Marshal` does not fail, it succeeds exactly on these literals; a literal
of the value 2^31 or -2^31 - 1 is rejected.  Under the tag `integer[]` the same
holds for the list of the comma-separated elements of `p`. -/
theorem integer_decode_32bit (L : Lib) (input s0 s1 e0 e1 et0 et1 v0 p : Str)
    (h1 : Split (TrimSpace input) '|' = [s0, s1])
    (h2 : Split s0 '$' = [e0, e1])
    (h3 : Split e0 ':' = [et0, et1])
    (h4 : Split s1 ':' = [v0, p]) :
    (v0 = "integer".toList →
      (∀ a, Attribute L input = .ok a ↔
        ∃ n w, Spec.int32Literal p = some n ∧ anypb.New L ⟨.Integer, n⟩ = .ok w ∧
          a = ⟨some ⟨et0, et1⟩, e1, some w⟩) ∧
      (L.MarshalTotal →
        ((∃ a, Attribute L input = .ok a) ↔ ∃ n, Spec.int32Literal p = some n)) ∧
      ((Spec.intLiteral p = some 2147483648 ∨ Spec.intLiteral p = some (-2147483649)) →
        ∀ a, Attribute L input ≠ .ok a)) ∧
    (v0 = "integer[]".toList →
      (∀ a, Attribute L input = .ok a ↔
        ∃ l w, Spec.int32Literals p = some l ∧ anypb.New L ⟨.IntegerArray, l⟩ = .ok w ∧
          a = ⟨some ⟨et0, et1⟩, e1, some w⟩) ∧
      (L.MarshalTotal →
        ((∃ a, Attribute L input = .ok a) ↔ ∃ l, Spec.int32Literals p = some l))) := by
  have key := Attribute_ok_iff L input s0 s1 e0 e1 et0 et1 v0 p h1 h2 h3 h4
  constructor
  · intro htag
    subst htag
    have hscalar : ∀ a, Attribute L input = .ok a ↔
        ∃ n w, Spec.int32Literal p = some n ∧ anypb.New L ⟨.Integer, n⟩ = .ok w ∧
          a = ⟨some ⟨et0, et1⟩, e1, some w⟩ := by
      intro a
      rw [key a, wrap_integer]
      constructor
      · rintro ⟨m, w, hm, hw, ha⟩
        cases hp : parseInteger p with
        | error err => rw [hp] at hm; simp at hm
        | ok n =>
          rw [hp] at hm
          simp only [Except.ok.injEq] at hm
          subst hm
          exact ⟨n, w, (parseInteger_ok_iff p n).1 hp, hw, ha⟩
      · rintro ⟨n, w, hn, hw, ha⟩
        refine ⟨⟨.Integer, n⟩, w, ?_, hw, ha⟩
        rw [(parseInteger_ok_iff p n).2 hn]
    refine ⟨hscalar, ?_, ?_⟩
    · intro hmar
      constructor
      · rintro ⟨a, ha⟩
        obtain ⟨n, _, hn, _, _⟩ := (hscalar a).1 ha
        exact ⟨n, hn⟩
      · rintro ⟨n, hn⟩
        obtain ⟨w, hw⟩ := New_of_MarshalTotal L hmar ⟨.Integer, n⟩
        exact ⟨_, (hscalar _).2 ⟨n, w, hn, hw, rfl⟩⟩
    · intro hbad a ha
      obtain ⟨n, _, hn, _, _⟩ := (hscalar a).1 ha
      unfold Spec.int32Literal at hn
      rcases hbad with hb | hb <;> rw [hb] at hn <;> simp at hn
  · intro htag
    subst htag
    have harray : ∀ a, Attribute L input = .ok a ↔
        ∃ l w, Spec.int32Literals p = some l ∧ anypb.New L ⟨.IntegerArray, l⟩ = .ok w ∧
          a = ⟨some ⟨et0, et1⟩, e1, some w⟩ := by
      intro a
      rw [key a, wrap_integer_array]
      constructor
      · rintro ⟨m, w, hm, hw, ha⟩
        cases hp : parseEach parseInteger (Split p ',') with
        | error err => rw [hp] at hm; simp at hm
        | ok l =>
          rw [hp] at hm
          simp only [Except.ok.injEq] at hm
          subst hm
          have := (parseEach_parseInteger _ l).1 hp
          refine ⟨l, w, ?_, hw, ha⟩
          simp only [Spec.int32Literals, this.1, ↓reduceIte, this.2]
      · rintro ⟨l, w, hl, hw, ha⟩
        refine ⟨⟨.IntegerArray, l⟩, w, ?_, hw, ha⟩
        unfold Spec.int32Literals at hl
        split_ifs at hl with hall
        simp only [Option.some.injEq] at hl
        rw [(parseEach_parseInteger _ l).2 ⟨hall, hl.symm⟩]
    refine ⟨harray, ?_⟩
    intro hmar
    constructor
    · rintro ⟨a, ha⟩
      obtain ⟨l, _, hl, _, _⟩ := (harray a).1 ha
      exact ⟨l, hl⟩
    · rintro ⟨l, hl⟩
      obtain ⟨w, hw⟩ := New_of_MarshalTotal L hmar ⟨.IntegerArray, l⟩
      exact ⟨_, (harray _).2 ⟨l, w, hl, hw, rfl⟩⟩

/-- Witness of C21: the literal of 2^31 is rejected, the literal of -2^31 is
accepted. -/
theorem integer_decode_32bit_witness :
    (∀ a, Attribute testLib "doc:1$n|integer:2147483648".toList ≠ .ok a) ∧
    (∃ a, Attribute testLib "doc:1$n|integer:-2147483648".toList = .ok a) :=
  ⟨((integer_decode_32bit testLib "doc:1$n|integer:2147483648".toList "doc:1$n".toList
      "integer:2147483648".toList "doc:1".toList "n".toList "doc".toList "1".toList
      "integer".toList "2147483648".toList (by decide) (by decide) (by decide)
      (by decide)).1 rfl).2.2 (Or.inl (by decide)),
    (((integer_decode_32bit testLib "doc:1$n|integer:-2147483648".toList "doc:1$n".toList
      "integer:-2147483648".toList "doc:1".toList "n".toList "doc".toList "1".toList
      "integer".toList "-2147483648".toList (by decide) (by decide) (by decide)
      (by decide)).1 rfl).2.1 (fun k v => ⟨⟨k, v⟩, rfl⟩)).2 ⟨-2147483648, by decide⟩⟩

/-- C23 (decoding canonicalises).  For every input that `Attribute` accepts and
whose type tag is neither `double` nor `double[]`, with a protobuf library that
unmarshals what it marshalled: `ToString` of the decoded attribute returns an
encoding, and `Attribute` of that encoding succeeds and gives the same
attribute, whether or not the encoding is the input. -/
theorem decode_canonicalises (L : Lib) (hlaw : L.WireRoundTrip) (input : Str)
    (a : base.Attribute L.Bytes) (h : Attribute L input = .ok a)
    (htag : Spec.inputTag input ≠ "double".toList ∧ Spec.inputTag input ≠ "double[]".toList) :
    ∃ enc, ToString L a = some enc ∧ Attribute L enc = .ok a := by
  obtain ⟨s0, s1, e0, e1, et0, et1, v0, v1, h1, h2, h3, h4⟩ := Attribute_ok_structure L input a h
  obtain ⟨m, w, hwrap, hnew, rfl⟩ :=
    (Attribute_ok_iff L input s0 s1 e0 e1 et0 et1 v0 v1 h1 h2 h3 h4 a).1 h
  have hv0 := inputTag_eq input s0 s1 v0 v1 h1 h4
  have ht := wrap_ok_tag L v0 v1 m hwrap
  have hd1 : m.1 ≠ .Double := by
    intro e
    apply htag.1
    rw [hv0, ht, e]
    rfl
  have hd2 : m.1 ≠ .DoubleArray := by
    intro e
    apply htag.2
    rw [hv0, ht, e]
    rfl
  obtain ⟨g0, g1, gn, gv, q1, q2⟩ := structure_parts input s0 s1 e0 e1 et0 et1 v0 v1 h1 h2 h3 h4
  obtain ⟨hread, hrend⟩ := wrap_ok_canonical L v0 v1 m hwrap gv hd1 hd2
  obtain ⟨enc, he, hdec⟩ := round_trip_core L hlaw et0 et1 e1 m w hnew g0 g1 gn hread
  refine ⟨enc, he, hdec ?_⟩
  rw [ToString_New L hlaw et0 et1 e1 m w hnew, payload_eq_render] at he
  simp only [Option.some.injEq] at he
  have form : enc = et0 ++ ':' :: ((et1 ++ '$' :: e1 ++ ['|']) ++
      (Spec.typeTag m.1 ++ ':' :: render L m.1 m.2)) := by
    rw [← he]
    simp [String.toList]
  rw [form]
  exact TrimSpace_canonical input et0 _ v1 _ (Spec.typeTag m.1) (render L m.1 m.2) q1 q2 hrend _

/-- Witness of C23: an input with white space around it and a plus sign before
the integer; the encoding of the decoded attribute is another string, and it is
decoded to the same attribute. -/
theorem decode_canonicalises_witness :
    (∃ enc, ToString testLib ⟨some ⟨"doc".toList, "1".toList⟩, "n".toList,
        some ⟨"type.googleapis.com/base.v1.Integer".toList, ⟨.Integer, 5⟩⟩⟩ = some enc ∧
      Attribute testLib enc = .ok ⟨some ⟨"doc".toList, "1".toList⟩, "n".toList,
        some ⟨"type.googleapis.com/base.v1.Integer".toList, ⟨.Integer, 5⟩⟩⟩) ∧
    ToString testLib ⟨some ⟨"doc".toList, "1".toList⟩, "n".toList,
        some ⟨"type.googleapis.com/base.v1.Integer".toList, ⟨.Integer, 5⟩⟩⟩ =
      some "doc:1$n|integer:5".toList :=
  ⟨decode_canonicalises testLib testLib_WireRoundTrip " doc:1$n|integer:+5 ".toList
    ⟨some ⟨"doc".toList, "1".toList⟩, "n".toList,
      some ⟨"type.googleapis.com/base.v1.Integer".toList, ⟨.Integer, 5⟩⟩⟩
    (by rfl) (by decide), by rfl⟩

/-- C24 (decode preserves the declared type and the key fields).  For every
input that `Attribute` accepts, however the trimmed input is written as a
type, a colon, an id, a dollar sign, a name, a bar, a tag, a colon and a
payload, the result holds the entity with that type and that id and the
attribute with that name, and `TypeUrlToString` of the type URL of its value
is that tag. -/
theorem decode_preserves_fields (L : Lib) (input : Str) (a : base.Attribute L.Bytes)
    (typ id name tag payload : Str) (h : Attribute L input = .ok a)
    (hs : TrimSpace input = typ ++ ":".toList ++ id ++ "$".toList ++ name ++ "|".toList ++
      tag ++ ":".toList ++ payload) :
    a.Entity = some ⟨typ, id⟩ ∧ Entity.GetType a.Entity = typ ∧ Entity.GetId a.Entity = id ∧
      a.Attribute = name ∧ TypeUrlToString (Any.GetTypeUrl a.Value) = tag := by
  obtain ⟨s0, s1, e0, e1, et0, et1, v0, v1, h1, h2, h3, h4⟩ := Attribute_ok_structure L input a h
  obtain ⟨m, w, hwrap, hnew, rfl⟩ :=
    (Attribute_ok_iff L input s0 s1 e0 e1 et0 et1 v0 v1 h1 h2 h3 h4 a).1 h
  have hs1 : TrimSpace input = (typ ++ ':' :: (id ++ '$' :: name)) ++ '|' :: (tag ++ ':' :: payload) := by
    rw [hs]
    simp [String.toList]
  obtain ⟨x1, y1⟩ := Split_pair_unique _ '|' s0 s1 _ _ h1 hs1
  have hs2 : s0 = (typ ++ ':' :: id) ++ '$' :: name := by
    rw [← x1]
    simp
  obtain ⟨x2, y2⟩ := Split_pair_unique _ '$' e0 e1 _ _ h2 hs2
  obtain ⟨x3, y3⟩ := Split_pair_unique _ ':' et0 et1 _ _ h3 x2.symm
  obtain ⟨x4, y4⟩ := Split_pair_unique _ ':' v0 v1 _ _ h4 y1.symm
  obtain ⟨b, _, rfl⟩ := New_ok L m w hnew
  have ht := wrap_ok_tag L v0 v1 m hwrap
  refine ⟨by rw [x3, y3], by simp [Entity.GetType, x3], by simp [Entity.GetId, y3], y2.symm, ?_⟩
  simp only [Any.GetTypeUrl, TypeUrlToString_url]
  rw [← ht, x4]

/-- Witness of C24: an input with white space around it and a plus sign in the
payload. -/
theorem decode_preserves_fields_witness :
    (some ⟨"doc".toList, "1".toList⟩ : Option Entity) = some ⟨"doc".toList, "1".toList⟩ ∧
      Entity.GetType (some ⟨"doc".toList, "1".toList⟩) = "doc".toList ∧
      Entity.GetId (some ⟨"doc".toList, "1".toList⟩) = "1".toList ∧
      "n".toList = "n".toList ∧
      TypeUrlToString (Any.GetTypeUrl (some (⟨"type.googleapis.com/base.v1.Integer".toList,
        ⟨.Integer, 5⟩⟩ : Any testLib.Bytes))) = "integer".toList :=
  decode_preserves_fields testLib " doc:1$n|integer:+5 ".toList
    ⟨some ⟨"doc".toList, "1".toList⟩, "n".toList,
      some ⟨"type.googleapis.com/base.v1.Integer".toList, ⟨.Integer, 5⟩⟩⟩
    "doc".toList "1".toList "n".toList "integer".toList "+5".toList (by rfl) (by decide)

/-- C22 (round trip under delimiter-freedom).  For every attribute whose value
was made by `anypb.New` from a boolean, a 32-bit integer, a string or an array
of one of these that is not empty, such that the entity type, the entity id and
the attribute name hold no bar, dollar sign or colon, every string payload
holds neither bar nor colon (nor comma, as an element of an array), and the
encoding neither begins nor ends with white space: `ToString` returns an
encoding, and `Attribute` of it succeeds and gives the attribute back. -/
theorem round_trip_delimiter_free (L : Lib) (hlaw : L.WireRoundTrip) (et0 et1 name : Str)
    (m : Message L.Float64) (w : Any L.Bytes) (hw : anypb.New L m = .ok w)
    (h0 : Spec.noneOf ['|', '$', ':'] et0) (h1 : Spec.noneOf ['|', '$', ':'] et1)
    (hn : Spec.noneOf ['|', '$', ':'] name) (hv : Spec.plainValue L m.1 m.2)
    (hedge : ∀ enc, ToString L ⟨some ⟨et0, et1⟩, name, some w⟩ = some enc →
      Spec.cleanEdges enc = true) :
    ∃ enc, ToString L ⟨some ⟨et0, et1⟩, name, some w⟩ = some enc ∧
      Attribute L enc = .ok ⟨some ⟨et0, et1⟩, name, some w⟩ := by
  have hn2 : Spec.noneOf ['|', '$'] name := by
    intro c hc hbad
    apply hn c hc
    simp only [List.mem_cons, List.mem_singleton, List.not_mem_nil, or_false] at hbad ⊢
    rcases hbad with rfl | rfl
    · exact Or.inl rfl
    · exact Or.inr (Or.inl rfl)
  obtain ⟨enc, he, hd⟩ := round_trip_core L hlaw et0 et1 name m w hw h0 h1 hn2
    (readable_of_plainValue L m.1 m.2 hv)
  exact ⟨enc, he, hd (TrimSpace_of_cleanEdges enc (hedge enc he))⟩

/-- Witness of C22: an array of two strings, one of them with a blank inside. -/
theorem round_trip_delimiter_free_witness :
    ∃ enc, ToString testLib ⟨some ⟨"doc".toList, "1".toList⟩, "tags".toList,
        some ⟨"type.googleapis.com/base.v1.StringArray".toList,
          ⟨.StringArray, ["a b".toList, "c$".toList]⟩⟩⟩ = some enc ∧
      Attribute testLib enc = .ok ⟨some ⟨"doc".toList, "1".toList⟩, "tags".toList,
        some ⟨"type.googleapis.com/base.v1.StringArray".toList,
          ⟨.StringArray, ["a b".toList, "c$".toList]⟩⟩⟩ :=
  round_trip_delimiter_free testLib testLib_WireRoundTrip "doc".toList "1".toList "tags".toList
    ⟨.StringArray, ["a b".toList, "c$".toList]⟩ _ rfl
    (by unfold Spec.noneOf; decide) (by unfold Spec.noneOf; decide)
    (by unfold Spec.noneOf; decide)
    (by
      show (["a b".toList, "c$".toList] : List Str) ≠ [] ∧
        ∀ s ∈ (["a b".toList, "c$".toList] : List Str),
          Spec.noneOf ['|', ':'] s ∧ Spec.noneOf [','] s
      refine ⟨by simp, ?_⟩
      intro s hs
      have hs2 : s = "a b".toList ∨ s = "c$".toList := by simpa using hs
      rcases hs2 with rfl | rfl <;> (unfold Spec.noneOf; decide))
    (by
      intro enc he
      have e : ToString testLib ⟨some ⟨"doc".toList, "1".toList⟩, "tags".toList,
          some ⟨"type.googleapis.com/base.v1.StringArray".toList,
            ⟨.StringArray, ["a b".toList, "c$".toList]⟩⟩⟩ =
          some "doc:1$tags|string[]:a b,c$".toList := by rfl
      rw [e] at he
      simp only [Option.some.injEq] at he
      subst he
      decide)

end Attr

namespace memory

open base storage database

/-- C11 (pagination completeness and no duplication): the code on two tables of
one tenant with the versions `v1` and `v2`, and a page size of one.  The token
of the first page holds the text `name|version`, which the next call uses as a
lower bound on the version.  With the entity name `user` that bound lies above
both versions: the second page is empty with the sentinel, and the listing is
`v1` alone.  With the entity name `account` the bound lies below both versions:
the second call returns the first page and the same token again, so no number
of calls reaches the sentinel. -/
theorem pagination_loses_or_repeats_versions :
    (Spec.tenantVersions
        [Example.row "t1".toList "user".toList Example.v1,
          Example.row "t1".toList "user".toList Example.v2] "t1".toList =
        [Example.v1, Example.v2] ∧
      Spec.listAll testExt
        ⟨[Example.row "t1".toList "user".toList Example.v1,
          Example.row "t1".toList "user".toList Example.v2], []⟩ "t1".toList 1 10 [] =
        some [⟨Example.v1, "c000000".toList⟩]) ∧
    ((ListSchemas testExt
        ⟨[Example.row "t1".toList "account".toList Example.v1,
          Example.row "t1".toList "account".toList Example.v2], []⟩
        "t1".toList ⟨1, []⟩).1 =
        ([⟨Example.v1, "c000000".toList⟩],
          some (.token "account|d0000000000000000000".toList), none) ∧
      (ListSchemas testExt
        ⟨[Example.row "t1".toList "account".toList Example.v1,
          Example.row "t1".toList "account".toList Example.v2], []⟩
        "t1".toList ⟨1, "account|d0000000000000000000".toList⟩).1 =
        ([⟨Example.v1, "c000000".toList⟩],
          some (.token "account|d0000000000000000000".toList), none) ∧
      ∀ fuel, Spec.listAll testExt
        ⟨[Example.row "t1".toList "account".toList Example.v1,
          Example.row "t1".toList "account".toList Example.v2], []⟩
        "t1".toList 1 fuel [] = none) := by
  have h1 : (ListSchemas testExt
      ⟨[Example.row "t1".toList "account".toList Example.v1,
        Example.row "t1".toList "account".toList Example.v2], []⟩
      "t1".toList ⟨1, []⟩).1 =
      ([⟨Example.v1, "c000000".toList⟩],
        some (.token "account|d0000000000000000000".toList), none) := by rfl
  have h2 : (ListSchemas testExt
      ⟨[Example.row "t1".toList "account".toList Example.v1,
        Example.row "t1".toList "account".toList Example.v2], []⟩
      "t1".toList ⟨1, "account|d0000000000000000000".toList⟩).1 =
      ([⟨Example.v1, "c000000".toList⟩],
        some (.token "account|d0000000000000000000".toList), none) := by rfl
  refine ⟨⟨by rfl, by rfl⟩, h1, h2, ?_⟩
  intro fuel
  cases fuel with
  | zero => rfl
  | succ n =>
    rw [listAll_step testExt _ _ 1 n [] _ _ h1, listAll_cycle testExt _ _ 1 _ _ h2 n]

/-- C12 (`ReadSchema` on a missing version): the code on an empty table.  The
claim asks for the error `SchemaNotFound` and no schema; `ReadSchema` has no
check of its own and returns what the compiler answers to the empty sequence
of definitions, here a schema and no error. -/
theorem read_schema_missing_version_compiles_nothing :
    memdb.Get [] "t1".toList Example.v1 = [] ∧
    (ReadSchema testExt ⟨[], []⟩ "t1".toList Example.v1).1 =
      (match testExt.NewSchemaFromStringDefinitions false [] with
        | .error err => (none, some err)
        | .ok sch => (some sch, none)) ∧
    (ReadSchema testExt ⟨[], []⟩ "t1".toList Example.v1).1 = (some [], none) ∧
    (ReadSchema testExt ⟨[], []⟩ "t1".toList Example.v1).1.2 ≠
      some (.New "ERROR_CODE_SCHEMA_NOT_FOUND".toList) := by
  refine ⟨by rfl, by rfl, by rfl, ?_⟩
  have h : (ReadSchema testExt ⟨[], []⟩ "t1".toList Example.v1).1 = (some [], none) := by rfl
  rw [h]
  simp

/-- C13 (point lookup exactness).  If no row of the table has the identity key
(tenantID, name, version), then `ReadEntityDefinition` and `ReadRuleDefinition`
return no definition, the empty version and the error `SchemaNotFound`; rows
with the same name under another version or tenant do not matter. -/
theorem point_lookup_exact (X : Ext) (r : Store) (tenantID name version : Str)
    (h : ∀ row ∈ r.DB,
      ¬ (row.TenantID = tenantID ∧ row.Name = name ∧ row.Version = version)) :
    (ReadEntityDefinition X r tenantID name version).1 =
      (none, [], some (.New "ERROR_CODE_SCHEMA_NOT_FOUND".toList)) ∧
    (ReadRuleDefinition X r tenantID name version).1 =
      (none, [], some (.New "ERROR_CODE_SCHEMA_NOT_FOUND".toList)) := by
  have hf := (First_eq_none r.DB tenantID name version).2 h
  unfold ReadEntityDefinition ReadRuleDefinition
  rw [hf]
  exact ⟨rfl, rfl⟩

/-- Witness of C13: the name `user` exists for tenant `t1` under the version `v1`
and for tenant `t2` under `v2`; the key (`t1`, `user`, `v2`) does not exist. -/
theorem point_lookup_exact_witness :
    (ReadEntityDefinition testExt
        ⟨[Example.row "t1".toList "user".toList Example.v1,
          Example.row "t2".toList "user".toList Example.v2], []⟩
        "t1".toList "user".toList Example.v2).1 =
      (none, [], some (.New "ERROR_CODE_SCHEMA_NOT_FOUND".toList)) ∧
    (ReadRuleDefinition testExt
        ⟨[Example.row "t1".toList "user".toList Example.v1,
          Example.row "t2".toList "user".toList Example.v2], []⟩
        "t1".toList "user".toList Example.v2).1 =
      (none, [], some (.New "ERROR_CODE_SCHEMA_NOT_FOUND".toList)) :=
  point_lookup_exact testExt _ "t1".toList "user".toList Example.v2 (by decide)

/-- C14 (`ReadSchema` equals compile-of-scan).  The result of `ReadSchema` is the
answer of the schema compiler to the texts of a list `scan` of rows that is
taken from the index `version` in its order, and holds exactly the rows of the
table whose tenant and version are the requested ones; a row with another
tenant or version, added to the table, does not change the result. -/
theorem read_schema_compiles_scan (X : Ext) (r : Store) (tenantID version : Str) :
    ∃ scan : List SchemaDefinition,
      scan.Sublist (memdb.versionIndex r.DB) ∧
      scan.Perm (r.DB.filter (fun row => row.TenantID = tenantID && row.Version = version)) ∧
      (ReadSchema X r tenantID version).1 =
        (match X.NewSchemaFromStringDefinitions false
            (scan.map (fun row => row.SerializedDefinition)) with
          | .error err => (none, some err)
          | .ok sch => (some sch, none)) ∧
      ∀ row : SchemaDefinition, ¬ (row.TenantID = tenantID ∧ row.Version = version) →
        (ReadSchema X ⟨row :: r.DB, r.headVersion⟩ tenantID version).1 =
          (ReadSchema X r tenantID version).1 := by
  refine ⟨memdb.Get r.DB tenantID version, ?_, ?_, ?_, ?_⟩
  · exact List.filter_sublist _
  · exact (List.perm_insertionSort _ _).filter _
  · exact ReadSchema_eq X r tenantID version
  · intro row hrow
    rw [ReadSchema_eq, ReadSchema_eq]
    simp only [Get_cons_of_not r.DB tenantID version row hrow]

/-- C15 (`HeadVersion`).  When the tenant is mapped to a version, `HeadVersion`
returns that version and no error; when it is not, it returns the empty string
and the error `SchemaNotFound`; it fails exactly when the tenant is absent, and
the store after the call is the store before it. -/
theorem head_version (r : Store) (tenantID : Str) :
    (∀ version, r.headVersion.lookup tenantID = some version →
      (HeadVersion r tenantID).1 = (version, none)) ∧
    (r.headVersion.lookup tenantID = none →
      (HeadVersion r tenantID).1 = ([], some (.New "ERROR_CODE_SCHEMA_NOT_FOUND".toList))) ∧
    ((HeadVersion r tenantID).1.2 ≠ none ↔ r.headVersion.lookup tenantID = none) ∧
    (HeadVersion r tenantID).2 = r := by
  unfold HeadVersion
  cases h : r.headVersion.lookup tenantID with
  | none => simp [ERROR_CODE_SCHEMA_NOT_FOUND]
  | some v => simp

/-- C16 (single page content and sentinel).  Let the token be empty (lower bound
empty) or decode to the lower bound `lb`, let every row of the scan from the
lower bound hold a valid version identifier, and let `D` be the distinct
versions of the scan in scan order.  If `D` has at most `pageSize` elements,
`ListSchemas` returns the entries of all of `D` and the sentinel token; if it
has more, it returns the entries of the first `pageSize` elements of `D` and a
token that is not the sentinel.  In both cases the page has no repeated version
and at most `pageSize` entries. -/
theorem single_page (X : Ext) (r : Store) (tenantID : Str) (p : Pagination) (lb : Str)
    (hlb : (p.token = [] ∧ lb = []) ∨ (p.token ≠ [] ∧ X.DecodeToken p.token = .ok lb))
    (hvalid : ∀ row ∈ memdb.LowerBound r.DB tenantID lb,
      (X.xidTime row.Version).isSome = true) :
    ((Spec.distinctVersions (memdb.LowerBound r.DB tenantID lb)).length ≤ p.pageSize →
      (ListSchemas X r tenantID p).1 =
        ((Spec.distinctVersions (memdb.LowerBound r.DB tenantID lb)).map (Spec.entry X),
          some .noop, none)) ∧
    (p.pageSize < (Spec.distinctVersions (memdb.LowerBound r.DB tenantID lb)).length →
      ∃ tok, (ListSchemas X r tenantID p).1 =
        (((Spec.distinctVersions (memdb.LowerBound r.DB tenantID lb)).take p.pageSize).map
          (Spec.entry X), some (.token tok), none)) ∧
    (∃ page ct, (ListSchemas X r tenantID p).1 = (page, some ct, none) ∧
      (page.map (fun e => e.Version)).Nodup ∧ page.length ≤ p.pageSize) := by
  have hloop := ListSchemasLoop_spec X p.pageSize (memdb.LowerBound r.DB tenantID lb) [] []
    hvalid (Nat.zero_le _)
  simp only [List.nil_append, List.map_nil] at hloop
  rw [ListSchemas_eq X r tenantID p lb hlb]
  simp only [Spec.distinctVersions]
  have hD := (distinctFrom_spec
    ((memdb.LowerBound r.DB tenantID lb).map (fun row => row.Version)) []).1
  have hmap : ∀ l : List Str, (l.map (Spec.entry X)).map (fun e => e.Version) = l := by
    intro l
    induction l with
    | nil => rfl
    | cons v l ih =>
      rw [List.map_cons, List.map_cons, ih]
      rfl
  refine ⟨hloop.1, hloop.2, ?_⟩
  by_cases hc : (Spec.distinctFrom []
      ((memdb.LowerBound r.DB tenantID lb).map (fun row => row.Version))).length ≤ p.pageSize
  · refine ⟨_, _, hloop.1 hc, ?_, ?_⟩
    · rw [hmap]
      exact hD
    · rw [List.length_map]
      exact hc
  · obtain ⟨tok, ht⟩ := hloop.2 (by omega)
    refine ⟨_, _, ht, ?_, ?_⟩
    · rw [hmap]
      exact hD.sublist (List.take_sublist _ _)
    · rw [List.length_map, List.length_take]
      exact Nat.min_le_left _ _

/-- Witness of C16: three rows of one tenant with two versions, and a page size
of one. -/
theorem single_page_witness :
    ∃ tok, (ListSchemas testExt
        ⟨[Example.row "t1".toList "user".toList Example.v2,
          Example.row "t1".toList "doc".toList Example.v1,
          Example.row "t1".toList "user".toList Example.v1], []⟩
        "t1".toList ⟨1, []⟩).1 =
      (((Spec.distinctVersions (memdb.LowerBound
          [Example.row "t1".toList "user".toList Example.v2,
            Example.row "t1".toList "doc".toList Example.v1,
            Example.row "t1".toList "user".toList Example.v1] "t1".toList [])).take 1).map
        (Spec.entry testExt), some (.token tok), none) :=
  (single_page testExt
    ⟨[Example.row "t1".toList "user".toList Example.v2,
      Example.row "t1".toList "doc".toList Example.v1,
      Example.row "t1".toList "user".toList Example.v1], []⟩
    "t1".toList ⟨1, []⟩ [] (Or.inl ⟨rfl, rfl⟩) (by decide)).2.1 (by decide)

/-- C17 (tenant isolation of listing): the code on a table with one row of tenant
`t1` and one row of tenant `t2`.  The page listed for `t1` holds the version
`v2`, which exists only under `t2`. -/
theorem list_schemas_returns_other_tenant :
    (ListSchemas testExt
        ⟨[Example.row "t1".toList "user".toList Example.v1,
          Example.row "t2".toList "user".toList Example.v2], []⟩
        "t1".toList ⟨10, []⟩).1 =
      ([⟨Example.v1, "c000000".toList⟩, ⟨Example.v2, "d000000".toList⟩], some .noop, none) ∧
    (∀ row ∈ [Example.row "t1".toList "user".toList Example.v1,
        Example.row "t2".toList "user".toList Example.v2],
      row.Version = Example.v2 → row.TenantID ≠ "t1".toList) := by
  refine ⟨by rfl, by decide⟩

/-- C25 (reads do not write).  For every store and every argument, the store
after `ReadSchema`, `ReadEntityDefinition`, `ReadRuleDefinition`, `HeadVersion`
and `ListSchemas` is the store before the call, the row table and the
head-version index alike, whatever the call returns. -/
theorem reads_do_not_write (X : Ext) (r : Store) (tenantID name version : Str)
    (pagination : Pagination) :
    (ReadSchema X r tenantID version).2 = r ∧
      (ReadEntityDefinition X r tenantID name version).2 = r ∧
      (ReadRuleDefinition X r tenantID name version).2 = r ∧
      (HeadVersion r tenantID).2 = r ∧
      (ListSchemas X r tenantID pagination).2 = r := by
  have e1 : (ReadSchema X r tenantID version).2 = r := by
    simp only [ReadSchema]
    split <;> rfl
  refine ⟨e1, ?_, ?_, ?_, ?_⟩
  · simp only [ReadEntityDefinition]
    split
    · split
      · rfl
      · split <;> rfl
    · rfl
  · simp only [ReadRuleDefinition]
    split
    · split
      · rfl
      · split <;> rfl
    · rfl
  · simp only [HeadVersion]
    split <;> rfl
  · simp only [ListSchemas]
    split <;> rfl

end memory

namespace database

/-- C19 (`Engine.String`).  For every engine, `String` returns the string the
engine was built from; `POSTGRES`, `MYSQL` and `MEMORY` render as `postgres`,
`mysql` and `memory`, three pairwise distinct strings. -/
theorem engine_string (s : Str) :
    (Engine.mk s).String = s ∧
    POSTGRES.String = "postgres".toList ∧ MYSQL.String = "mysql".toList ∧
    MEMORY.String = "memory".toList ∧
    POSTGRES.String ≠ MYSQL.String ∧ POSTGRES.String ≠ MEMORY.String ∧
    MYSQL.String ≠ MEMORY.String := by
  refine ⟨rfl, rfl, rfl, rfl, by decide, by decide, by decide⟩

end database

namespace mysql

/-- C18 (pool options reach the pools): the code on `New(uri,
MaxOpenConnections(10), MaxIdleConnections(5), MaxConnectionIdleTime(60s),
MaxConnectionLifeTime(300s))`.  The options are stored in the instance, but the
pool configurations handed to `createPools` hold the zero value in every field
except the data source, and both pools are configured with zero. -/
theorem pool_configs_ignore_options :
    newDBConfigs "uri".toList "uri".toList =
      (⟨"uri".toList, 0, 0, 0, 0, 0, 0, 0⟩, ⟨"uri".toList, 0, 0, 0, 0, 0, 0, 0⟩) ∧
    New testEnv "uri".toList
        [MaxOpenConnections 10, MaxIdleConnections 5, MaxConnectionIdleTime 60000000000,
          MaxConnectionLifeTime 300000000000] =
      .ok { ReadPool := some ⟨"uri".toList, 0, 0, 0, 0⟩,
            WritePool := some ⟨"uri".toList, 0, 0, 0, 0⟩,
            maxDataPerWrite := 1000, maxRetries := 10, watchBufferSize := 100,
            maxConnectionLifeTime := 300000000000, maxConnectionIdleTime := 60000000000,
            maxOpenConnections := 10, maxIdleConnections := 5 } := by
  refine ⟨by rfl, by rfl⟩

end mysql

end Permify
